import Mathlib

/-!
Open-addressed hash table with backward-shift deletion.

A shallow embedding of `src/HashMap/HashMap.h`: the slot array is a list of
pairs, `size_t` arithmetic is arithmetic on naturals reduced modulo `2 ^ 64`,
the unbounded `for (;;)` loops carry a step budget that is exhausted exactly
when the loop would run forever, and an operation that does not return a
value ends in one of the faults of `Outcome`. The only allocation is the
`buckets_.resize` of the constructor; what the vector can hold is a parameter
of the model, `BucketStorage`.
-/

namespace HashMapModel

/-- Number of values of the 64-bit `size_t`. -/
def sizeMod : Nat := 2 ^ 64

/-- Result of a call: a value, a failed `assert`, the `std::out_of_range`
exception thrown by `at`, the `std::length_error` or `std::bad_alloc` exception
thrown by `buckets_.resize`, or a loop that never exits. -/
inductive Outcome (α : Type) where
  | ok (a : α)
  | assertFail
  | outOfRange
  | lengthError
  | badAlloc
  | hang
  deriving DecidableEq, Repr

/-- Sequencing of calls: the first fault is the fault of the whole. -/
def Outcome.bind {α β : Type} : Outcome α → (α → Outcome β) → Outcome β
  | .ok a, f => f a
  | .assertFail, _ => .assertFail
  | .outOfRange, _ => .outOfRange
  | .lengthError, _ => .lengthError
  | .badAlloc, _ => .badAlloc
  | .hang, _ => .hang

/-- The three data members of `class HashMap`. -/
structure HashMap (K V : Type) where
  emptyKey_ : K
  buckets_ : List (K × V)
  size_ : Nat
  deriving DecidableEq, Repr

/-- What the implementation provides for `std::vector<std::pair<Key, T>>`:
`maxSize` is `buckets_.max_size()`, beyond which `resize` throws
`std::length_error`, and `available` is the largest number of elements for
which the allocator returns storage, beyond which `resize` throws
`std::bad_alloc`. -/
class BucketStorage (K V : Type) where
  maxSize : Nat
  available : Nat

section Defs

variable {K V : Type}
variable (Hash : K → Nat) (KeyEqual : K → K → Bool)

/-- Source `bucketCount()`: the length of the slot array. -/
def bucketCount (t : HashMap K V) : Nat := t.buckets_.length

/-- Source `size()`: the stored element counter. -/
def size (t : HashMap K V) : Nat := t.size_

/-- Source `empty()`. -/
def empty (t : HashMap K V) : Bool := size t == 0

/-- Source `const size_t mask = buckets_.size() - 1;` in `size_t` arithmetic. -/
def mask (t : HashMap K V) : Nat := (t.buckets_.length + sizeMod - 1) % sizeMod

/-- Source `keyToIdx`: `Hash()(key) & mask`. -/
def keyToIdx (t : HashMap K V) (key : K) : Nat := (Hash key % sizeMod) &&& mask t

/-- Source `probeNext`: `(idx + 1) & mask`. -/
def probeNext (t : HashMap K V) (idx : Nat) : Nat := ((idx + 1) % sizeMod) &&& mask t

/-- Source `diff`: `(buckets_.size() + (a - b)) & mask`, the subtraction and the
addition wrapping modulo `2 ^ 64`. -/
def diff (t : HashMap K V) (a b : Nat) : Nat :=
  ((t.buckets_.length + (a + sizeMod - b) % sizeMod) % sizeMod) &&& mask t

/-- The loop `while (pow2 < bucketCount) pow2 <<= 1;` of the constructor.
Once `pow2` has been shifted out to `0` the loop can no longer exit. -/
def roundUpLoop : Nat → Nat → Nat → Outcome Nat
  | 0, _, _ => .hang
  | fuel + 1, pow2, bucketCount =>
    if pow2 < bucketCount then roundUpLoop fuel ((pow2 * 2) % sizeMod) bucketCount
    else .ok pow2

/-- The loop `for (it = other.begin(); it != other.end(); ++it) insert(*it);`
of the copying constructor: the slots of the source in index order, those
whose key equals the source's empty key skipped by the iterator. -/
def insertAll (ins : HashMap K V → K → V → Outcome (HashMap K V)) (srcEmpty : K) :
    List (K × V) → HashMap K V → Outcome (HashMap K V)
  | [], acc => .ok acc
  | p :: rest, acc =>
    if KeyEqual p.1 srcEmpty then insertAll ins srcEmpty rest acc
    else (ins acc p.1 p.2).bind fun acc1 => insertAll ins srcEmpty rest acc1

/-- Table component of the result of an insertion. -/
def Outcome.table {α : Type} : Outcome (HashMap K V × α) → Outcome (HashMap K V)
  | .ok r => .ok r.1
  | .assertFail => .assertFail
  | .outOfRange => .outOfRange
  | .lengthError => .lengthError
  | .badAlloc => .badAlloc
  | .hang => .hang

variable [Inhabited V]

/-- Source `buckets_[idx]`; every index the table computes is masked, hence in range
whenever the array length is a power of two. -/
def bucketAt (t : HashMap K V) (idx : Nat) : K × V :=
  t.buckets_.getD idx (t.emptyKey_, default)

/-- The probe loop of `emplaceImpl`, started after the reservation. A budget of
`bucketCount()` steps covers every slot the probe sequence can visit. -/
def emplaceLoop (t : HashMap K V) (key : K) (v : V) :
    Nat → Nat → Outcome (HashMap K V × Nat × Bool)
  | 0, _ => .hang
  | fuel + 1, idx =>
    if KeyEqual (bucketAt t idx).1 t.emptyKey_ then
      .ok (⟨t.emptyKey_, t.buckets_.set idx (key, v), (t.size_ + 1) % sizeMod⟩, idx, true)
    else if KeyEqual (bucketAt t idx).1 key then .ok (t, idx, false)
    else emplaceLoop t key v fuel (probeNext t idx)

/-- The probe loop of `findImpl`; `end()` is the index `bucketCount()`. -/
def findLoop (t : HashMap K V) (key : K) : Nat → Nat → Outcome Nat
  | 0, _ => .hang
  | fuel + 1, idx =>
    if KeyEqual (bucketAt t idx).1 key then .ok idx
    else if KeyEqual (bucketAt t idx).1 t.emptyKey_ then .ok t.buckets_.length
    else findLoop t key fuel (probeNext t idx)

/-- Source `findImpl(key)`. -/
def findImpl (t : HashMap K V) (key : K) : Outcome Nat :=
  if KeyEqual t.emptyKey_ key then .assertFail
  else findLoop KeyEqual t key t.buckets_.length (keyToIdx Hash t key)

/-- Source `find(key)`. -/
def find (t : HashMap K V) (key : K) : Outcome Nat := findImpl Hash KeyEqual t key

/-- Source `count_impl(key)`. -/
def count_impl (t : HashMap K V) (key : K) : Outcome Nat :=
  (findImpl Hash KeyEqual t key).bind fun it =>
    .ok (if it = t.buckets_.length then 0 else 1)

/-- Source `count(key)`. -/
def count (t : HashMap K V) (key : K) : Outcome Nat := count_impl Hash KeyEqual t key

/-- Source `atImpl(key)`: the value found, or `std::out_of_range`. -/
def atImpl (t : HashMap K V) (key : K) : Outcome V :=
  (findImpl Hash KeyEqual t key).bind fun it =>
    if it ≠ t.buckets_.length then .ok (bucketAt t it).2 else .outOfRange

/-- The loop of `eraseImpl(iterator)`: `bucket` is the slot being vacated. -/
def eraseLoop : Nat → HashMap K V → Nat → Nat → Outcome (HashMap K V)
  | 0, _, _, _ => .hang
  | fuel + 1, t, bucket, idx =>
    if KeyEqual (bucketAt t idx).1 t.emptyKey_ then
      .ok ⟨t.emptyKey_, t.buckets_.set bucket (t.emptyKey_, (bucketAt t bucket).2),
        (t.size_ + sizeMod - 1) % sizeMod⟩
    else
      if diff t bucket (keyToIdx Hash t (bucketAt t idx).1)
          < diff t idx (keyToIdx Hash t (bucketAt t idx).1) then
        eraseLoop fuel ⟨t.emptyKey_, t.buckets_.set bucket (bucketAt t idx), t.size_⟩
          idx (probeNext t idx)
      else eraseLoop fuel t bucket (probeNext t idx)

/-- Source `eraseImpl(it)` for the position `it.idx_`. -/
def eraseImpl (t : HashMap K V) (it : Nat) : Outcome (HashMap K V) :=
  eraseLoop Hash KeyEqual t.buckets_.length t it (probeNext t it)

/-- Source `eraseImpl(key)`: the table afterwards and the number of entries removed. -/
def eraseKeyImpl (t : HashMap K V) (key : K) : Outcome (HashMap K V × Nat) :=
  (findImpl Hash KeyEqual t key).bind fun it =>
    if it ≠ t.buckets_.length then
      (eraseImpl Hash KeyEqual t it).bind fun t1 => .ok (t1, 1)
    else .ok (t, 0)

/-- Source `erase(key)`. -/
def erase (t : HashMap K V) (key : K) : Outcome (HashMap K V × Nat) :=
  eraseKeyImpl Hash KeyEqual t key

/-- A slot is occupied when its key is not equal to the empty key. -/
def occupied (t : HashMap K V) (idx : Nat) : Bool :=
  !KeyEqual (bucketAt t idx).1 t.emptyKey_

/-- Assignment through the reference that `operator[]`, `at` or an iterator
gives to the value of an occupied slot. -/
def assign (t : HashMap K V) (idx : Nat) (v : V) : HashMap K V :=
  ⟨t.emptyKey_, t.buckets_.set idx ((bucketAt t idx).1, v), t.size_⟩

variable [BucketStorage K V]

/-- Source `buckets_.resize(pow2, value)` on the empty vector of a table under
construction. -/
def resize (pow2 : Nat) (value : K × V) : Outcome (List (K × V)) :=
  if @BucketStorage.maxSize K V _ < pow2 then .lengthError
  else if @BucketStorage.available K V _ < pow2 then .badAlloc
  else .ok (List.replicate pow2 value)

/-- Source `HashMap(std::size_t bucketCount, Key emptyKey)`. Sixty-five evaluations of
the loop condition either leave the loop or reach `pow2 = 0`. -/
def construct (bucketCount : Nat) (emptyKey : K) : Outcome (HashMap K V) :=
  (roundUpLoop 65 1 bucketCount).bind fun pow2 =>
    (resize pow2 (emptyKey, default)).bind fun buckets =>
      .ok ⟨emptyKey, buckets, 0⟩

/-- Source `HashMap(const HashMap &other, std::size_t bucketCount)`, with `insert`
passed in. -/
def copyConstruct (ins : HashMap K V → K → V → Outcome (HashMap K V))
    (other : HashMap K V) (bucketCount : Nat) : Outcome (HashMap K V) :=
  (construct bucketCount other.emptyKey_).bind fun fresh =>
    insertAll KeyEqual ins other.emptyKey_ other.buckets_ fresh

/-- Source `rehash(count)`: the table becomes the copy built with
`max(count, size() * 2)` buckets (`swap` exchanges all three members). -/
def rehashWith (ins : HashMap K V → K → V → Outcome (HashMap K V))
    (t : HashMap K V) (count : Nat) : Outcome (HashMap K V) :=
  copyConstruct KeyEqual ins t (max count ((t.size_ * 2) % sizeMod))

/-- Source `reserve(count)`. -/
def reserveWith (ins : HashMap K V → K → V → Outcome (HashMap K V))
    (t : HashMap K V) (count : Nat) : Outcome (HashMap K V) :=
  if (count * 3) % sizeMod > t.buckets_.length then
    rehashWith KeyEqual ins t ((count * 3) % sizeMod)
  else .ok t

/-- Source `emplaceImpl(key, args...)` with `v = T(args...)`. The first argument bounds
how often `emplaceImpl` is re-entered through
`reserve → rehash → HashMap(other, n) → insert`. -/
def emplaceImpl : Nat → HashMap K V → K → V → Outcome (HashMap K V × Nat × Bool)
  | 0, _, _, _ => .hang
  | depth + 1, t, key, v =>
    if KeyEqual t.emptyKey_ key then .assertFail
    else
      (reserveWith KeyEqual (fun o k w => Outcome.table (emplaceImpl depth o k w))
          t ((t.size_ + 1) % sizeMod)).bind fun t1 =>
        emplaceLoop KeyEqual t1 key v t1.buckets_.length (keyToIdx Hash t1 key)

/-- Re-entry budget of the public operations: a table built by the copying
constructor never needs more than one further rebuild while it is filled. -/
def callDepth : Nat := 3

/-- Source `emplace(key, value)`: position of the slot and whether it was added. -/
def emplace (t : HashMap K V) (key : K) (v : V) : Outcome (HashMap K V × Nat × Bool) :=
  emplaceImpl Hash KeyEqual callDepth t key v

/-- Source `insert(value)`: `emplaceImpl(value.first, value.second)`. -/
def insert (t : HashMap K V) (value : K × V) : Outcome (HashMap K V × Nat × Bool) :=
  emplaceImpl Hash KeyEqual callDepth t value.1 value.2

/-- Source `operator[]`: `emplaceImpl(key)` with a value-initialised `T`; the
reference returned is to the value of the slot at the position. -/
def subscript (t : HashMap K V) (key : K) : Outcome (HashMap K V × Nat × Bool) :=
  emplaceImpl Hash KeyEqual callDepth t key default

/-- Source `insert` as seen by the copying constructor. -/
def insertInto (o : HashMap K V) (k : K) (w : V) : Outcome (HashMap K V) :=
  Outcome.table (emplaceImpl Hash KeyEqual callDepth o k w)

/-- Public `HashMap(const HashMap &other, std::size_t bucketCount)`. -/
def copyWithCapacity (other : HashMap K V) (bucketCount : Nat) : Outcome (HashMap K V) :=
  copyConstruct KeyEqual (insertInto Hash KeyEqual) other bucketCount

/-- Public `rehash(count)`. -/
def rehash (t : HashMap K V) (count : Nat) : Outcome (HashMap K V) :=
  rehashWith KeyEqual (insertInto Hash KeyEqual) t count

/-- Public `reserve(count)`. -/
def reserve (t : HashMap K V) (count : Nat) : Outcome (HashMap K V) :=
  reserveWith KeyEqual (insertInto Hash KeyEqual) t count

/-- Source `clear()`: swap with a fresh table of `bucketCount()` buckets. -/
def clear (t : HashMap K V) : Outcome (HashMap K V) :=
  construct (bucketCount t) t.emptyKey_

end Defs

/-- Cyclic forward distance from slot `b` to slot `a` among `n` slots. -/
def dist (n a b : Nat) : Nat := (a + n - b) % n

/-- The array length is a power of two that a `size_t` can hold. -/
def IsPow2 (n : Nat) : Prop := ∃ e, e ≤ 63 ∧ n = 2 ^ e

/-- The equality strategy is an equivalence relation on keys. -/
structure KeyEquiv {K : Type} (KeyEqual : K → K → Bool) : Prop where
  refl : ∀ a, KeyEqual a a = true
  symm : ∀ a b, KeyEqual a b = true → KeyEqual b a = true
  trans : ∀ a b c, KeyEqual a b = true → KeyEqual b c = true → KeyEqual a c = true

/-- The hash strategy gives equal hashes to keys that the equality strategy
identifies. -/
def HashCongr {K : Type} (Hash : K → Nat) (KeyEqual : K → K → Bool) : Prop :=
  ∀ a b, KeyEqual a b = true → Hash a = Hash b

/-- The vector can be given `n` elements: `n` is within `max_size()` and within
what the allocator provides, so `resize` to `n` elements returns. -/
def Allocatable (K V : Type) [BucketStorage K V] (n : Nat) : Prop :=
  n ≤ @BucketStorage.maxSize K V _ ∧ n ≤ @BucketStorage.available K V _

/-- A request for `m` buckets can be met: some power of two that is at least
`m` fits a `size_t` and the vector can be given that many elements (then so
can the smallest such power, which is what the constructor asks for). -/
def CanHold (K V : Type) [BucketStorage K V] (m : Nat) : Prop :=
  ∃ x, x ≤ 63 ∧ m ≤ 2 ^ x ∧ Allocatable K V (2 ^ x)

section Specs

variable {K V : Type} [Inhabited V]
variable (Hash : K → Nat) (KeyEqual : K → K → Bool)

/-- No two occupied slots hold equal keys. -/
def Uniq (t : HashMap K V) : Prop :=
  ∀ i j, i < t.buckets_.length → j < t.buckets_.length →
    occupied KeyEqual t i = true → occupied KeyEqual t j = true →
    KeyEqual (bucketAt t i).1 (bucketAt t j).1 = true → i = j

/-- Some occupied slot stores value `v` under a key equal to `k`. -/
def Holds (t : HashMap K V) (k : K) (v : V) : Prop :=
  ∃ i, i < t.buckets_.length ∧ occupied KeyEqual t i = true ∧
    KeyEqual (bucketAt t i).1 k = true ∧ (bucketAt t i).2 = v

/-- State of the loop of `eraseImpl(it)` started on `t0` at position `p`: the
gap is at `g`, the slot examined next is `j`. -/
structure EraseInv (t0 : HashMap K V) (p : Nat) (t : HashMap K V) (g j : Nat) : Prop where
  emptyKey_eq : t.emptyKey_ = t0.emptyKey_
  size_eq : t.size_ = t0.size_
  length_eq : t.buckets_.length = t0.buckets_.length
  count_eq : t.buckets_.countP (fun q => !KeyEqual q.1 t0.emptyKey_)
    = t0.buckets_.countP (fun q => !KeyEqual q.1 t0.emptyKey_)
  gap_lt : g < t0.buckets_.length
  idx_lt : j < t0.buckets_.length
  gap_occ : occupied KeyEqual t g = true
  path : ∀ i x, i < t0.buckets_.length → x < t0.buckets_.length → i ≠ g →
    occupied KeyEqual t i = true →
    dist t0.buckets_.length x (keyToIdx Hash t0 (bucketAt t i).1)
      < dist t0.buckets_.length i (keyToIdx Hash t0 (bucketAt t i).1) →
    occupied KeyEqual t x = true
  ahead : ∀ i, i < t0.buckets_.length → i ≠ g → occupied KeyEqual t i = true →
    dist t0.buckets_.length g (keyToIdx Hash t0 (bucketAt t i).1)
      < dist t0.buckets_.length i (keyToIdx Hash t0 (bucketAt t i).1) →
    dist t0.buckets_.length j g ≤ dist t0.buckets_.length i g
  sound : ∀ i, i < t0.buckets_.length → i ≠ g →
    ∃ s, s < t0.buckets_.length ∧ s ≠ p ∧ bucketAt t i = bucketAt t0 s
  complete : ∀ s, s < t0.buckets_.length → s ≠ p →
    ∃ i, i < t0.buckets_.length ∧ i ≠ g ∧ bucketAt t i = bucketAt t0 s
  uniq : Uniq KeyEqual t0 → ∀ i i1, i < t0.buckets_.length → i1 < t0.buckets_.length →
    i ≠ g → i1 ≠ g → occupied KeyEqual t i = true → occupied KeyEqual t i1 = true →
    KeyEqual (bucketAt t i).1 (bucketAt t i1).1 = true → i = i1

/-- Effect of `emplaceImpl(key, v)` on table `t`, the result being the table
afterwards, the position returned and the flag returned. -/
structure Emplaced (t : HashMap K V) (k : K) (v : V) (r : HashMap K V × Nat × Bool) :
    Prop where
  uniq : Uniq KeyEqual r.1
  holds : ∀ k1 v1, Holds KeyEqual r.1 k1 v1 ↔
    Holds KeyEqual t k1 v1 ∨ ((∀ u, ¬ Holds KeyEqual t k u) ∧ KeyEqual k k1 = true ∧ v1 = v)
  pos_lt : r.2.1 < r.1.buckets_.length
  pos_key : KeyEqual (bucketAt r.1 r.2.1).1 k = true
  added : r.2.2 = true →
    (∀ u, ¬ Holds KeyEqual t k u) ∧ bucketAt r.1 r.2.1 = (k, v) ∧ r.1.size_ = t.size_ + 1
  kept : r.2.2 = false → (∃ u, Holds KeyEqual t k u) ∧ r.1.size_ = t.size_

/-- Key `k` is found, and dereferencing the position found gives value `v`. -/
def FoundWith (t : HashMap K V) (k : K) (v : V) : Prop :=
  ∃ i, find Hash KeyEqual t k = .ok i ∧ i ≠ bucketCount t ∧ (bucketAt t i).2 = v

variable [BucketStorage K V]

/-- Structural invariant of the table: power-of-two length that the vector was
given by `resize`, the counter counts the occupied slots, load factor at most
one third, and every slot strictly before an occupied slot on the probe path
of its key is occupied. -/
structure Inv (t : HashMap K V) : Prop where
  pow2 : IsPow2 t.buckets_.length
  fits : Allocatable K V t.buckets_.length
  counted : t.size_ = t.buckets_.countP (fun p => !KeyEqual p.1 t.emptyKey_)
  load : 3 * t.size_ ≤ t.buckets_.length
  path : ∀ i x, i < t.buckets_.length → x < t.buckets_.length →
    occupied KeyEqual t i = true →
    dist t.buckets_.length x (keyToIdx Hash t (bucketAt t i).1)
      < dist t.buckets_.length i (keyToIdx Hash t (bucketAt t i).1) →
    occupied KeyEqual t x = true

/-- Tables that the public operations produce from a constructed table.
`insert` and `operator[]` are instances of `emplace`; a call with the empty
key fails its assertion and yields no table. -/
inductive Reachable : HashMap K V → Prop
  | construct {n : Nat} {e : K} {t : HashMap K V} :
      construct n e = .ok t → Reachable t
  | copyWithCapacity {src t : HashMap K V} {n : Nat} :
      Reachable src → copyWithCapacity Hash KeyEqual src n = .ok t → Reachable t
  | emplace {t : HashMap K V} {key : K} {v : V} {r : HashMap K V × Nat × Bool} :
      Reachable t → emplace Hash KeyEqual t key v = .ok r → Reachable r.1
  | assign {t : HashMap K V} {idx : Nat} {v : V} :
      Reachable t → idx < bucketCount t → occupied KeyEqual t idx = true →
      Reachable (assign t idx v)
  | erase {t : HashMap K V} {key : K} {r : HashMap K V × Nat} :
      Reachable t → erase Hash KeyEqual t key = .ok r → Reachable r.1
  | eraseAt {t t1 : HashMap K V} {it : Nat} :
      Reachable t → it < bucketCount t → occupied KeyEqual t it = true →
      eraseImpl Hash KeyEqual t it = .ok t1 → Reachable t1
  | rehash {t t1 : HashMap K V} {n : Nat} :
      Reachable t → rehash Hash KeyEqual t n = .ok t1 → Reachable t1
  | reserve {t t1 : HashMap K V} {n : Nat} :
      Reachable t → reserve Hash KeyEqual t n = .ok t1 → Reachable t1
  | clear {t t1 : HashMap K V} :
      Reachable t → clear t = .ok t1 → Reachable t1

/-- Table `t1` is table `t0` with the entry of slot `p` removed; the other
entries are kept, possibly in other slots. -/
structure Erased (t0 : HashMap K V) (p : Nat) (t1 : HashMap K V) : Prop where
  inv : Inv Hash KeyEqual t1
  length_eq : t1.buckets_.length = t0.buckets_.length
  emptyKey_eq : t1.emptyKey_ = t0.emptyKey_
  size_eq : t1.size_ + 1 = t0.size_
  uniq : Uniq KeyEqual t0 → Uniq KeyEqual t1
  sound : ∀ i, i < t0.buckets_.length → occupied KeyEqual t1 i = true →
    ∃ s, s < t0.buckets_.length ∧ s ≠ p ∧ occupied KeyEqual t0 s = true ∧
      bucketAt t1 i = bucketAt t0 s
  complete : ∀ s, s < t0.buckets_.length → s ≠ p → occupied KeyEqual t0 s = true →
    ∃ i, i < t0.buckets_.length ∧ occupied KeyEqual t1 i = true ∧
      bucketAt t1 i = bucketAt t0 s

/-- What the copying constructor needs of the insertion it calls, as far as
the structural invariant goes. -/
def InsSound (ins : HashMap K V → K → V → Outcome (HashMap K V)) : Prop :=
  ∀ o k w o1, Inv Hash KeyEqual o → ins o k w = .ok o1 →
    Inv Hash KeyEqual o1 ∧ o.buckets_.length ≤ o1.buckets_.length ∧
      o1.size_ ≤ o.size_ + 1 ∧ o1.emptyKey_ = o.emptyKey_

/-- What the copying constructor needs of the insertion it calls, as far as
the stored pairs go. -/
def InsHolds (ins : HashMap K V → K → V → Outcome (HashMap K V)) : Prop :=
  ∀ o k w o1, Inv Hash KeyEqual o → Uniq KeyEqual o → ins o k w = .ok o1 →
    ∃ pos b, Emplaced KeyEqual o k w (o1, pos, b)

/-- A run of `emplace` calls, one for each pair of the list in order. -/
def emplaceList : List (K × V) → HashMap K V → Outcome (HashMap K V)
  | [], t => .ok t
  | p :: rest, t => (Outcome.table (emplace Hash KeyEqual t p.1 p.2)).bind (emplaceList rest)

end Specs

/-- Storage of the `HashMap<int, int>` examples: a `std::pair<int, int>` takes
eight bytes, which makes `max_size()` equal to `PTRDIFF_MAX / 8 = 2 ^ 60 - 1`;
the allocator is taken to provide up to `2 ^ 32` elements. -/
instance exampleStorage : BucketStorage Nat Nat := ⟨2 ^ 60 - 1, 2 ^ 32⟩

/-- Source `struct Hash` of `HashMapExample.cpp` on `int` keys. -/
def exampleHash (v : Nat) : Nat := v + 7

/-- Source `struct Equal` of `HashMapExample.cpp` on `int` keys. -/
def exampleEqual (lhs rhs : Nat) : Bool := lhs == rhs

/-- The table of `HashMapExample.cpp`: `hashMap(1, 0)`. -/
def exampleMap0 : HashMap Nat Nat := ⟨0, [(0, 0)], 0⟩

/-- The table of `HashMapExample.cpp` after `emplace(1, 1)`. -/
def exampleMap1 : HashMap Nat Nat := ⟨0, [(1, 1), (0, 0), (0, 0), (0, 0)], 1⟩

/-- The table of `HashMapExample.cpp` after `emplace(8, 2)`. -/
def exampleMap2 : HashMap Nat Nat :=
  ⟨0, [(1, 1), (0, 0), (0, 0), (0, 0), (0, 0), (0, 0), (0, 0), (8, 2)], 2⟩

/-- The table of `HashMapExample.cpp` after `hashMap[3]`, before the assignment. -/
def exampleMap3 : HashMap Nat Nat :=
  ⟨0, [(0, 0), (0, 0), (0, 0), (0, 0), (0, 0), (0, 0), (0, 0), (0, 0),
       (1, 1), (0, 0), (3, 0), (0, 0), (0, 0), (0, 0), (0, 0), (8, 2)], 3⟩

/-- The table of `HashMapExample.cpp` after `hashMap[3] = 3`. -/
def exampleMap : HashMap Nat Nat :=
  ⟨0, [(0, 0), (0, 0), (0, 0), (0, 0), (0, 0), (0, 0), (0, 0), (0, 0),
       (1, 1), (0, 0), (3, 3), (0, 0), (0, 0), (0, 0), (0, 0), (8, 2)], 3⟩

/-- The table of `HashMapExample.cpp` after `erase(1)`. -/
def exampleMapErased : HashMap Nat Nat :=
  ⟨0, [(0, 0), (0, 0), (0, 0), (0, 0), (0, 0), (0, 0), (0, 0), (0, 0),
       (0, 1), (0, 0), (3, 3), (0, 0), (0, 0), (0, 0), (0, 0), (8, 2)], 2⟩

/-- The table `HashMap<int, int, Hash, Equal>(16, 0)` after `emplace(i, i)` for
`i` from 1 to 5: one more entry would exceed a third of the sixteen buckets. -/
def fiveKeys : HashMap Nat Nat :=
  ⟨0, List.replicate 8 (0, 0) ++ [(1, 1), (2, 2), (3, 3), (4, 4), (5, 5)]
    ++ List.replicate 3 (0, 0), 5⟩

/-- The table `fiveKeys` after `emplace(1, 99)`: rebuilt with 32 buckets. -/
def fiveKeysGrown : HashMap Nat Nat :=
  ⟨0, List.replicate 8 (0, 0) ++ [(1, 1), (2, 2), (3, 3), (4, 4), (5, 5)]
    ++ List.replicate 19 (0, 0), 5⟩

/-- An equality strategy that is an equivalence relation: equal residues
modulo five. -/
def mod5Equal (a b : Nat) : Bool := a % 5 == b % 5

/-- A hash strategy that tells apart keys which `mod5Equal` identifies. -/
def identityHash (v : Nat) : Nat := v

/-- Sixteen empty buckets with empty key `0`: `HashMap<int, int>(16, 0)`. -/
def sixteen : HashMap Nat Nat := ⟨0, List.replicate 16 (0, 0), 0⟩

/-- The table `sixteen` after `emplace(1, 10)`. -/
def sixteenOne : HashMap Nat Nat :=
  ⟨0, [(0, 0), (1, 10), (0, 0), (0, 0), (0, 0), (0, 0), (0, 0), (0, 0),
       (0, 0), (0, 0), (0, 0), (0, 0), (0, 0), (0, 0), (0, 0), (0, 0)], 1⟩

/-- The table `sixteenOne` after `emplace(17, 20)`: key `17` probes from slot
`1` and lands in slot `2`. -/
def sixteenTwo : HashMap Nat Nat :=
  ⟨0, [(0, 0), (1, 10), (17, 20), (0, 0), (0, 0), (0, 0), (0, 0), (0, 0),
       (0, 0), (0, 0), (0, 0), (0, 0), (0, 0), (0, 0), (0, 0), (0, 0)], 2⟩

/-- The table `sixteenTwo` after `erase(1)`: key `17` has moved back to slot `1`. -/
def sixteenShifted : HashMap Nat Nat :=
  ⟨0, [(0, 0), (17, 20), (0, 20), (0, 0), (0, 0), (0, 0), (0, 0), (0, 0),
       (0, 0), (0, 0), (0, 0), (0, 0), (0, 0), (0, 0), (0, 0), (0, 0)], 1⟩

section Iteration

variable {K V : Type} [Inhabited V]
variable (KeyEqual : K → K → Bool)

/-- The loop of `advancePastEmpty`:
`while (idx_ < buckets_.size() && KeyEqual()(buckets_[idx_].first, emptyKey_)) ++idx_;`.
The index only grows, so the budget of `advancePastEmpty` is never exhausted
before the loop condition fails. -/
def advanceLoop (t : HashMap K V) : Nat → Nat → Nat
  | 0, idx => idx
  | fuel + 1, idx =>
    if idx < t.buckets_.length then
      if KeyEqual (bucketAt t idx).1 t.emptyKey_ then advanceLoop t fuel ((idx + 1) % sizeMod)
      else idx
    else idx

/-- Source `advancePastEmpty()` of the iterator at index `idx`. -/
def advancePastEmpty (t : HashMap K V) (idx : Nat) : Nat :=
  advanceLoop KeyEqual t (t.buckets_.length - idx) idx

/-- Source `begin()`: the iterator built at index 0 and advanced past empty slots. -/
def begin (t : HashMap K V) : Nat := advancePastEmpty KeyEqual t 0

/-- Source `end()`: the iterator at index `buckets_.size()`. -/
def endIdx (t : HashMap K V) : Nat := t.buckets_.length

/-- Source `operator++` of the iterator: `++idx_; advancePastEmpty();`. -/
def increment (t : HashMap K V) (idx : Nat) : Nat :=
  advancePastEmpty KeyEqual t ((idx + 1) % sizeMod)

/-- The loop `for (it = begin(); it != end(); ++it)`, collecting the indices
visited. -/
def iterLoop (t : HashMap K V) : Nat → Nat → List Nat
  | 0, _ => []
  | fuel + 1, it => if it = endIdx t then [] else it :: iterLoop t fuel (increment KeyEqual t it)

/-- The indices visited by iterating from `begin()` to `end()`; every step
moves the index up, so `bucketCount() + 1` tests of the loop condition cover
the walk. -/
def iterate (t : HashMap K V) : List Nat :=
  iterLoop KeyEqual t (t.buckets_.length + 1) (begin KeyEqual t)

end Iteration

section Shift

variable {K V : Type} [Inhabited V]
variable (Hash : K → Nat)

/-- During the loop of `eraseImpl(it)` started on `t0` at position `p`, with the
gap at `g`: every entry of `t0` other than the one being erased is still in the
table, either in its old slot or in a slot strictly nearer to the ideal index
of its key. -/
structure ShiftInv (t0 : HashMap K V) (p : Nat) (t : HashMap K V) (g : Nat) : Prop where
  kept : ∀ s, s < t0.buckets_.length → s ≠ p →
    ∃ i, i < t0.buckets_.length ∧ i ≠ g ∧ bucketAt t i = bucketAt t0 s ∧
      (i = s ∨ dist t0.buckets_.length i (keyToIdx Hash t0 (bucketAt t0 s).1)
        < dist t0.buckets_.length s (keyToIdx Hash t0 (bucketAt t0 s).1))

end Shift

/-- Number `r` is the smallest power of two that is at least `m`. -/
def IsRoundUp (m r : Nat) : Prop :=
  (∃ x, r = 2 ^ x) ∧ m ≤ r ∧ ∀ x, m ≤ 2 ^ x → r ≤ 2 ^ x

section Runs

variable {K V : Type} [Inhabited V]
variable (Hash : K → Nat) (KeyEqual : K → K → Bool)

/-- A run of `erase(key)` calls, one for each key of the list in order. -/
def eraseList : List K → HashMap K V → Outcome (HashMap K V)
  | [], t => .ok t
  | k :: rest, t => (Outcome.table (erase Hash KeyEqual t k)).bind (eraseList rest)

end Runs

/-- Sixteen buckets under the example hash `v + 7` holding keys 1 and 17, whose
ideal index is 8 for both: 17 sits one slot past its ideal index. -/
def sixteenCollided : HashMap Nat Nat :=
  ⟨0, List.replicate 8 (0, 0) ++ [(1, 1), (17, 2)] ++ List.replicate 6 (0, 0), 2⟩

theorem mod_wrap (x n : Nat) (h : x < 2 * n) :
    x % n = if x < n then x else x - n := by
  split
  · exact Nat.mod_eq_of_lt (by assumption)
  · rw [Nat.mod_eq_sub_mod (by omega)]
    exact Nat.mod_eq_of_lt (by omega)

theorem dist_def (n a b : Nat) (ha : a < n) (hb : b < n) :
    dist n a b = if b ≤ a then a - b else a + n - b := by
  unfold dist
  rw [mod_wrap _ _ (by omega)]
  split_ifs <;> omega

theorem dist_lt (n a b : Nat) (hn : 0 < n) : dist n a b < n := Nat.mod_lt _ hn

theorem step_def (n h d : Nat) (hh : h < n) (hd : d < n) :
    (h + d) % n = if h + d < n then h + d else h + d - n :=
  mod_wrap _ _ (by omega)

theorem dist_step (n h d : Nat) (hh : h < n) (hd : d < n) :
    dist n ((h + d) % n) h = d := by
  have hlt : (h + d) % n < n := Nat.mod_lt _ (by omega)
  rw [dist_def n _ h hlt hh, step_def n h d hh hd]
  split_ifs <;> omega

theorem step_dist (n a b : Nat) (ha : a < n) (hb : b < n) :
    (b + dist n a b) % n = a := by
  rw [step_def n b _ hb (dist_lt n a b (by omega)), dist_def n a b ha hb]
  split_ifs <;> omega

theorem dist_eq_zero (n a b : Nat) (ha : a < n) (hb : b < n) :
    dist n a b = 0 ↔ a = b := by
  rw [dist_def n a b ha hb]
  split <;> omega

theorem succ_def (n a : Nat) (ha : a < n) :
    (a + 1) % n = if a + 1 < n then a + 1 else 0 := by
  rw [mod_wrap _ _ (by omega)]
  split_ifs <;> omega

theorem dist_succ (n j g : Nat) (hj : j < n) (hg : g < n) (h : dist n j g + 1 < n) :
    dist n ((j + 1) % n) g = dist n j g + 1 := by
  have hlt : (j + 1) % n < n := Nat.mod_lt _ (by omega)
  rw [dist_def n j g hj hg] at h
  rw [dist_def n _ g hlt hg, dist_def n j g hj hg, succ_def n j hj]
  split_ifs at h ⊢ <;> omega

theorem dist_tri (n g h i j : Nat) (hg : g < n) (hh : h < n) (hi : i < n) (hj : j < n)
    (h1 : dist n g h < dist n i h) (h2 : dist n j g ≤ dist n i g) :
    dist n j h ≤ dist n i h := by
  rw [dist_def n g h hg hh, dist_def n i h hi hh] at h1
  rw [dist_def n j g hj hg, dist_def n i g hi hg] at h2
  rw [dist_def n j h hj hh, dist_def n i h hi hh]
  split_ifs at h1 h2 ⊢ <;> omega

theorem dist_succ_self (n j : Nat) (hj : j < n) : dist n ((j + 1) % n) j ≤ 1 := by
  have hlt : (j + 1) % n < n := Nat.mod_lt _ (by omega)
  rw [dist_def n _ j hlt hj, succ_def n j hj]
  split_ifs <;> omega

theorem dist_pos (n i j : Nat) (hi : i < n) (hj : j < n) (hne : i ≠ j) : 1 ≤ dist n i j := by
  rw [dist_def n i j hi hj]
  split_ifs <;> omega

theorem dist_self (n a : Nat) (ha : a < n) : dist n a a = 0 := by
  rw [dist_def n a a ha ha]
  simp

theorem IsPow2.pos {n : Nat} (h : IsPow2 n) : 0 < n := by
  obtain ⟨e, _, rfl⟩ := h
  exact Nat.pos_pow_of_pos e (by decide)

theorem IsPow2.le {n : Nat} (h : IsPow2 n) : n ≤ 2 ^ 63 := by
  obtain ⟨e, he, rfl⟩ := h
  exact Nat.pow_le_pow_right (by decide) he

theorem IsPow2.dvd {n : Nat} (h : IsPow2 n) : n ∣ sizeMod := by
  obtain ⟨e, he, rfl⟩ := h
  exact Nat.pow_dvd_pow 2 (by omega)

theorem IsPow2.land {n : Nat} (h : IsPow2 n) (x : Nat) : x &&& (n - 1) = x % n := by
  obtain ⟨e, _, rfl⟩ := h
  exact Nat.and_pow_two_sub_one_eq_mod x e

section Arith

variable {K V : Type}
variable (Hash : K → Nat)

theorem mask_eq (t : HashMap K V) (h : IsPow2 t.buckets_.length) :
    mask t = t.buckets_.length - 1 := by
  have h1 := h.pos
  have h2 := h.le
  unfold mask sizeMod
  omega

theorem keyToIdx_eq (t : HashMap K V) (h : IsPow2 t.buckets_.length) (key : K) :
    keyToIdx Hash t key = Hash key % t.buckets_.length := by
  unfold keyToIdx
  rw [mask_eq t h, h.land, Nat.mod_mod_of_dvd _ h.dvd]

theorem keyToIdx_lt (t : HashMap K V) (h : IsPow2 t.buckets_.length) (key : K) :
    keyToIdx Hash t key < t.buckets_.length := by
  rw [keyToIdx_eq Hash t h]
  exact Nat.mod_lt _ h.pos

theorem probeNext_eq (t : HashMap K V) (h : IsPow2 t.buckets_.length) (idx : Nat) :
    probeNext t idx = (idx + 1) % t.buckets_.length := by
  unfold probeNext
  rw [mask_eq t h, h.land, Nat.mod_mod_of_dvd _ h.dvd]

theorem probeNext_lt (t : HashMap K V) (h : IsPow2 t.buckets_.length) (idx : Nat) :
    probeNext t idx < t.buckets_.length := by
  rw [probeNext_eq t h]
  exact Nat.mod_lt _ h.pos

theorem diff_eq (t : HashMap K V) (h : IsPow2 t.buckets_.length) (a b : Nat)
    (_ha : a < t.buckets_.length) (hb : b < t.buckets_.length) :
    diff t a b = dist t.buckets_.length a b := by
  unfold diff dist
  rw [mask_eq t h, h.land, Nat.mod_mod_of_dvd _ h.dvd, Nat.add_mod_left,
    Nat.mod_mod_of_dvd _ h.dvd]
  obtain ⟨q, hq⟩ := h.dvd
  have hq0 : 0 < q := by
    rcases Nat.eq_zero_or_pos q with h0 | h0
    · rw [h0, Nat.mul_zero] at hq
      exact absurd hq (by unfold sizeMod; decide)
    · exact h0
  obtain ⟨r, rfl⟩ : ∃ r, q = r + 1 := ⟨q - 1, by omega⟩
  rw [hq, Nat.mul_succ]
  have e : a + (t.buckets_.length * r + t.buckets_.length) - b
      = (a + t.buckets_.length - b) + t.buckets_.length * r := by omega
  rw [e, Nat.add_mul_mod_self_left]

theorem keyToIdx_congr (KeyEqual : K → K → Bool) (hH : HashCongr Hash KeyEqual)
    (t : HashMap K V) (a b : K) (h : KeyEqual a b = true) :
    keyToIdx Hash t a = keyToIdx Hash t b := by
  unfold keyToIdx
  rw [hH a b h]

theorem keyToIdx_length (t t0 : HashMap K V) (h : t.buckets_.length = t0.buckets_.length)
    (key : K) : keyToIdx Hash t key = keyToIdx Hash t0 key := by
  unfold keyToIdx mask
  rw [h]

theorem probeNext_length (t t0 : HashMap K V) (h : t.buckets_.length = t0.buckets_.length)
    (idx : Nat) : probeNext t idx = probeNext t0 idx := by
  unfold probeNext mask
  rw [h]

end Arith

theorem getD_set {α : Type} (l : List α) (i j : Nat) (x d : α) (hi : i < l.length) :
    (l.set i x).getD j d = if i = j then x else l.getD j d := by
  simp only [List.getD_eq_getElem?_getD, List.getElem?_set, hi, if_true]
  split_ifs <;> rfl

theorem countP_lt_exists {α : Type} (q : α → Bool) (d : α) :
    ∀ l : List α, l.countP q < l.length → ∃ i, i < l.length ∧ q (l.getD i d) = false := by
  intro l
  induction l with
  | nil => intro h; simp at h
  | cons a l ih =>
    intro h
    cases hq : q a with
    | false => exact ⟨0, by simp, by simpa using hq⟩
    | true =>
      rw [List.countP_cons_of_pos _ _ hq, List.length_cons] at h
      obtain ⟨i, hi, hqi⟩ := ih (by omega)
      exact ⟨i + 1, by simp; omega, by simpa using hqi⟩

theorem countP_pos_of_getD {α : Type} (q : α → Bool) (d : α) (l : List α) (i : Nat)
    (hi : i < l.length) (hq : q (l.getD i d) = true) : 0 < l.countP q := by
  rw [List.countP_pos_iff]
  refine ⟨l.getD i d, ?_, hq⟩
  rw [List.getD_eq_getElem _ _ hi]
  exact List.getElem_mem _

theorem countP_set_getD {α : Type} (q : α → Bool) (d : α) (l : List α) (i : Nat) (x : α)
    (hi : i < l.length) :
    (l.set i x).countP q
      = (l.countP q - if q (l.getD i d) = true then 1 else 0) + if q x = true then 1 else 0 := by
  rw [List.countP_set q l i x hi, List.getD_eq_getElem _ _ hi]

section Slots

variable {K V : Type} [Inhabited V]
variable (KeyEqual : K → K → Bool)

theorem bucketAt_set (e e1 : K) (l : List (K × V)) (s s1 i j : Nat) (x : K × V)
    (hi : i < l.length) (hj : j < l.length) :
    bucketAt (⟨e, l.set i x, s⟩ : HashMap K V) j
      = if i = j then x else bucketAt (⟨e1, l, s1⟩ : HashMap K V) j := by
  unfold bucketAt
  simp only [getD_set l i j x _ hi]
  split_ifs
  · rfl
  · rw [List.getD_eq_getElem _ _ hj, List.getD_eq_getElem _ _ hj]

theorem bucketAt_put (t : HashMap K V) (e : K) (s g i : Nat) (x : K × V)
    (hg : g < t.buckets_.length) (hi : i < t.buckets_.length) :
    bucketAt (⟨e, t.buckets_.set g x, s⟩ : HashMap K V) i
      = if g = i then x else bucketAt t i := by
  cases t
  exact bucketAt_set _ _ _ _ _ _ _ _ hg hi

theorem exists_free (t : HashMap K V)
    (hc : t.buckets_.countP (fun p => !KeyEqual p.1 t.emptyKey_) < t.buckets_.length) :
    ∃ i, i < t.buckets_.length ∧ occupied KeyEqual t i = false := by
  obtain ⟨i, hi, hq⟩ := countP_lt_exists (fun p => !KeyEqual p.1 t.emptyKey_)
    (t.emptyKey_, default) t.buckets_ hc
  exact ⟨i, hi, hq⟩

end Slots

theorem first_stop (n : Nat) (stop : Nat → Bool) (h e : Nat) (hh : h < n) (he : e < n)
    (hs : stop e = true) :
    ∃ m, m < n ∧ stop ((h + m) % n) = true ∧ ∀ d, d < m → stop ((h + d) % n) = false := by
  have hex : ∃ m, stop ((h + m) % n) = true := ⟨dist n e h, by rw [step_dist n e h he hh]; exact hs⟩
  refine ⟨Nat.find hex, ?_, Nat.find_spec hex, ?_⟩
  · have hle : Nat.find hex ≤ dist n e h :=
      Nat.find_min' hex (by rw [step_dist n e h he hh]; exact hs)
    have := dist_lt n e h (by omega)
    omega
  · intro d hd
    have := Nat.find_min hex hd
    simpa using this

theorem dist_inj (n a b h : Nat) (ha : a < n) (hb : b < n) (hh : h < n)
    (e : dist n a h = dist n b h) : a = b := by
  rw [← step_dist n a h ha hh, ← step_dist n b h hb hh, e]

theorem succ_step (n h d : Nat) : ((h + 1) % n + d) % n = (h + (d + 1)) % n := by
  rw [Nat.mod_add_mod]
  congr 1
  omega

section Probe

variable {K V : Type} [Inhabited V]
variable (Hash : K → Nat) (KeyEqual : K → K → Bool)

theorem findLoop_skip (t : HashMap K V) (hp : IsPow2 t.buckets_.length) (key : K) :
    ∀ (m fuel h : Nat),
      (∀ d, d < m →
        KeyEqual (bucketAt t ((h + d) % t.buckets_.length)).1 key = false ∧
        KeyEqual (bucketAt t ((h + d) % t.buckets_.length)).1 t.emptyKey_ = false) →
      h < t.buckets_.length →
      findLoop KeyEqual t key (fuel + m) h
        = findLoop KeyEqual t key fuel ((h + m) % t.buckets_.length) := by
  intro m
  induction m with
  | zero =>
    intro fuel h _ hh
    rw [Nat.add_zero, Nat.add_zero, Nat.mod_eq_of_lt hh]
  | succ m ih =>
    intro fuel h hpass hh
    have h0 := hpass 0 (by omega)
    rw [Nat.add_zero, Nat.mod_eq_of_lt hh] at h0
    have e : fuel + (m + 1) = (fuel + m) + 1 := by omega
    rw [e, findLoop]
    simp only [h0.1, h0.2, Bool.false_eq_true, if_false]
    rw [probeNext_eq t hp, ih fuel _ _ (Nat.mod_lt _ hp.pos), succ_step]
    intro d hd
    rw [succ_step]
    exact hpass (d + 1) (by omega)

theorem emplaceLoop_skip (t : HashMap K V) (hp : IsPow2 t.buckets_.length) (key : K) (v : V) :
    ∀ (m fuel h : Nat),
      (∀ d, d < m →
        KeyEqual (bucketAt t ((h + d) % t.buckets_.length)).1 key = false ∧
        KeyEqual (bucketAt t ((h + d) % t.buckets_.length)).1 t.emptyKey_ = false) →
      h < t.buckets_.length →
      emplaceLoop KeyEqual t key v (fuel + m) h
        = emplaceLoop KeyEqual t key v fuel ((h + m) % t.buckets_.length) := by
  intro m
  induction m with
  | zero =>
    intro fuel h _ hh
    rw [Nat.add_zero, Nat.add_zero, Nat.mod_eq_of_lt hh]
  | succ m ih =>
    intro fuel h hpass hh
    have h0 := hpass 0 (by omega)
    rw [Nat.add_zero, Nat.mod_eq_of_lt hh] at h0
    have e : fuel + (m + 1) = (fuel + m) + 1 := by omega
    rw [e, emplaceLoop]
    simp only [h0.1, h0.2, Bool.false_eq_true, if_false]
    rw [probeNext_eq t hp, ih fuel _ _ (Nat.mod_lt _ hp.pos), succ_step]
    intro d hd
    rw [succ_step]
    exact hpass (d + 1) (by omega)

/-- The probe sequence from `h` stops at a first slot that is empty or holds a
key equal to `key`, within `bucketCount()` steps, if some slot is empty. -/
theorem probe_stop (t : HashMap K V) (key : K) (h : Nat)
    (hh : h < t.buckets_.length)
    (hfree : ∃ i, i < t.buckets_.length ∧ occupied KeyEqual t i = false) :
    ∃ m, m < t.buckets_.length ∧
      (KeyEqual (bucketAt t ((h + m) % t.buckets_.length)).1 key = true ∨
        KeyEqual (bucketAt t ((h + m) % t.buckets_.length)).1 t.emptyKey_ = true) ∧
      ∀ d, d < m →
        KeyEqual (bucketAt t ((h + d) % t.buckets_.length)).1 key = false ∧
        KeyEqual (bucketAt t ((h + d) % t.buckets_.length)).1 t.emptyKey_ = false := by
  obtain ⟨e, he, hocc⟩ := hfree
  have hemp : KeyEqual (bucketAt t e).1 t.emptyKey_ = true := by
    simpa [occupied] using hocc
  obtain ⟨m, hm, hstop, hmin⟩ := first_stop t.buckets_.length
    (fun x => KeyEqual (bucketAt t x).1 key || KeyEqual (bucketAt t x).1 t.emptyKey_)
    h e hh he (by simp [hemp])
  refine ⟨m, hm, by simpa using hstop, ?_⟩
  intro d hd
  simpa using hmin d hd

end Probe

section FindPure

variable {K V : Type} [Inhabited V]
variable (Hash : K → Nat) (KeyEqual : K → K → Bool)

/-- Outcome of the probe loop of `findImpl` in terms of the first slot on the
probe path that is empty or matches. -/
theorem findImpl_spec {t : HashMap K V} (hp : IsPow2 t.buckets_.length)
    (hfree : ∃ i, i < t.buckets_.length ∧ occupied KeyEqual t i = false)
    (key : K) (hne : KeyEqual t.emptyKey_ key = false) :
    ∃ m, m < t.buckets_.length ∧
      (∀ d, d < m →
        KeyEqual (bucketAt t ((keyToIdx Hash t key + d) % t.buckets_.length)).1 key = false ∧
        KeyEqual (bucketAt t ((keyToIdx Hash t key + d) % t.buckets_.length)).1 t.emptyKey_
          = false) ∧
      ((KeyEqual (bucketAt t ((keyToIdx Hash t key + m) % t.buckets_.length)).1 key = true ∧
          findImpl Hash KeyEqual t key
            = .ok ((keyToIdx Hash t key + m) % t.buckets_.length)) ∨
        (KeyEqual (bucketAt t ((keyToIdx Hash t key + m) % t.buckets_.length)).1 key = false ∧
          KeyEqual (bucketAt t ((keyToIdx Hash t key + m) % t.buckets_.length)).1 t.emptyKey_
            = true ∧
          findImpl Hash KeyEqual t key = .ok t.buckets_.length)) := by
  obtain ⟨m, hm, hstop, hpass⟩ := probe_stop KeyEqual t key (keyToIdx Hash t key)
    (keyToIdx_lt Hash t hp key) hfree
  refine ⟨m, hm, hpass, ?_⟩
  have hrun : findImpl Hash KeyEqual t key
      = findLoop KeyEqual t key (t.buckets_.length - m - 1 + 1)
          ((keyToIdx Hash t key + m) % t.buckets_.length) := by
    unfold findImpl
    simp only [hne, Bool.false_eq_true, if_false]
    rw [← findLoop_skip KeyEqual t hp key m _ _ hpass (keyToIdx_lt Hash t hp key)]
    congr 1
    omega
  rw [hrun, findLoop]
  cases hk : KeyEqual (bucketAt t ((keyToIdx Hash t key + m) % t.buckets_.length)).1 key with
  | true => left; simp
  | false =>
    right
    rw [hk] at hstop
    have he : KeyEqual (bucketAt t ((keyToIdx Hash t key + m) % t.buckets_.length)).1
        t.emptyKey_ = true := by simpa using hstop
    simp [he]

end FindPure

section Find

variable {K V : Type} [Inhabited V] [BucketStorage K V]
variable (Hash : K → Nat) (KeyEqual : K → K → Bool)

theorem not_empty_of_match (hE : KeyEquiv KeyEqual) (e key k1 : K)
    (hne : KeyEqual e key = false) (hm : KeyEqual k1 key = true) :
    KeyEqual k1 e = false := by
  cases h : KeyEqual k1 e with
  | false => rfl
  | true =>
    have := hE.trans e k1 key (hE.symm k1 e h) hm
    rw [hne] at this
    exact absurd this (by decide)

theorem Inv.size_lt {t : HashMap K V} (hI : Inv Hash KeyEqual t) :
    t.size_ < t.buckets_.length := by
  have h1 := hI.pow2.pos
  have h2 := hI.load
  omega

theorem Inv.free {t : HashMap K V} (hI : Inv Hash KeyEqual t) :
    ∃ i, i < t.buckets_.length ∧ occupied KeyEqual t i = false := by
  apply exists_free
  rw [← hI.counted]
  exact hI.size_lt

/-- A key stored in an occupied slot is found at that slot. -/
theorem findImpl_of_slot {t : HashMap K V} (hE : KeyEquiv KeyEqual)
    (hH : HashCongr Hash KeyEqual) (hI : Inv Hash KeyEqual t) (hU : Uniq KeyEqual t)
    (key : K) (hne : KeyEqual t.emptyKey_ key = false) (i : Nat) (hi : i < t.buckets_.length)
    (hk : KeyEqual (bucketAt t i).1 key = true) :
    findImpl Hash KeyEqual t key = .ok i := by
  have hocc : occupied KeyEqual t i = true := by
    simp [occupied, not_empty_of_match KeyEqual hE _ _ _ hne hk]
  have hh := keyToIdx_lt Hash t hI.pow2 key
  have hideal := keyToIdx_congr Hash KeyEqual hH t _ _ hk
  obtain ⟨m, hm, hpass, hres⟩ := findImpl_spec Hash KeyEqual hI.pow2 (hI.free) key hne
  have hidx : (keyToIdx Hash t key + m) % t.buckets_.length < t.buckets_.length :=
    Nat.mod_lt _ hI.pow2.pos
  have hdm := dist_step t.buckets_.length (keyToIdx Hash t key) m hh hm
  rcases Nat.lt_trichotomy m (dist t.buckets_.length i (keyToIdx Hash t key)) with hlt | heq | hgt
  · have hox := hI.path i _ hi hidx hocc (by rw [hideal, hdm]; exact hlt)
    have hnotempty : KeyEqual (bucketAt t ((keyToIdx Hash t key + m) % t.buckets_.length)).1
        t.emptyKey_ = false := by simpa [occupied] using hox
    rcases hres with ⟨hmatch, _⟩ | ⟨_, hempty, _⟩
    · have := hU _ i hidx hi hox hocc (hE.trans _ _ _ hmatch (hE.symm _ _ hk))
      rw [this] at hdm
      omega
    · rw [hnotempty] at hempty
      exact absurd hempty (by decide)
  · have hidx_eq : (keyToIdx Hash t key + m) % t.buckets_.length = i := by
      rw [heq]
      exact step_dist _ _ _ hi hh
    rw [hidx_eq] at hres
    rcases hres with ⟨_, hr⟩ | ⟨hno, _, _⟩
    · exact hr
    · rw [hk] at hno
      exact absurd hno (by decide)
  · have := (hpass _ hgt).1
    rw [step_dist _ _ _ hi hh, hk] at this
    exact absurd this (by decide)

/-- A key that no occupied slot stores is reported absent. -/
theorem findImpl_of_absent {t : HashMap K V}
    (hI : Inv Hash KeyEqual t) (key : K) (hne : KeyEqual t.emptyKey_ key = false)
    (habs : ∀ i, i < t.buckets_.length → KeyEqual (bucketAt t i).1 key = false) :
    findImpl Hash KeyEqual t key = .ok t.buckets_.length := by
  obtain ⟨m, _, _, hres⟩ := findImpl_spec Hash KeyEqual hI.pow2 (hI.free) key hne
  rcases hres with ⟨hmatch, _⟩ | ⟨_, _, hr⟩
  · rw [habs _ (Nat.mod_lt _ hI.pow2.pos)] at hmatch
    exact absurd hmatch (by decide)
  · exact hr

/-- Function `findImpl` returns, either `end()` or the index of a slot holding an equal key. -/
theorem findImpl_total {t : HashMap K V} (hI : Inv Hash KeyEqual t)
    (key : K) (hne : KeyEqual t.emptyKey_ key = false) :
    ∃ r, findImpl Hash KeyEqual t key = .ok r ∧
      (r = t.buckets_.length ∨ (r < t.buckets_.length ∧ KeyEqual (bucketAt t r).1 key = true)) := by
  obtain ⟨m, _, _, hres⟩ := findImpl_spec Hash KeyEqual hI.pow2 (hI.free) key hne
  rcases hres with ⟨hmatch, hr⟩ | ⟨_, _, hr⟩
  · exact ⟨_, hr, Or.inr ⟨Nat.mod_lt _ hI.pow2.pos, hmatch⟩⟩
  · exact ⟨_, hr, Or.inl rfl⟩

end Find

section ErasePure

variable {K V : Type} [Inhabited V]
variable (Hash : K → Nat) (KeyEqual : K → K → Bool)

theorem occupied_put (t : HashMap K V) (s g i : Nat) (x : K × V)
    (hg : g < t.buckets_.length) (hi : i < t.buckets_.length) :
    occupied KeyEqual (⟨t.emptyKey_, t.buckets_.set g x, s⟩ : HashMap K V) i
      = if g = i then !KeyEqual x.1 t.emptyKey_ else occupied KeyEqual t i := by
  unfold occupied
  rw [bucketAt_put t _ _ g i x hg hi]
  split_ifs <;> rfl

theorem EraseInv.skip {t0 t : HashMap K V} {p g j : Nat}
    (hp2 : IsPow2 t0.buckets_.length)
    (h : EraseInv Hash KeyEqual t0 p t g j)
    (hno : ¬ dist t0.buckets_.length g (keyToIdx Hash t0 (bucketAt t j).1)
      < dist t0.buckets_.length j (keyToIdx Hash t0 (bucketAt t j).1)) :
    EraseInv Hash KeyEqual t0 p t g ((j + 1) % t0.buckets_.length) where
  emptyKey_eq := h.emptyKey_eq
  size_eq := h.size_eq
  length_eq := h.length_eq
  count_eq := h.count_eq
  gap_lt := h.gap_lt
  idx_lt := Nat.mod_lt _ hp2.pos
  gap_occ := h.gap_occ
  path := h.path
  ahead := by
    intro i hi hne ho hd
    have hold := h.ahead i hi hne ho hd
    have hij : i ≠ j := by
      intro e
      rw [e] at hd
      exact hno hd
    have hdne : dist t0.buckets_.length j g ≠ dist t0.buckets_.length i g := by
      intro e
      exact hij (dist_inj _ _ _ _ h.idx_lt hi h.gap_lt e).symm
    have hlt := dist_lt t0.buckets_.length i g hp2.pos
    rw [dist_succ _ j g h.idx_lt h.gap_lt (by omega)]
    omega
  sound := h.sound
  complete := h.complete
  uniq := h.uniq

end ErasePure

section ErasePure

variable {K V : Type} [Inhabited V]
variable (Hash : K → Nat) (KeyEqual : K → K → Bool)

theorem EraseInv.move {t0 t : HashMap K V} {p g j : Nat}
    (hp2 : IsPow2 t0.buckets_.length)
    (h : EraseInv Hash KeyEqual t0 p t g j) (hocc : occupied KeyEqual t j = true)
    (hyes : dist t0.buckets_.length g (keyToIdx Hash t0 (bucketAt t j).1)
      < dist t0.buckets_.length j (keyToIdx Hash t0 (bucketAt t j).1)) :
    EraseInv Hash KeyEqual t0 p
      (⟨t.emptyKey_, t.buckets_.set g (bucketAt t j), t.size_⟩ : HashMap K V)
      j ((j + 1) % t0.buckets_.length) := by
  have hg : g < t.buckets_.length := by rw [h.length_eq]; exact h.gap_lt
  have hjg : j ≠ g := by
    intro e
    rw [e] at hyes
    exact Nat.lt_irrefl _ hyes
  have hoccj : KeyEqual (bucketAt t j).1 t.emptyKey_ = false := by
    simpa [occupied] using hocc
  have hb : ∀ i, i < t0.buckets_.length →
      bucketAt (⟨t.emptyKey_, t.buckets_.set g (bucketAt t j), t.size_⟩ : HashMap K V) i
        = if g = i then bucketAt t j else bucketAt t i := by
    intro i hi
    exact bucketAt_put t _ _ g i _ hg (by rw [h.length_eq]; exact hi)
  have ho : ∀ i, i < t0.buckets_.length →
      occupied KeyEqual
        (⟨t.emptyKey_, t.buckets_.set g (bucketAt t j), t.size_⟩ : HashMap K V) i
        = occupied KeyEqual t i := by
    intro i hi
    rw [occupied_put KeyEqual t _ g i _ hg (by rw [h.length_eq]; exact hi)]
    split_ifs with e
    · rw [← e, h.gap_occ, hoccj]; rfl
    · rfl
  refine
    { emptyKey_eq := h.emptyKey_eq
      size_eq := h.size_eq
      length_eq := by simp [h.length_eq]
      count_eq := ?_
      gap_lt := h.idx_lt
      idx_lt := Nat.mod_lt _ hp2.pos
      gap_occ := by rw [ho j h.idx_lt]; exact hocc
      path := ?_
      ahead := ?_
      sound := ?_
      complete := ?_
      uniq := ?_ }
  · show (t.buckets_.set g (bucketAt t j)).countP _ = _
    rw [countP_set_getD _ (t.emptyKey_, default) _ _ _ hg, ← h.count_eq]
    have h1 : (!KeyEqual (bucketAt t j).1 t0.emptyKey_) = true := by
      rw [← h.emptyKey_eq, hoccj]; rfl
    have h2 : (!KeyEqual (t.buckets_.getD g (t.emptyKey_, default)).1 t0.emptyKey_) = true := by
      have := h.gap_occ
      rw [← h.emptyKey_eq]
      simpa [occupied, bucketAt] using this
    have h3 : 0 < t.buckets_.countP (fun q => !KeyEqual q.1 t0.emptyKey_) :=
      countP_pos_of_getD _ (t.emptyKey_, default) _ g hg h2
    simp only [h1, h2, if_true]
    omega
  · intro i x hi hx hne hoi hd
    rw [ho x hx]
    rw [ho i hi] at hoi
    rw [hb i hi] at hd
    split_ifs at hd with e
    · subst e
      exact h.path j x h.idx_lt hx hjg hocc (Nat.lt_trans hd hyes)
    · exact h.path i x hi hx (fun e1 => e e1.symm) hoi hd
  · intro i hi hne _ _
    exact Nat.le_trans (dist_succ_self _ j h.idx_lt) (dist_pos _ i j hi h.idx_lt hne)
  · intro i hi hne
    rw [hb i hi]
    split_ifs with e
    · exact h.sound j h.idx_lt hjg
    · exact h.sound i hi (fun e1 => e e1.symm)
  · intro s hs hne
    obtain ⟨i, hi, hig, hbi⟩ := h.complete s hs hne
    by_cases hij : i = j
    · refine ⟨g, h.gap_lt, fun e => hjg e.symm, ?_⟩
      rw [hb g h.gap_lt, if_pos rfl, ← hij]
      exact hbi
    · refine ⟨i, hi, hij, ?_⟩
      rw [hb i hi, if_neg (fun e => hig e.symm)]
      exact hbi
  · intro hU i i1 hi hi1 hne hne1 hoi hoi1 hk
    rw [ho i hi] at hoi
    rw [ho i1 hi1] at hoi1
    rw [hb i hi, hb i1 hi1] at hk
    by_cases e : g = i
    · by_cases e1 : g = i1
      · rw [← e, ← e1]
      · rw [if_pos e, if_neg e1] at hk
        have := h.uniq hU j i1 h.idx_lt hi1 hjg (fun x => e1 x.symm) hocc hoi1 hk
        exact absurd this.symm hne1
    · by_cases e1 : g = i1
      · rw [if_neg e, if_pos e1] at hk
        have := h.uniq hU i j hi h.idx_lt (fun x => e x.symm) hjg hoi hocc hk
        exact absurd this hne
      · rw [if_neg e, if_neg e1] at hk
        exact h.uniq hU i i1 hi hi1 (fun x => e x.symm) (fun x => e1 x.symm) hoi hoi1 hk

end ErasePure

section Erase

variable {K V : Type} [Inhabited V] [BucketStorage K V]
variable (Hash : K → Nat) (KeyEqual : K → K → Bool)

theorem EraseInv.init {t0 : HashMap K V} (hI : Inv Hash KeyEqual t0) (p : Nat)
    (hp : p < t0.buckets_.length) (hocc : occupied KeyEqual t0 p = true) :
    EraseInv Hash KeyEqual t0 p t0 p ((p + 1) % t0.buckets_.length) where
  emptyKey_eq := rfl
  size_eq := rfl
  length_eq := rfl
  count_eq := rfl
  gap_lt := hp
  idx_lt := Nat.mod_lt _ hI.pow2.pos
  gap_occ := hocc
  path := fun i x hi hx _ ho hd => hI.path i x hi hx ho hd
  ahead := fun i hi hne _ _ =>
    Nat.le_trans (dist_succ_self _ p hp) (dist_pos _ i p hi hp hne)
  sound := fun i hi hne => ⟨i, hi, hne, rfl⟩
  complete := fun s hs hne => ⟨s, hs, hne, rfl⟩
  uniq := fun hU i i1 hi hi1 _ _ ho ho1 hk => hU i i1 hi hi1 ho ho1 hk

end Erase

section EraseRunPure

variable {K V : Type} [Inhabited V]
variable (Hash : K → Nat) (KeyEqual : K → K → Bool)

theorem occupied_move {t0 t : HashMap K V} {p g j : Nat}
    (h : EraseInv Hash KeyEqual t0 p t g j) (hocc : occupied KeyEqual t j = true)
    (i : Nat) (hi : i < t0.buckets_.length) :
    occupied KeyEqual
      (⟨t.emptyKey_, t.buckets_.set g (bucketAt t j), t.size_⟩ : HashMap K V) i
      = occupied KeyEqual t i := by
  have hg : g < t.buckets_.length := by rw [h.length_eq]; exact h.gap_lt
  have hoccj : KeyEqual (bucketAt t j).1 t.emptyKey_ = false := by
    simpa [occupied] using hocc
  rw [occupied_put KeyEqual t _ g i _ hg (by rw [h.length_eq]; exact hi)]
  split_ifs with e
  · rw [← e, h.gap_occ, hoccj]; rfl
  · rfl

theorem eraseLoop_step {t0 t : HashMap K V} {p g j : Nat}
    (hp2 : IsPow2 t0.buckets_.length)
    (h : EraseInv Hash KeyEqual t0 p t g j) (hocc : occupied KeyEqual t j = true)
    (fuel : Nat) :
    eraseLoop Hash KeyEqual (fuel + 1) t g j
      = if dist t0.buckets_.length g (keyToIdx Hash t0 (bucketAt t j).1)
            < dist t0.buckets_.length j (keyToIdx Hash t0 (bucketAt t j).1) then
          eraseLoop Hash KeyEqual fuel
            (⟨t.emptyKey_, t.buckets_.set g (bucketAt t j), t.size_⟩ : HashMap K V)
            j ((j + 1) % t0.buckets_.length)
        else eraseLoop Hash KeyEqual fuel t g ((j + 1) % t0.buckets_.length) := by
  have hp2t : IsPow2 t.buckets_.length := by rw [h.length_eq]; exact hp2
  have hoccj : KeyEqual (bucketAt t j).1 t.emptyKey_ = false := by
    simpa [occupied] using hocc
  have hk := keyToIdx_length Hash t t0 h.length_eq (bucketAt t j).1
  have hkl : keyToIdx Hash t0 (bucketAt t j).1 < t.buckets_.length := by
    rw [h.length_eq]; exact keyToIdx_lt Hash t0 hp2 _
  rw [eraseLoop]
  simp only [hoccj, Bool.false_eq_true, if_false]
  rw [hk, diff_eq t hp2t g _ (by rw [h.length_eq]; exact h.gap_lt) hkl,
    diff_eq t hp2t j _ (by rw [h.length_eq]; exact h.idx_lt) hkl,
    probeNext_eq t hp2t, h.length_eq]

end EraseRunPure

section EraseRunPure

variable {K V : Type} [Inhabited V]
variable (Hash : K → Nat) (KeyEqual : K → K → Bool)

theorem eraseLoop_run {t0 : HashMap K V} (hp2 : IsPow2 t0.buckets_.length) (p : Nat) :
    ∀ (n fuel : Nat) (t : HashMap K V) (g j : Nat),
      EraseInv Hash KeyEqual t0 p t g j → n < fuel →
      (∀ d, d < n → occupied KeyEqual t ((j + d) % t0.buckets_.length) = true) →
      occupied KeyEqual t ((j + n) % t0.buckets_.length) = false →
      ∃ t1 g1 j1, EraseInv Hash KeyEqual t0 p t1 g1 j1 ∧ occupied KeyEqual t1 j1 = false ∧
        eraseLoop Hash KeyEqual fuel t g j
          = .ok ⟨t1.emptyKey_, t1.buckets_.set g1 (t1.emptyKey_, (bucketAt t1 g1).2),
              (t1.size_ + sizeMod - 1) % sizeMod⟩ := by
  intro n
  induction n with
  | zero =>
    intro fuel t g j h hf _ hend
    rw [Nat.add_zero, Nat.mod_eq_of_lt h.idx_lt] at hend
    obtain ⟨f, rfl⟩ : ∃ f, fuel = f + 1 := ⟨fuel - 1, by omega⟩
    refine ⟨t, g, j, h, hend, ?_⟩
    have hemp : KeyEqual (bucketAt t j).1 t.emptyKey_ = true := by
      simpa [occupied] using hend
    rw [eraseLoop]
    simp only [hemp, if_true]
  | succ n ih =>
    intro fuel t g j h hf hrun hend
    obtain ⟨f, rfl⟩ : ∃ f, fuel = f + 1 := ⟨fuel - 1, by omega⟩
    have hocc : occupied KeyEqual t j = true := by
      have := hrun 0 (by omega)
      rwa [Nat.add_zero, Nat.mod_eq_of_lt h.idx_lt] at this
    rw [eraseLoop_step Hash KeyEqual hp2 h hocc f]
    split_ifs with hc
    · apply ih f _ j _ (h.move Hash KeyEqual hp2 hocc hc) (by omega)
      · intro d hd
        rw [succ_step, occupied_move Hash KeyEqual h hocc _ (Nat.mod_lt _ hp2.pos)]
        exact hrun (d + 1) (by omega)
      · rw [succ_step, occupied_move Hash KeyEqual h hocc _ (Nat.mod_lt _ hp2.pos)]
        exact hend
    · apply ih f t g _ (h.skip Hash KeyEqual hp2 hc) (by omega)
      · intro d hd
        rw [succ_step]
        exact hrun (d + 1) (by omega)
      · rw [succ_step]
        exact hend

end EraseRunPure

section EraseRun

variable {K V : Type} [Inhabited V] [BucketStorage K V]
variable (Hash : K → Nat) (KeyEqual : K → K → Bool)

theorem EraseInv.finish {t0 t : HashMap K V} {p g j : Nat} (hE : KeyEquiv KeyEqual)
    (hI : Inv Hash KeyEqual t0)
    (h : EraseInv Hash KeyEqual t0 p t g j) (hend : occupied KeyEqual t j = false) :
    Erased Hash KeyEqual t0 p
      (⟨t.emptyKey_, t.buckets_.set g (t.emptyKey_, (bucketAt t g).2),
        (t.size_ + sizeMod - 1) % sizeMod⟩ : HashMap K V) := by
  have hp2 := hI.pow2
  have hg : g < t.buckets_.length := by rw [h.length_eq]; exact h.gap_lt
  have hb : ∀ i, i < t0.buckets_.length →
      bucketAt (⟨t.emptyKey_, t.buckets_.set g (t.emptyKey_, (bucketAt t g).2),
        (t.size_ + sizeMod - 1) % sizeMod⟩ : HashMap K V) i
        = if g = i then (t.emptyKey_, (bucketAt t g).2) else bucketAt t i := by
    intro i hi
    exact bucketAt_put t _ _ g i _ hg (by rw [h.length_eq]; exact hi)
  have ho : ∀ i, i < t0.buckets_.length →
      occupied KeyEqual (⟨t.emptyKey_, t.buckets_.set g (t.emptyKey_, (bucketAt t g).2),
        (t.size_ + sizeMod - 1) % sizeMod⟩ : HashMap K V) i
        = if g = i then false else occupied KeyEqual t i := by
    intro i hi
    rw [occupied_put KeyEqual t _ g i _ hg (by rw [h.length_eq]; exact hi)]
    simp [hE.refl]
  have hcnt : 0 < t.buckets_.countP (fun q => !KeyEqual q.1 t0.emptyKey_) := by
    apply countP_pos_of_getD _ (t.emptyKey_, default) _ g hg
    have := h.gap_occ
    rw [← h.emptyKey_eq]
    simpa [occupied, bucketAt] using this
  have hsz : (t.size_ + sizeMod - 1) % sizeMod + 1 = t0.size_ := by
    have h1 := hI.counted
    have h2 := hI.load
    have h3 := hp2.le
    have h4 := h.size_eq
    have h5 := h.count_eq
    unfold sizeMod
    omega
  have hne : ∀ i, i < t0.buckets_.length →
      occupied KeyEqual (⟨t.emptyKey_, t.buckets_.set g (t.emptyKey_, (bucketAt t g).2),
        (t.size_ + sizeMod - 1) % sizeMod⟩ : HashMap K V) i = true →
      g ≠ i ∧ occupied KeyEqual t i = true := by
    intro i hi hoi
    rw [ho i hi] at hoi
    split_ifs at hoi with e
    exact ⟨e, hoi⟩
  refine
    { inv := ?_
      length_eq := by simp [h.length_eq]
      emptyKey_eq := h.emptyKey_eq
      size_eq := hsz
      uniq := ?_
      sound := ?_
      complete := ?_ }
  · refine
      { pow2 := by simpa [h.length_eq] using hp2
        fits := by simpa [h.length_eq] using hI.fits
        counted := ?_
        load := ?_
        path := ?_ }
    · show (t.size_ + sizeMod - 1) % sizeMod
        = (t.buckets_.set g (t.emptyKey_, (bucketAt t g).2)).countP
            (fun q => !KeyEqual q.1 t.emptyKey_)
      rw [countP_set_getD _ (t.emptyKey_, default) _ _ _ hg]
      have h1 : (!KeyEqual (t.buckets_.getD g (t.emptyKey_, default)).1 t.emptyKey_) = true := by
        have := h.gap_occ
        simpa [occupied, bucketAt] using this
      have h2 : (!KeyEqual (t.emptyKey_, (bucketAt t g).2).1 t.emptyKey_) = false := by
        simp [hE.refl]
      simp only [h1, h2, if_true, Bool.false_eq_true, if_false]
      have h3 := hI.counted
      have h5 := h.count_eq
      have h6 := hI.load
      have h7 := hp2.le
      have h8 := h.size_eq
      rw [← h.emptyKey_eq] at h5 hcnt h3
      unfold sizeMod
      omega
    · show 3 * ((t.size_ + sizeMod - 1) % sizeMod) ≤
        (t.buckets_.set g (t.emptyKey_, (bucketAt t g).2)).length
      have h2 := hI.load
      rw [List.length_set, h.length_eq]
      omega
    · intro i x hi hx hoi hd
      simp only [List.length_set, h.length_eq] at hi hx hd
      obtain ⟨hgi, hoi1⟩ := hne i hi hoi
      have hkey : keyToIdx Hash
          (⟨t.emptyKey_, t.buckets_.set g (t.emptyKey_, (bucketAt t g).2),
            (t.size_ + sizeMod - 1) % sizeMod⟩ : HashMap K V)
          (bucketAt (⟨t.emptyKey_, t.buckets_.set g (t.emptyKey_, (bucketAt t g).2),
            (t.size_ + sizeMod - 1) % sizeMod⟩ : HashMap K V) i).1
          = keyToIdx Hash t0 (bucketAt t i).1 := by
        rw [hb i hi, if_neg hgi]
        exact keyToIdx_length Hash _ t0 (by simp [h.length_eq]) _
      rw [hkey] at hd
      have hox := h.path i x hi hx (fun e => hgi e.symm) hoi1 hd
      rw [ho x hx]
      split_ifs with e
      · exfalso
        subst e
        have hh := keyToIdx_lt Hash t0 hp2 (bucketAt t i).1
        have h1 := h.ahead i hi (fun e => hgi e.symm) hoi1 hd
        have h2 := dist_tri _ g _ i j h.gap_lt hh hi h.idx_lt hd h1
        have hij : j ≠ i := by
          intro e
          rw [e, hoi1] at hend
          exact absurd hend (by decide)
        have h3 : dist t0.buckets_.length j (keyToIdx Hash t0 (bucketAt t i).1)
            ≠ dist t0.buckets_.length i (keyToIdx Hash t0 (bucketAt t i).1) :=
          fun e => hij (dist_inj _ _ _ _ h.idx_lt hi hh e)
        have h4 := h.path i j hi h.idx_lt (fun e => hgi e.symm) hoi1 (by omega)
        rw [h4] at hend
        exact absurd hend (by decide)
      · exact hox
  · intro hU i i1 hi hi1 hoi hoi1 hk
    simp only [List.length_set, h.length_eq] at hi hi1
    obtain ⟨hgi, ho1⟩ := hne i hi hoi
    obtain ⟨hgi1, ho2⟩ := hne i1 hi1 hoi1
    rw [hb i hi, hb i1 hi1, if_neg hgi, if_neg hgi1] at hk
    exact h.uniq hU i i1 hi hi1 (fun e => hgi e.symm) (fun e => hgi1 e.symm) ho1 ho2 hk
  · intro i hi hoi
    obtain ⟨hgi, ho1⟩ := hne i hi hoi
    obtain ⟨s, hs, hsp, hbs⟩ := h.sound i hi (fun e => hgi e.symm)
    refine ⟨s, hs, hsp, ?_, ?_⟩
    · have : occupied KeyEqual t0 s = occupied KeyEqual t i := by
        unfold occupied
        rw [hbs, h.emptyKey_eq]
      rw [this]
      exact ho1
    · rw [hb i hi, if_neg hgi]
      exact hbs
  · intro s hs hsp hos
    obtain ⟨i, hi, hig, hbi⟩ := h.complete s hs hsp
    refine ⟨i, hi, ?_, ?_⟩
    · rw [ho i hi, if_neg (fun e => hig e.symm)]
      unfold occupied
      rw [hbi, h.emptyKey_eq]
      exact hos
    · rw [hb i hi, if_neg (fun e => hig e.symm)]
      exact hbi

end EraseRun

section EraseSpec

variable {K V : Type} [Inhabited V] [BucketStorage K V]
variable (Hash : K → Nat) (KeyEqual : K → K → Bool)

/-- Function `eraseImpl(it)` on an occupied position returns and removes exactly the
entry of that position. -/
theorem eraseImpl_spec {t0 : HashMap K V} (hE : KeyEquiv KeyEqual)
    (hI : Inv Hash KeyEqual t0) (p : Nat) (hp : p < t0.buckets_.length)
    (hocc : occupied KeyEqual t0 p = true) :
    ∃ t1, eraseImpl Hash KeyEqual t0 p = .ok t1 ∧ Erased Hash KeyEqual t0 p t1 := by
  have hp2 := hI.pow2
  obtain ⟨e, he, hfree⟩ := hI.free
  obtain ⟨m, hm, hstop, hmin⟩ := first_stop t0.buckets_.length
    (fun x => !occupied KeyEqual t0 x) ((p + 1) % t0.buckets_.length) e
    (Nat.mod_lt _ hp2.pos) he (by simp [hfree])
  obtain ⟨t1, g1, j1, hinv, hend, hrun⟩ := eraseLoop_run Hash KeyEqual hp2 p m
    t0.buckets_.length t0 p ((p + 1) % t0.buckets_.length)
    (EraseInv.init Hash KeyEqual hI p hp hocc) hm
    (fun d hd => by simpa using hmin d hd) (by simpa using hstop)
  refine ⟨_, ?_, hinv.finish Hash KeyEqual hE hI hend⟩
  unfold eraseImpl
  rw [probeNext_eq t0 hp2]
  exact hrun

end EraseSpec

section EmplaceLoopPure

variable {K V : Type} [Inhabited V]
variable (Hash : K → Nat) (KeyEqual : K → K → Bool)

/-- Outcome of the probe loop of `emplaceImpl` on a table with a free slot. -/
theorem emplaceLoop_spec {t : HashMap K V} (hp2 : IsPow2 t.buckets_.length)
    (hfree : ∃ i, i < t.buckets_.length ∧ occupied KeyEqual t i = false)
    (key : K) (v : V) :
    ∃ idx, idx < t.buckets_.length ∧
      (∀ x, x < t.buckets_.length →
        dist t.buckets_.length x (keyToIdx Hash t key)
          < dist t.buckets_.length idx (keyToIdx Hash t key) →
        occupied KeyEqual t x = true ∧ KeyEqual (bucketAt t x).1 key = false) ∧
      ((occupied KeyEqual t idx = true ∧ KeyEqual (bucketAt t idx).1 key = true ∧
          emplaceLoop KeyEqual t key v t.buckets_.length (keyToIdx Hash t key)
            = .ok (t, idx, false)) ∨
        (occupied KeyEqual t idx = false ∧
          emplaceLoop KeyEqual t key v t.buckets_.length (keyToIdx Hash t key)
            = .ok (⟨t.emptyKey_, t.buckets_.set idx (key, v), (t.size_ + 1) % sizeMod⟩,
                idx, true))) := by
  have hh := keyToIdx_lt Hash t hp2 key
  obtain ⟨m, hm, hstop, hpass⟩ := probe_stop KeyEqual t key (keyToIdx Hash t key) hh hfree
  have hidx : (keyToIdx Hash t key + m) % t.buckets_.length < t.buckets_.length :=
    Nat.mod_lt _ hp2.pos
  refine ⟨_, hidx, ?_, ?_⟩
  · intro x hx hd
    rw [dist_step _ _ m hh hm] at hd
    have := hpass _ hd
    rw [step_dist _ _ _ hx hh] at this
    exact ⟨by simp [occupied, this.2], this.1⟩
  · have hrun : emplaceLoop KeyEqual t key v t.buckets_.length (keyToIdx Hash t key)
        = emplaceLoop KeyEqual t key v (t.buckets_.length - m - 1 + 1)
            ((keyToIdx Hash t key + m) % t.buckets_.length) := by
      rw [← emplaceLoop_skip KeyEqual t hp2 key v m _ _ hpass hh]
      congr 1
      omega
    rw [hrun, emplaceLoop]
    cases he : KeyEqual (bucketAt t ((keyToIdx Hash t key + m) % t.buckets_.length)).1
        t.emptyKey_ with
    | true => right; simp [occupied, he]
    | false =>
      left
      rw [he] at hstop
      have hk : KeyEqual (bucketAt t ((keyToIdx Hash t key + m) % t.buckets_.length)).1 key
          = true := by simpa using hstop
      simp [occupied, he, hk]

end EmplaceLoopPure

section EmplaceLoop

variable {K V : Type} [Inhabited V] [BucketStorage K V]
variable (Hash : K → Nat) (KeyEqual : K → K → Bool)

/-- Writing a new pair into a free slot reached by probing keeps the invariant. -/
theorem Inv.put {t : HashMap K V} (hE : KeyEquiv KeyEqual) (hI : Inv Hash KeyEqual t)
    (hroom : 3 * (t.size_ + 1) ≤ t.buckets_.length)
    (key : K) (v : V) (hne : KeyEqual t.emptyKey_ key = false)
    (idx : Nat) (hidx : idx < t.buckets_.length) (hfree : occupied KeyEqual t idx = false)
    (hpath : ∀ x, x < t.buckets_.length →
      dist t.buckets_.length x (keyToIdx Hash t key)
        < dist t.buckets_.length idx (keyToIdx Hash t key) →
      occupied KeyEqual t x = true) :
    Inv Hash KeyEqual
      (⟨t.emptyKey_, t.buckets_.set idx (key, v), (t.size_ + 1) % sizeMod⟩ : HashMap K V) := by
  have hp2 := hI.pow2
  have hkey : KeyEqual key t.emptyKey_ = false := by
    cases h : KeyEqual key t.emptyKey_ with
    | false => rfl
    | true =>
      have := hE.symm _ _ h
      rw [hne] at this
      exact absurd this (by decide)
  have hsz : (t.size_ + 1) % sizeMod = t.size_ + 1 := by
    have := hp2.le
    unfold sizeMod
    omega
  have hb : ∀ i, i < t.buckets_.length →
      bucketAt (⟨t.emptyKey_, t.buckets_.set idx (key, v), (t.size_ + 1) % sizeMod⟩ :
        HashMap K V) i = if idx = i then (key, v) else bucketAt t i :=
    fun i hi => bucketAt_put t _ _ idx i _ hidx hi
  have ho : ∀ i, i < t.buckets_.length →
      occupied KeyEqual (⟨t.emptyKey_, t.buckets_.set idx (key, v), (t.size_ + 1) % sizeMod⟩ :
        HashMap K V) i = if idx = i then true else occupied KeyEqual t i := by
    intro i hi
    rw [occupied_put KeyEqual t _ idx i _ hidx hi]
    simp [hkey]
  refine
    { pow2 := by simpa using hp2
      fits := by simpa using hI.fits
      counted := ?_
      load := ?_
      path := ?_ }
  · show (t.size_ + 1) % sizeMod
      = (t.buckets_.set idx (key, v)).countP (fun q => !KeyEqual q.1 t.emptyKey_)
    rw [countP_set_getD _ (t.emptyKey_, default) _ _ _ hidx, hsz]
    have h1 : (!KeyEqual (t.buckets_.getD idx (t.emptyKey_, default)).1 t.emptyKey_) = false := by
      simpa [occupied, bucketAt] using hfree
    have h2 : (!KeyEqual (key, v).1 t.emptyKey_) = true := by simp [hkey]
    simp only [h1, h2, if_true, Bool.false_eq_true, if_false]
    have := hI.counted
    omega
  · show 3 * ((t.size_ + 1) % sizeMod) ≤ (t.buckets_.set idx (key, v)).length
    rw [hsz, List.length_set]
    exact hroom
  · intro i x hi hx hoi hd
    simp only [List.length_set] at hi hx hd
    rw [ho x hx]
    split_ifs with ex
    · rfl
    · rw [keyToIdx_length Hash _ t (by simp), hb i hi] at hd
      rw [ho i hi] at hoi
      split_ifs at hd hoi with ei
      · exact hpath x hx (by rw [ei]; exact hd)
      · exact hI.path i x hi hx hoi hd

end EmplaceLoop

theorem roundUpLoop_zero (n : Nat) (hn : 0 < n) : ∀ fuel, roundUpLoop fuel 0 n = .hang := by
  intro fuel
  induction fuel with
  | zero => rfl
  | succ f ih =>
    rw [roundUpLoop, if_pos hn]
    exact ih

theorem double_pow (a : Nat) (ha : a ≤ 63) :
    (2 ^ a * 2) % sizeMod = if a < 63 then 2 ^ (a + 1) else 0 := by
  split_ifs with h
  · rw [← Nat.pow_succ]
    apply Nat.mod_eq_of_lt
    unfold sizeMod
    exact Nat.pow_lt_pow_right (by decide) (by omega)
  · have : a = 63 := by omega
    subst this
    unfold sizeMod
    decide

/-- A value returned by the constructor's loop is the least power of two, from
the starting one on, that is not below the requested bucket count. -/
theorem roundUpLoop_ok (n : Nat) :
    ∀ (fuel a r : Nat), a ≤ 63 → roundUpLoop fuel (2 ^ a) n = .ok r →
      ∃ e, a ≤ e ∧ e ≤ 63 ∧ r = 2 ^ e ∧ n ≤ r ∧ (a < e → 2 ^ (e - 1) < n) := by
  intro fuel
  induction fuel with
  | zero => intro a r _ h; simp [roundUpLoop] at h
  | succ f ih =>
    intro a r ha h
    rw [roundUpLoop] at h
    split_ifs at h with hlt
    · rw [double_pow a ha] at h
      split_ifs at h with h63
      · obtain ⟨e, hae, he, hr, hn, hmin⟩ := ih (a + 1) r (by omega) h
        refine ⟨e, by omega, he, hr, hn, ?_⟩
        intro _
        rcases Nat.eq_or_lt_of_le hae with heq | hlt2
        · rw [← heq]
          simpa using hlt
        · exact hmin hlt2
      · rw [roundUpLoop_zero n (Nat.lt_of_le_of_lt (Nat.zero_le _) hlt)] at h
        simp at h
    · injection h with h
      exact ⟨a, le_refl a, ha, h.symm, by rw [← h]; exact Nat.le_of_not_lt hlt,
        fun h => absurd h (lt_irrefl a)⟩

theorem roundUpLoop_total (n : Nat) (hn : n ≤ 2 ^ 63) :
    ∀ (fuel a : Nat), a ≤ 63 → 64 ≤ fuel + a → ∃ r, roundUpLoop fuel (2 ^ a) n = .ok r := by
  intro fuel
  induction fuel with
  | zero => intro a ha h; omega
  | succ f ih =>
    intro a ha h
    rw [roundUpLoop]
    split_ifs with hlt
    · rw [double_pow a ha]
      split_ifs with h63
      · exact ih (a + 1) (by omega) (by omega)
      · have : a = 63 := by omega
        subst this
        omega
    · exact ⟨_, rfl⟩

/-- A request above `2 ^ 63` shifts `pow2` out to zero: the loop never exits,
whatever the budget. -/
theorem roundUpLoop_hang (n : Nat) (hn : 2 ^ 63 < n) :
    ∀ (fuel a : Nat), a ≤ 63 → roundUpLoop fuel (2 ^ a) n = .hang := by
  intro fuel
  induction fuel with
  | zero => intro a _; rfl
  | succ f ih =>
    intro a ha
    have hlt : 2 ^ a < n := lt_of_le_of_lt (Nat.pow_le_pow_right (by decide) ha) hn
    rw [roundUpLoop, if_pos hlt, double_pow a ha]
    split_ifs with h63
    · exact ih (a + 1) (by omega)
    · exact roundUpLoop_zero n (Nat.lt_of_le_of_lt (Nat.zero_le _) hlt) f

theorem Outcome.bind_eq_ok {α β : Type} (x : Outcome α) (f : α → Outcome β) (b : β) :
    x.bind f = .ok b ↔ ∃ a, x = .ok a ∧ f a = .ok b := by
  cases x <;> simp [Outcome.bind]

theorem Outcome.table_eq_ok {K V α : Type} (x : Outcome (HashMap K V × α)) (o : HashMap K V) :
    Outcome.table x = .ok o ↔ ∃ r, x = .ok r ∧ r.1 = o := by
  cases x <;> simp [Outcome.table]

section Storage

variable {K V : Type} [BucketStorage K V]

theorem Allocatable.of_le {n m : Nat} (h : Allocatable K V m) (hle : n ≤ m) :
    Allocatable K V n :=
  ⟨le_trans hle h.1, le_trans hle h.2⟩

theorem CanHold.smaller {n m : Nat} (h : CanHold K V m) (hle : n ≤ m) : CanHold K V n := by
  obtain ⟨x, hx, hm, ha⟩ := h
  exact ⟨x, hx, le_trans hle hm, ha⟩

theorem CanHold.le_two_pow {m : Nat} (h : CanHold K V m) : m ≤ 2 ^ 63 := by
  obtain ⟨x, hx, hm, _⟩ := h
  exact le_trans hm (Nat.pow_le_pow_right (by decide) hx)

/-- The length of a table that satisfies `IsPow2` and was given its buckets can
be requested again. -/
theorem CanHold.of_pow2 {n : Nat} (hp : IsPow2 n) (ha : Allocatable K V n) :
    CanHold K V n := by
  obtain ⟨x, hx, rfl⟩ := hp
  exact ⟨x, hx, le_refl _, ha⟩

/-- With storage for `2 ^ 63` elements, a request can be held exactly when it
is at most `2 ^ 63`. -/
theorem canHold_iff_of_unbounded (h : Allocatable K V (2 ^ 63)) (m : Nat) :
    CanHold K V m ↔ m ≤ 2 ^ 63 :=
  ⟨fun hm => hm.le_two_pow, fun hm => ⟨63, le_refl _, hm, h⟩⟩

theorem resize_ok (n : Nat) (x : K × V) (l : List (K × V)) :
    resize n x = .ok l ↔ Allocatable K V n ∧ l = List.replicate n x := by
  unfold resize Allocatable
  split_ifs with h1 h2
  · constructor
    · intro h; cases h
    · rintro ⟨⟨h, _⟩, _⟩; omega
  · constructor
    · intro h; cases h
    · rintro ⟨⟨_, h⟩, _⟩; omega
  · constructor
    · intro h
      injection h with h
      exact ⟨⟨by omega, by omega⟩, h.symm⟩
    · rintro ⟨_, rfl⟩; rfl


end Storage

section ConstructPure

variable {K V : Type} [Inhabited V]
variable (Hash : K → Nat) (KeyEqual : K → K → Bool)

theorem bucketAt_replicate (e : K) (n s i : Nat) :
    bucketAt (⟨e, List.replicate n (e, default), s⟩ : HashMap K V) i = (e, default) := by
  unfold bucketAt
  simp only [List.getD_eq_getElem?_getD, List.getElem?_replicate]
  split_ifs <;> rfl

end ConstructPure

section Construct

variable {K V : Type} [Inhabited V] [BucketStorage K V]
variable (Hash : K → Nat) (KeyEqual : K → K → Bool)

theorem construct_ok (n : Nat) (e : K) (t : HashMap K V) (h : construct n e = .ok t) :
    ∃ r, t = ⟨e, List.replicate r (e, default), 0⟩ ∧ IsPow2 r ∧ n ≤ r ∧
      (∀ a, a < 64 → n ≤ 2 ^ a → r ≤ 2 ^ a) ∧ Allocatable K V r := by
  unfold construct at h
  obtain ⟨r, hr, h⟩ := (Outcome.bind_eq_ok _ _ _).mp h
  obtain ⟨l, hl, h⟩ := (Outcome.bind_eq_ok _ _ _).mp h
  obtain ⟨hal, rfl⟩ := (resize_ok r _ l).mp hl
  injection h with h
  obtain ⟨x, _, hx, hrx, hn, hmin⟩ := roundUpLoop_ok n 65 0 r (by omega) (by simpa using hr)
  refine ⟨r, h.symm, ⟨x, hx, hrx⟩, hn, ?_, hal⟩
  intro a _ hna
  rcases Nat.eq_zero_or_pos x with h0 | hpos
  · rw [hrx, h0]
    exact Nat.one_le_two_pow
  · have h1 := hmin hpos
    have h2 : 2 ^ (x - 1) < 2 ^ a := lt_of_lt_of_le h1 hna
    have h3 : x - 1 < a := (Nat.pow_lt_pow_iff_right (by decide)).mp h2
    rw [hrx]
    exact Nat.pow_le_pow_right (by decide) (by omega)

/-- The constructor returns exactly when the rounded request can be held. -/
theorem construct_total (n : Nat) (hn : CanHold K V n) (e : K) :
    ∃ t : HashMap K V, construct n e = .ok t := by
  obtain ⟨r, hr⟩ := roundUpLoop_total n hn.le_two_pow 65 0 (by omega) (by omega)
  obtain ⟨x, _, hx, hrx, _, hmin⟩ := roundUpLoop_ok n 65 0 r (by omega) hr
  obtain ⟨y, hy, hny, hay⟩ := hn
  have hle : r ≤ 2 ^ y := by
    rcases Nat.eq_zero_or_pos x with h0 | hpos
    · rw [hrx, h0]
      exact Nat.one_le_two_pow
    · have h1 := hmin hpos
      have h2 : 2 ^ (x - 1) < 2 ^ y := lt_of_lt_of_le h1 hny
      have h3 : x - 1 < y := (Nat.pow_lt_pow_iff_right (by decide)).mp h2
      rw [hrx]
      exact Nat.pow_le_pow_right (by decide) (by omega)
  refine ⟨⟨e, List.replicate r (e, default), 0⟩, ?_⟩
  unfold construct
  rw [show (1 : Nat) = 2 ^ 0 from rfl, hr]
  simp only [Outcome.bind]
  rw [(resize_ok r (e, default) _).mpr ⟨hay.of_le hle, rfl⟩]

theorem construct_canHold (n : Nat) (e : K) (t : HashMap K V) (h : construct n e = .ok t) :
    CanHold K V n := by
  obtain ⟨r, _, ⟨x, hx, rfl⟩, hn, _, hal⟩ := construct_ok n e t h
  exact ⟨x, hx, hn, hal⟩

theorem construct_hang (n : Nat) (hn : 2 ^ 63 < n) (e : K) :
    (construct n e : Outcome (HashMap K V)) = .hang := by
  unfold construct
  rw [show (1 : Nat) = 2 ^ 0 from rfl, roundUpLoop_hang n hn 65 0 (by omega)]
  rfl

/-- A freshly constructed table satisfies the invariant and has no occupied slot. -/
theorem construct_inv (hE : KeyEquiv KeyEqual) (n : Nat) (e : K) (t : HashMap K V)
    (h : construct n e = .ok t) :
    Inv Hash KeyEqual t ∧ t.emptyKey_ = e ∧ t.size_ = 0 ∧ n ≤ t.buckets_.length ∧
      (∀ i, occupied KeyEqual t i = false) := by
  obtain ⟨r, rfl, hp2, hn, _, hal⟩ := construct_ok n e t h
  have hocc : ∀ i, occupied KeyEqual
      (⟨e, List.replicate r (e, default), 0⟩ : HashMap K V) i = false := by
    intro i
    unfold occupied
    rw [bucketAt_replicate]
    simp [hE.refl]
  refine ⟨?_, rfl, rfl, by simpa using hn, hocc⟩
  refine
    { pow2 := by simpa using hp2
      fits := by simpa using hal
      counted := ?_
      load := by simp
      path := ?_ }
  · show 0 = (List.replicate r (e, (default : V))).countP (fun q => !KeyEqual q.1 e)
    rw [List.countP_replicate]
    simp [hE.refl]
  · intro i x _ _ hoi
    rw [hocc i] at hoi
    exact absurd hoi (by decide)

end Construct

section Sound

variable {K V : Type} [Inhabited V] [BucketStorage K V]
variable (Hash : K → Nat) (KeyEqual : K → K → Bool)

theorem insertAll_sound (ins : HashMap K V → K → V → Outcome (HashMap K V))
    (hS : InsSound Hash KeyEqual ins) (e : K) :
    ∀ (rest : List (K × V)) (acc o : HashMap K V), Inv Hash KeyEqual acc →
      insertAll KeyEqual ins e rest acc = .ok o →
      Inv Hash KeyEqual o ∧ acc.buckets_.length ≤ o.buckets_.length ∧
        o.size_ ≤ acc.size_ + rest.countP (fun q => !KeyEqual q.1 e) ∧
        o.emptyKey_ = acc.emptyKey_ := by
  intro rest
  induction rest with
  | nil =>
    intro acc o hI h
    simp only [insertAll, Outcome.ok.injEq] at h
    subst h
    exact ⟨hI, le_refl _, by simp, rfl⟩
  | cons p rest ih =>
    intro acc o hI h
    rw [insertAll] at h
    cases hk : KeyEqual p.1 e with
    | true =>
      rw [hk, if_pos rfl] at h
      obtain ⟨h1, h2, h3, h4⟩ := ih acc o hI h
      refine ⟨h1, h2, ?_, h4⟩
      rw [List.countP_cons_of_neg _ _ (by simp [hk])]
      exact h3
    | false =>
      rw [hk, if_neg (by decide)] at h
      obtain ⟨acc1, hins, hrest⟩ := (Outcome.bind_eq_ok _ _ _).mp h
      obtain ⟨hI1, hl1, hs1, he1⟩ := hS acc p.1 p.2 acc1 hI hins
      obtain ⟨h1, h2, h3, h4⟩ := ih acc1 o hI1 hrest
      refine ⟨h1, le_trans hl1 h2, ?_, h4.trans he1⟩
      rw [List.countP_cons_of_pos _ _ (by simp [hk])]
      omega

theorem copyConstruct_sound (hE : KeyEquiv KeyEqual)
    (ins : HashMap K V → K → V → Outcome (HashMap K V))
    (hS : InsSound Hash KeyEqual ins) (other o : HashMap K V) (n : Nat)
    (h : copyConstruct KeyEqual ins other n = .ok o) :
    Inv Hash KeyEqual o ∧ n ≤ o.buckets_.length ∧
      o.size_ ≤ other.buckets_.countP (fun q => !KeyEqual q.1 other.emptyKey_) ∧
      o.emptyKey_ = other.emptyKey_ := by
  unfold copyConstruct at h
  obtain ⟨fresh, hc, hall⟩ := (Outcome.bind_eq_ok _ _ _).mp h
  obtain ⟨hI, he, hs, hn, _⟩ := construct_inv Hash KeyEqual hE n _ fresh hc
  obtain ⟨h1, h2, h3, h4⟩ := insertAll_sound Hash KeyEqual ins hS _ _ fresh o hI hall
  refine ⟨h1, le_trans hn h2, ?_, h4.trans he⟩
  rw [hs] at h3
  simpa using h3

theorem rehashWith_sound (hE : KeyEquiv KeyEqual)
    (ins : HashMap K V → K → V → Outcome (HashMap K V))
    (hS : InsSound Hash KeyEqual ins) (t o : HashMap K V) (c : Nat)
    (h : rehashWith KeyEqual ins t c = .ok o) :
    Inv Hash KeyEqual o ∧ c ≤ o.buckets_.length ∧
      (t.size_ * 2) % sizeMod ≤ o.buckets_.length ∧
      o.size_ ≤ t.buckets_.countP (fun q => !KeyEqual q.1 t.emptyKey_) ∧
      o.emptyKey_ = t.emptyKey_ := by
  unfold rehashWith at h
  obtain ⟨h1, h2, h3, h4⟩ := copyConstruct_sound Hash KeyEqual hE ins hS t o _ h
  exact ⟨h1, le_trans (le_max_left _ _) h2, le_trans (le_max_right _ _) h2, h3, h4⟩

theorem reserveWith_sound (hE : KeyEquiv KeyEqual)
    (ins : HashMap K V → K → V → Outcome (HashMap K V))
    (hS : InsSound Hash KeyEqual ins) (t o : HashMap K V) (c : Nat)
    (hI : Inv Hash KeyEqual t)
    (h : reserveWith KeyEqual ins t c = .ok o) :
    Inv Hash KeyEqual o ∧ t.buckets_.length ≤ o.buckets_.length ∧
      (c * 3) % sizeMod ≤ o.buckets_.length ∧ o.size_ ≤ t.size_ ∧
      o.emptyKey_ = t.emptyKey_ ∧
      ((c * 3) % sizeMod ≤ t.buckets_.length → o = t) := by
  unfold reserveWith at h
  split_ifs at h with hc
  · obtain ⟨h1, h2, _, h3, h4⟩ := rehashWith_sound Hash KeyEqual hE ins hS t o _ h
    refine ⟨h1, by omega, h2, ?_, h4, fun hle => by omega⟩
    rw [hI.counted]
    exact h3
  · injection h with h
    subst h
    exact ⟨hI, le_refl _, by omega, le_refl _, rfl, fun _ => rfl⟩

/-- Unfolding of one level of `emplaceImpl`. -/
theorem emplaceImpl_succ (d : Nat) (t : HashMap K V) (key : K) (v : V)
    (r : HashMap K V × Nat × Bool) :
    emplaceImpl Hash KeyEqual (d + 1) t key v = .ok r ↔
      KeyEqual t.emptyKey_ key = false ∧
      ∃ t1, reserveWith KeyEqual (fun o k w => Outcome.table (emplaceImpl Hash KeyEqual d o k w))
          t ((t.size_ + 1) % sizeMod) = .ok t1 ∧
        emplaceLoop KeyEqual t1 key v t1.buckets_.length (keyToIdx Hash t1 key) = .ok r := by
  rw [emplaceImpl]
  cases hk : KeyEqual t.emptyKey_ key with
  | true => simp
  | false =>
    simp only [Bool.false_eq_true, if_false, true_and]
    exact Outcome.bind_eq_ok _ _ _

theorem size_succ_mod {t : HashMap K V} (hI : Inv Hash KeyEqual t) :
    (t.size_ + 1) % sizeMod = t.size_ + 1 ∧ ((t.size_ + 1) * 3) % sizeMod = (t.size_ + 1) * 3 := by
  have h1 := hI.load
  have h2 := hI.pow2.le
  unfold sizeMod
  omega

/-- What `emplaceLoop` does to a table that has room for one more entry. -/
theorem emplaceLoop_sound (hE : KeyEquiv KeyEqual) (t : HashMap K V) (key : K) (v : V)
    (hI : Inv Hash KeyEqual t) (hroom : 3 * (t.size_ + 1) ≤ t.buckets_.length)
    (hne : KeyEqual t.emptyKey_ key = false) :
    ∃ r, emplaceLoop KeyEqual t key v t.buckets_.length (keyToIdx Hash t key) = .ok r ∧
      Inv Hash KeyEqual r.1 ∧ r.1.buckets_.length = t.buckets_.length ∧
      r.1.emptyKey_ = t.emptyKey_ ∧ r.2.1 < t.buckets_.length ∧
      (∀ x, x < t.buckets_.length →
        dist t.buckets_.length x (keyToIdx Hash t key)
          < dist t.buckets_.length r.2.1 (keyToIdx Hash t key) →
        occupied KeyEqual t x = true ∧ KeyEqual (bucketAt t x).1 key = false) ∧
      ((r.2.2 = false ∧ r.1 = t ∧ occupied KeyEqual t r.2.1 = true ∧
          KeyEqual (bucketAt t r.2.1).1 key = true) ∨
        (r.2.2 = true ∧ occupied KeyEqual t r.2.1 = false ∧
          r.1 = ⟨t.emptyKey_, t.buckets_.set r.2.1 (key, v), t.size_ + 1⟩)) := by
  obtain ⟨idx, hidx, hpath, hres⟩ := emplaceLoop_spec Hash KeyEqual hI.pow2 hI.free key v
  have hsz := (size_succ_mod Hash KeyEqual hI).1
  rcases hres with ⟨hocc, hk, hrun⟩ | ⟨hfree, hrun⟩
  · exact ⟨_, hrun, hI, rfl, rfl, hidx, hpath, Or.inl ⟨rfl, rfl, hocc, hk⟩⟩
  · refine ⟨_, hrun, ?_, by simp, rfl, hidx, hpath, Or.inr ⟨rfl, hfree, by simp [hsz]⟩⟩
    exact hI.put Hash KeyEqual hE hroom key v hne idx hidx hfree (fun x hx hd => (hpath x hx hd).1)

theorem emplaceImpl_sound (hE : KeyEquiv KeyEqual) :
    ∀ d, InsSound Hash KeyEqual
      (fun (o : HashMap K V) k w => Outcome.table (emplaceImpl Hash KeyEqual d o k w)) := by
  intro d
  induction d with
  | zero =>
    intro o k w o1 _ h
    change Outcome.table (emplaceImpl Hash KeyEqual 0 o k w) = _ at h
    rw [show emplaceImpl Hash KeyEqual 0 o k w = .hang from rfl] at h
    exact absurd h (by simp [Outcome.table])
  | succ d ih =>
    intro o k w o1 hI h
    obtain ⟨r, hr, rfl⟩ := (Outcome.table_eq_ok _ _).mp h
    obtain ⟨hne, t1, hres, hloop⟩ := (emplaceImpl_succ Hash KeyEqual d o k w r).mp hr
    obtain ⟨hI1, hl1, hc1, hs1, he1, _⟩ :=
      reserveWith_sound Hash KeyEqual hE _ ih o t1 _ hI hres
    obtain ⟨hm1, hm2⟩ := size_succ_mod Hash KeyEqual hI
    rw [hm1, hm2] at hc1
    have hroom : 3 * (t1.size_ + 1) ≤ t1.buckets_.length := by omega
    obtain ⟨r1, hr1, hIr, hlr, her, _, _, hcase⟩ :=
      emplaceLoop_sound Hash KeyEqual hE t1 k w hI1 hroom (by rw [he1]; exact hne)
    rw [hloop] at hr1
    injection hr1 with hr1
    subst hr1
    refine ⟨hIr, by omega, ?_, her.trans he1⟩
    rcases hcase with ⟨_, h1, _, _⟩ | ⟨_, _, h1⟩
    · rw [h1]; omega
    · rw [h1]; show t1.size_ + 1 ≤ o.size_ + 1; omega

end Sound

section ReachPure

variable {K V : Type} [Inhabited V]
variable (Hash : K → Nat) (KeyEqual : K → K → Bool)

theorem findImpl_ok_ne (t : HashMap K V) (key : K) (r : Nat)
    (h : findImpl Hash KeyEqual t key = .ok r) : KeyEqual t.emptyKey_ key = false := by
  unfold findImpl at h
  cases hk : KeyEqual t.emptyKey_ key with
  | false => rfl
  | true => rw [hk, if_pos rfl] at h; exact absurd h (by simp)

end ReachPure

section Reach

variable {K V : Type} [Inhabited V] [BucketStorage K V]
variable (Hash : K → Nat) (KeyEqual : K → K → Bool)

/-- The two ways `eraseImpl(key)` returns. -/
theorem eraseKeyImpl_spec (hE : KeyEquiv KeyEqual) {t : HashMap K V}
    (hI : Inv Hash KeyEqual t) (key : K) (hne : KeyEqual t.emptyKey_ key = false) :
    (findImpl Hash KeyEqual t key = .ok t.buckets_.length ∧
        eraseKeyImpl Hash KeyEqual t key = .ok (t, 0)) ∨
      (∃ p t1, p < t.buckets_.length ∧ findImpl Hash KeyEqual t key = .ok p ∧
        occupied KeyEqual t p = true ∧ KeyEqual (bucketAt t p).1 key = true ∧
        eraseKeyImpl Hash KeyEqual t key = .ok (t1, 1) ∧ Erased Hash KeyEqual t p t1) := by
  obtain ⟨r, hr, hcase⟩ := findImpl_total Hash KeyEqual hI key hne
  rcases hcase with rfl | ⟨hlt, hk⟩
  · left
    refine ⟨hr, ?_⟩
    unfold eraseKeyImpl
    rw [hr]
    simp [Outcome.bind]
  · right
    have hocc : occupied KeyEqual t r = true := by
      simp [occupied, not_empty_of_match KeyEqual hE _ _ _ hne hk]
    obtain ⟨t1, ht1, her⟩ := eraseImpl_spec Hash KeyEqual hE hI r hlt hocc
    refine ⟨r, t1, hlt, hr, hocc, hk, ?_, her⟩
    unfold eraseKeyImpl
    rw [hr]
    simp only [Outcome.bind]
    rw [if_pos (by omega), ht1]

theorem Inv.of_assign {t : HashMap K V} (hI : Inv Hash KeyEqual t) (idx : Nat)
    (hidx : idx < t.buckets_.length) (v : V) : Inv Hash KeyEqual (assign t idx v) := by
  have hb : ∀ i, i < t.buckets_.length →
      (bucketAt (assign t idx v) i).1 = (bucketAt t i).1 := by
    intro i hi
    unfold assign
    rw [bucketAt_put t _ _ idx i _ hidx hi]
    split_ifs with e
    · rw [e]
    · rfl
  have ho : ∀ i, i < t.buckets_.length →
      occupied KeyEqual (assign t idx v) i = occupied KeyEqual t i := by
    intro i hi
    unfold occupied
    rw [hb i hi]
    rfl
  refine
    { pow2 := by simpa [assign] using hI.pow2
      fits := by simpa [assign] using hI.fits
      counted := ?_
      load := by simpa [assign] using hI.load
      path := ?_ }
  · show t.size_ = (t.buckets_.set idx ((bucketAt t idx).1, v)).countP
        (fun q => !KeyEqual q.1 t.emptyKey_)
    rw [countP_set_getD _ (t.emptyKey_, default) _ _ _ hidx, hI.counted]
    show _ = _ - (if (!KeyEqual (bucketAt t idx).1 t.emptyKey_) = true then 1 else 0)
      + (if (!KeyEqual (bucketAt t idx).1 t.emptyKey_) = true then 1 else 0)
    split_ifs with hc
    · have : 0 < t.buckets_.countP (fun q => !KeyEqual q.1 t.emptyKey_) :=
        countP_pos_of_getD _ (t.emptyKey_, default) _ idx hidx hc
      omega
    · omega
  · intro i x hi hx hoi hd
    have hl : (assign t idx v).buckets_.length = t.buckets_.length := by simp [assign]
    rw [hl] at hi hx hd
    rw [ho x hx]
    rw [ho i hi] at hoi
    rw [hb i hi, keyToIdx_length Hash _ t hl] at hd
    exact hI.path i x hi hx hoi hd

/-- Every reachable table satisfies the structural invariant. -/
theorem Reachable.inv (hE : KeyEquiv KeyEqual) {t : HashMap K V}
    (hR : Reachable Hash KeyEqual t) : Inv Hash KeyEqual t := by
  induction hR with
  | construct h => exact (construct_inv Hash KeyEqual hE _ _ _ h).1
  | copyWithCapacity _ h _ =>
    exact (copyConstruct_sound Hash KeyEqual hE _
      (emplaceImpl_sound Hash KeyEqual hE callDepth) _ _ _ h).1
  | emplace _ h ih =>
    exact (emplaceImpl_sound Hash KeyEqual hE callDepth _ _ _ _ ih
      ((Outcome.table_eq_ok _ _).mpr ⟨_, h, rfl⟩)).1
  | assign _ hidx _ ih => exact ih.of_assign Hash KeyEqual _ hidx _
  | @erase t key r _ h ih =>
    have hne : KeyEqual t.emptyKey_ key = false := by
      unfold HashMapModel.erase eraseKeyImpl at h
      obtain ⟨it, hf, _⟩ := (Outcome.bind_eq_ok _ _ _).mp h
      exact findImpl_ok_ne Hash KeyEqual t key it hf
    rcases eraseKeyImpl_spec Hash KeyEqual hE ih key hne with ⟨_, hr⟩ | ⟨p, t1, _, _, _, _, hr, her⟩
    · unfold HashMapModel.erase at h
      rw [hr] at h
      injection h with h
      rw [← h]
      exact ih
    · unfold HashMapModel.erase at h
      rw [hr] at h
      injection h with h
      rw [← h]
      exact her.inv
  | eraseAt _ hit hocc h ih =>
    obtain ⟨t1, ht1, her⟩ := eraseImpl_spec Hash KeyEqual hE ih _ hit hocc
    rw [ht1] at h
    injection h with h
    rw [← h]
    exact her.inv
  | rehash _ h _ =>
    exact (rehashWith_sound Hash KeyEqual hE _
      (emplaceImpl_sound Hash KeyEqual hE callDepth) _ _ _ h).1
  | reserve _ h ih =>
    exact (reserveWith_sound Hash KeyEqual hE _
      (emplaceImpl_sound Hash KeyEqual hE callDepth) _ _ _ ih h).1
  | clear _ h _ => exact (construct_inv Hash KeyEqual hE _ _ _ h).1

end Reach

section HoldsBasicsPure

variable {K V : Type} [Inhabited V]
variable (Hash : K → Nat) (KeyEqual : K → K → Bool)

theorem bucketAt_getElem (t : HashMap K V) (i : Nat) (hi : i < t.buckets_.length) :
    bucketAt t i = t.buckets_.get ⟨i, hi⟩ := by
  unfold bucketAt
  rw [List.getD_eq_getElem _ _ hi]
  rfl

/-- Under uniqueness a key holds at most one value. -/
theorem holds_unique (hE : KeyEquiv KeyEqual) {t : HashMap K V} (hU : Uniq KeyEqual t)
    (k : K) (v w : V) (hv : Holds KeyEqual t k v) (hw : Holds KeyEqual t k w) : v = w := by
  obtain ⟨i, hi, hoi, hki, hvi⟩ := hv
  obtain ⟨j, hj, hoj, hkj, hvj⟩ := hw
  have := hU i j hi hj hoi hoj (hE.trans _ _ _ hki (hE.symm _ _ hkj))
  subst this
  rw [← hvi, ← hvj]

theorem holds_congr (hE : KeyEquiv KeyEqual) (t : HashMap K V) (k k1 : K) (v : V)
    (hk : KeyEqual k k1 = true) (h : Holds KeyEqual t k v) : Holds KeyEqual t k1 v := by
  obtain ⟨i, hi, hoi, hki, hvi⟩ := h
  exact ⟨i, hi, hoi, hE.trans _ _ _ hki hk, hvi⟩

theorem holds_iff_mem (t : HashMap K V) (k : K) (v : V) :
    Holds KeyEqual t k v ↔
      ∃ p, p ∈ t.buckets_ ∧ KeyEqual p.1 t.emptyKey_ = false ∧ KeyEqual p.1 k = true ∧ p.2 = v := by
  constructor
  · rintro ⟨i, hi, hocc, hk, hv⟩
    refine ⟨bucketAt t i, ?_, by simpa [occupied] using hocc, hk, hv⟩
    rw [bucketAt_getElem t i hi]
    exact List.get_mem _ _ _
  · rintro ⟨p, hp, hocc, hk, hv⟩
    obtain ⟨n, hn⟩ := List.get_of_mem hp
    refine ⟨n.1, n.2, ?_, ?_, ?_⟩
    · rw [occupied, bucketAt_getElem t n.1 n.2, hn, hocc]; rfl
    · rw [bucketAt_getElem t n.1 n.2, hn]; exact hk
    · rw [bucketAt_getElem t n.1 n.2, hn]; exact hv

theorem uniq_pairwise (t : HashMap K V) (hU : Uniq KeyEqual t) :
    t.buckets_.Pairwise (fun p q => KeyEqual p.1 t.emptyKey_ = false →
      KeyEqual q.1 t.emptyKey_ = false → KeyEqual p.1 q.1 = false) := by
  rw [List.pairwise_iff_get]
  intro i j hij hp hq
  cases hk : KeyEqual (t.buckets_.get i).1 (t.buckets_.get j).1 with
  | false => rfl
  | true =>
    have := hU i.1 j.1 i.2 j.2
      (by rw [occupied, bucketAt_getElem t i.1 i.2, hp]; rfl)
      (by rw [occupied, bucketAt_getElem t j.1 j.2, hq]; rfl)
      (by rw [bucketAt_getElem t i.1 i.2, bucketAt_getElem t j.1 j.2]; exact hk)
    have hlt : i.1 < j.1 := hij
    omega

end HoldsBasicsPure

section HoldsBasics

variable {K V : Type} [Inhabited V] [BucketStorage K V]
variable (Hash : K → Nat) (KeyEqual : K → K → Bool)

/-- Lookup of a stored key: `findImpl` gives its slot, `atImpl` its value. -/
theorem lookup_of_holds (hE : KeyEquiv KeyEqual) (hH : HashCongr Hash KeyEqual)
    {t : HashMap K V} (hI : Inv Hash KeyEqual t) (hU : Uniq KeyEqual t)
    (k : K) (hne : KeyEqual t.emptyKey_ k = false) (v : V) (h : Holds KeyEqual t k v) :
    ∃ i, i < t.buckets_.length ∧ findImpl Hash KeyEqual t k = .ok i ∧
      KeyEqual (bucketAt t i).1 k = true ∧ (bucketAt t i).2 = v ∧
      atImpl Hash KeyEqual t k = .ok v := by
  obtain ⟨i, hi, _, hki, hvi⟩ := h
  have hf := findImpl_of_slot Hash KeyEqual hE hH hI hU k hne i hi hki
  refine ⟨i, hi, hf, hki, hvi, ?_⟩
  unfold atImpl
  rw [hf]
  simp only [Outcome.bind]
  rw [if_pos (by omega), hvi]

/-- Lookup of a key that is not stored: `end()` and `std::out_of_range`. -/
theorem lookup_of_not_holds (hE : KeyEquiv KeyEqual)
    {t : HashMap K V} (hI : Inv Hash KeyEqual t)
    (k : K) (hne : KeyEqual t.emptyKey_ k = false) (h : ∀ v, ¬ Holds KeyEqual t k v) :
    findImpl Hash KeyEqual t k = .ok t.buckets_.length ∧
      atImpl Hash KeyEqual t k = .outOfRange := by
  have hf : findImpl Hash KeyEqual t k = .ok t.buckets_.length := by
    apply findImpl_of_absent Hash KeyEqual hI k hne
    intro i hi
    cases hk : KeyEqual (bucketAt t i).1 k with
    | false => rfl
    | true =>
      exfalso
      exact h _ ⟨i, hi, by simp [occupied, not_empty_of_match KeyEqual hE _ _ _ hne hk], hk, rfl⟩
  refine ⟨hf, ?_⟩
  unfold atImpl
  rw [hf]
  simp [Outcome.bind]

/-- Tables that hold the same values for a key answer `find` and `at` alike. -/
theorem lookup_eq_of_holds_iff (hE : KeyEquiv KeyEqual) (hH : HashCongr Hash KeyEqual)
    {t t1 : HashMap K V} (hI : Inv Hash KeyEqual t) (hU : Uniq KeyEqual t)
    (hI1 : Inv Hash KeyEqual t1) (hU1 : Uniq KeyEqual t1)
    (k : K) (hne : KeyEqual t.emptyKey_ k = false) (hne1 : KeyEqual t1.emptyKey_ k = false)
    (h : ∀ v, Holds KeyEqual t1 k v ↔ Holds KeyEqual t k v) :
    atImpl Hash KeyEqual t1 k = atImpl Hash KeyEqual t k ∧
      (findImpl Hash KeyEqual t1 k = .ok t1.buckets_.length ↔
        findImpl Hash KeyEqual t k = .ok t.buckets_.length) := by
  by_cases hex : ∃ v, Holds KeyEqual t k v
  · obtain ⟨v, hv⟩ := hex
    obtain ⟨i, hi, hf, _, _, ha⟩ := lookup_of_holds Hash KeyEqual hE hH hI hU k hne v hv
    obtain ⟨i1, hi1, hf1, _, _, ha1⟩ :=
      lookup_of_holds Hash KeyEqual hE hH hI1 hU1 k hne1 v ((h v).mpr hv)
    refine ⟨by rw [ha, ha1], ?_⟩
    rw [hf, hf1]
    constructor
    · intro e; injection e with e; omega
    · intro e; injection e with e; omega
  · have hno : ∀ v, ¬ Holds KeyEqual t k v := fun v hv => hex ⟨v, hv⟩
    obtain ⟨hf, ha⟩ := lookup_of_not_holds Hash KeyEqual hE hI k hne hno
    obtain ⟨hf1, ha1⟩ := lookup_of_not_holds Hash KeyEqual hE hI1 k hne1
      (fun v hv => hno v ((h v).mp hv))
    exact ⟨by rw [ha, ha1], by rw [hf, hf1]; simp⟩

/-- What `erase` does to the stored pairs. -/
theorem Erased.holds_iff (hE : KeyEquiv KeyEqual) {t0 t1 : HashMap K V} {p : Nat}
    (h : Erased Hash KeyEqual t0 p t1) (hU : Uniq KeyEqual t0) (hp : p < t0.buckets_.length)
    (hocc : occupied KeyEqual t0 p = true) (k : K) (v : V) :
    Holds KeyEqual t1 k v ↔
      Holds KeyEqual t0 k v ∧ KeyEqual (bucketAt t0 p).1 k = false := by
  constructor
  · rintro ⟨i, hi, hoi, hki, hvi⟩
    rw [h.length_eq] at hi
    obtain ⟨s, hs, hsp, hos, hbs⟩ := h.sound i hi hoi
    rw [hbs] at hki hvi
    refine ⟨⟨s, hs, hos, hki, hvi⟩, ?_⟩
    cases hk : KeyEqual (bucketAt t0 p).1 k with
    | false => rfl
    | true =>
      exact absurd (hU s p hs hp hos hocc (hE.trans _ _ _ hki (hE.symm _ _ hk))) hsp
  · rintro ⟨⟨s, hs, hos, hks, hvs⟩, hk⟩
    have hsp : s ≠ p := by
      intro e
      rw [e, hk] at hks
      exact absurd hks (by decide)
    obtain ⟨i, hi, hoi, hbi⟩ := h.complete s hs hsp hos
    exact ⟨i, by rw [h.length_eq]; exact hi, hoi, by rw [hbi]; exact hks, by rw [hbi]; exact hvs⟩

end HoldsBasics

section EmplaceHoldsPure

variable {K V : Type} [Inhabited V]
variable (Hash : K → Nat) (KeyEqual : K → K → Bool)

theorem Emplaced.of_iff {t t1 : HashMap K V} {k : K} {v : V} {r : HashMap K V × Nat × Bool}
    (h : Emplaced KeyEqual t1 k v r)
    (hiff : ∀ k1 v1, Holds KeyEqual t1 k1 v1 ↔ Holds KeyEqual t k1 v1)
    (hs : t1.size_ = t.size_) : Emplaced KeyEqual t k v r where
  uniq := h.uniq
  holds := by
    intro k1 v1
    rw [h.holds k1 v1, hiff k1 v1]
    simp only [hiff]
  pos_lt := h.pos_lt
  pos_key := h.pos_key
  added := by
    intro hb
    obtain ⟨h1, h2, h3⟩ := h.added hb
    exact ⟨fun u hu => h1 u ((hiff k u).mpr hu), h2, by rw [h3, hs]⟩
  kept := by
    intro hb
    obtain ⟨⟨u, hu⟩, h3⟩ := h.kept hb
    exact ⟨⟨u, (hiff k u).mp hu⟩, by rw [h3, hs]⟩

end EmplaceHoldsPure

section EmplaceHolds

variable {K V : Type} [Inhabited V] [BucketStorage K V]
variable (Hash : K → Nat) (KeyEqual : K → K → Bool)

/-- When the probe for `key` ends at a free slot, no slot stores `key`. -/
theorem absent_of_probe (hH : HashCongr Hash KeyEqual)
    {t : HashMap K V} (hI : Inv Hash KeyEqual t) (key : K) (idx : Nat)
    (hidx : idx < t.buckets_.length) (hfree : occupied KeyEqual t idx = false)
    (hpath : ∀ x, x < t.buckets_.length →
      dist t.buckets_.length x (keyToIdx Hash t key)
        < dist t.buckets_.length idx (keyToIdx Hash t key) →
      occupied KeyEqual t x = true ∧ KeyEqual (bucketAt t x).1 key = false) :
    ∀ i, i < t.buckets_.length → occupied KeyEqual t i = true →
      KeyEqual (bucketAt t i).1 key = false := by
  intro i hi hoi
  cases hk : KeyEqual (bucketAt t i).1 key with
  | false => rfl
  | true =>
    exfalso
    have hideal := keyToIdx_congr Hash KeyEqual hH t _ _ hk
    have hh := keyToIdx_lt Hash t hI.pow2 key
    rcases Nat.lt_trichotomy (dist t.buckets_.length i (keyToIdx Hash t key))
        (dist t.buckets_.length idx (keyToIdx Hash t key)) with hlt | heq | hgt
    · have := (hpath i hi hlt).2
      rw [hk] at this
      exact absurd this (by decide)
    · have := dist_inj _ _ _ _ hi hidx hh heq
      rw [this, hfree] at hoi
      exact absurd hoi (by decide)
    · have := hI.path i idx hi hidx hoi (by rw [hideal]; exact hgt)
      rw [hfree] at this
      exact absurd this (by decide)

theorem emplaceLoop_emplaced (hE : KeyEquiv KeyEqual) (hH : HashCongr Hash KeyEqual)
    (t : HashMap K V) (key : K) (v : V)
    (hI : Inv Hash KeyEqual t) (hU : Uniq KeyEqual t)
    (hroom : 3 * (t.size_ + 1) ≤ t.buckets_.length)
    (hne : KeyEqual t.emptyKey_ key = false) (r : HashMap K V × Nat × Bool)
    (hr : emplaceLoop KeyEqual t key v t.buckets_.length (keyToIdx Hash t key) = .ok r) :
    Emplaced KeyEqual t key v r := by
  obtain ⟨r1, hr1, _, _, _, hidx, hpath, hcase⟩ :=
    emplaceLoop_sound Hash KeyEqual hE t key v hI hroom hne
  rw [hr] at hr1
  injection hr1 with hr1
  subst hr1
  have hkey : KeyEqual key t.emptyKey_ = false := by
    cases h : KeyEqual key t.emptyKey_ with
    | false => rfl
    | true =>
      have := hE.symm _ _ h
      rw [hne] at this
      exact absurd this (by decide)
  rcases hcase with ⟨hb, ht, hocc, hk⟩ | ⟨hb, hfree, ht⟩
  · have hholds : Holds KeyEqual t key (bucketAt t r.2.1).2 := ⟨_, hidx, hocc, hk, rfl⟩
    refine
      { uniq := by rw [ht]; exact hU
        holds := ?_
        pos_lt := by rw [ht]; exact hidx
        pos_key := by rw [ht]; exact hk
        added := fun h => by rw [hb] at h; exact absurd h (by decide)
        kept := fun _ => ⟨⟨_, hholds⟩, by rw [ht]⟩ }
    intro k1 v1
    rw [ht]
    constructor
    · exact fun h => Or.inl h
    · rintro (h | ⟨habs, _, _⟩)
      · exact h
      · exact absurd hholds (habs _)
  · have habs := absent_of_probe Hash KeyEqual hH hI key r.2.1 hidx hfree hpath
    have hnoholds : ∀ u, ¬ Holds KeyEqual t key u := by
      rintro u ⟨i, hi, hoi, hki, _⟩
      rw [habs i hi hoi] at hki
      exact absurd hki (by decide)
    have hb1 : ∀ i, i < t.buckets_.length →
        bucketAt r.1 i = if r.2.1 = i then (key, v) else bucketAt t i := by
      intro i hi
      rw [ht]
      exact bucketAt_put t _ _ r.2.1 i _ hidx hi
    have ho1 : ∀ i, i < t.buckets_.length →
        occupied KeyEqual r.1 i = if r.2.1 = i then true else occupied KeyEqual t i := by
      intro i hi
      rw [ht, occupied_put KeyEqual t _ r.2.1 i _ hidx hi]
      simp [hkey]
    have hlen : r.1.buckets_.length = t.buckets_.length := by rw [ht]; simp
    refine
      { uniq := ?_
        holds := ?_
        pos_lt := by rw [hlen]; exact hidx
        pos_key := by rw [hb1 _ hidx, if_pos rfl]; exact hE.refl key
        added := fun _ => ⟨hnoholds, by rw [hb1 _ hidx, if_pos rfl], by rw [ht]⟩
        kept := fun h => by rw [hb] at h; exact absurd h (by decide) }
    · intro i j hi hj hoi hoj hk
      rw [hlen] at hi hj
      rw [ho1 i hi] at hoi
      rw [ho1 j hj] at hoj
      rw [hb1 i hi, hb1 j hj] at hk
      by_cases ei : r.2.1 = i
      · by_cases ej : r.2.1 = j
        · rw [← ei, ← ej]
        · rw [if_pos ei, if_neg ej] at hk
          rw [if_neg ej] at hoj
          have := habs j hj hoj
          rw [hE.symm _ _ hk] at this
          exact absurd this (by decide)
      · by_cases ej : r.2.1 = j
        · rw [if_neg ei, if_pos ej] at hk
          rw [if_neg ei] at hoi
          have := habs i hi hoi
          rw [hk] at this
          exact absurd this (by decide)
        · rw [if_neg ei, if_neg ej] at hk
          rw [if_neg ei] at hoi
          rw [if_neg ej] at hoj
          exact hU i j hi hj hoi hoj hk
    · intro k1 v1
      constructor
      · rintro ⟨i, hi, hoi, hki, hvi⟩
        rw [hlen] at hi
        rw [ho1 i hi] at hoi
        rw [hb1 i hi] at hki hvi
        by_cases ei : r.2.1 = i
        · rw [if_pos ei] at hki hvi
          exact Or.inr ⟨hnoholds, hki, hvi.symm⟩
        · rw [if_neg ei] at hki hvi hoi
          exact Or.inl ⟨i, hi, hoi, hki, hvi⟩
      · rintro (⟨i, hi, hoi, hki, hvi⟩ | ⟨_, hk1, hv1⟩)
        · have ei : r.2.1 ≠ i := by
            intro e
            rw [← e, hfree] at hoi
            exact absurd hoi (by decide)
          refine ⟨i, by rw [hlen]; exact hi, ?_, ?_, ?_⟩
          · rw [ho1 i hi, if_neg ei]; exact hoi
          · rw [hb1 i hi, if_neg ei]; exact hki
          · rw [hb1 i hi, if_neg ei]; exact hvi
        · refine ⟨r.2.1, by rw [hlen]; exact hidx, ?_, ?_, ?_⟩
          · rw [ho1 _ hidx, if_pos rfl]
          · rw [hb1 _ hidx, if_pos rfl]; exact hk1
          · rw [hb1 _ hidx, if_pos rfl]; exact hv1.symm

end EmplaceHolds

section CopyHolds

variable {K V : Type} [Inhabited V] [BucketStorage K V]
variable (Hash : K → Nat) (KeyEqual : K → K → Bool)

theorem insertAll_holds
    (ins : HashMap K V → K → V → Outcome (HashMap K V))
    (hS : InsSound Hash KeyEqual ins) (hD : InsHolds Hash KeyEqual ins) (e : K) :
    ∀ (rest : List (K × V)) (acc o : HashMap K V),
      Inv Hash KeyEqual acc → Uniq KeyEqual acc → acc.emptyKey_ = e →
      rest.Pairwise (fun p q => KeyEqual p.1 e = false → KeyEqual q.1 e = false →
        KeyEqual p.1 q.1 = false) →
      (∀ p, p ∈ rest → KeyEqual p.1 e = false → ∀ u, ¬ Holds KeyEqual acc p.1 u) →
      insertAll KeyEqual ins e rest acc = .ok o →
      Uniq KeyEqual o ∧
        (∀ k1 v1, Holds KeyEqual o k1 v1 ↔
          Holds KeyEqual acc k1 v1 ∨
            ∃ p, p ∈ rest ∧ KeyEqual p.1 e = false ∧ KeyEqual p.1 k1 = true ∧ p.2 = v1) ∧
        o.size_ = acc.size_ + rest.countP (fun q => !KeyEqual q.1 e) := by
  intro rest
  induction rest with
  | nil =>
    intro acc o _ hU _ _ _ h
    simp only [insertAll, Outcome.ok.injEq] at h
    subst h
    exact ⟨hU, by simp, by simp⟩
  | cons p rest ih =>
    intro acc o hI hU he hpw hnew h
    rw [insertAll] at h
    rw [List.pairwise_cons] at hpw
    cases hk : KeyEqual p.1 e with
    | true =>
      rw [hk, if_pos rfl] at h
      obtain ⟨h1, h2, h3⟩ := ih acc o hI hU he hpw.2
        (fun q hq => hnew q (List.mem_cons_of_mem _ hq)) h
      refine ⟨h1, ?_, ?_⟩
      · intro k1 v1
        rw [h2 k1 v1]
        constructor
        · rintro (h | ⟨q, hq, hq1, hq2, hq3⟩)
          · exact Or.inl h
          · exact Or.inr ⟨q, List.mem_cons_of_mem _ hq, hq1, hq2, hq3⟩
        · rintro (h | ⟨q, hq, hq1, hq2, hq3⟩)
          · exact Or.inl h
          · rcases List.mem_cons.mp hq with rfl | hq
            · rw [hk] at hq1
              exact absurd hq1 (by decide)
            · exact Or.inr ⟨q, hq, hq1, hq2, hq3⟩
      · rw [List.countP_cons_of_neg _ _ (by simp [hk])]
        exact h3
    | false =>
      rw [hk, if_neg (by decide)] at h
      obtain ⟨acc1, hins, hrest⟩ := (Outcome.bind_eq_ok _ _ _).mp h
      obtain ⟨hI1, _, _, he1⟩ := hS acc p.1 p.2 acc1 hI hins
      obtain ⟨pos, b, hem⟩ := hD acc p.1 p.2 acc1 hI hU hins
      have habs : ∀ u, ¬ Holds KeyEqual acc p.1 u := hnew p (List.mem_cons_self _ _) hk
      have hb : b = true := by
        cases b with
        | true => rfl
        | false =>
          obtain ⟨⟨u, hu⟩, _⟩ := hem.kept rfl
          exact absurd hu (habs u)
      have hsz : acc1.size_ = acc.size_ + 1 := (hem.added hb).2.2
      have hholds1 : ∀ k1 v1, Holds KeyEqual acc1 k1 v1 ↔
          Holds KeyEqual acc k1 v1 ∨ (KeyEqual p.1 k1 = true ∧ v1 = p.2) := by
        intro k1 v1
        have := hem.holds k1 v1
        simp only at this
        rw [this]
        constructor
        · rintro (h | ⟨_, h1, h2⟩)
          · exact Or.inl h
          · exact Or.inr ⟨h1, h2⟩
        · rintro (h | ⟨h1, h2⟩)
          · exact Or.inl h
          · exact Or.inr ⟨habs, h1, h2⟩
      obtain ⟨h1, h2, h3⟩ := ih acc1 o hI1 hem.uniq (he1.trans he) hpw.2
        (by
          intro q hq hqe u hu
          rcases (hholds1 q.1 u).mp hu with h | ⟨h, _⟩
          · exact hnew q (List.mem_cons_of_mem _ hq) hqe u h
          · have := hpw.1 q hq hk hqe
            rw [h] at this
            exact absurd this (by decide)) hrest
      refine ⟨h1, ?_, ?_⟩
      · intro k1 v1
        rw [h2 k1 v1, hholds1 k1 v1]
        constructor
        · rintro ((h | ⟨hp1, hp2⟩) | ⟨q, hq, hq1, hq2, hq3⟩)
          · exact Or.inl h
          · exact Or.inr ⟨p, List.mem_cons_self _ _, hk, hp1, hp2.symm⟩
          · exact Or.inr ⟨q, List.mem_cons_of_mem _ hq, hq1, hq2, hq3⟩
        · rintro (h | ⟨q, hq, hq1, hq2, hq3⟩)
          · exact Or.inl (Or.inl h)
          · rcases List.mem_cons.mp hq with rfl | hq
            · exact Or.inl (Or.inr ⟨hq2, hq3.symm⟩)
            · exact Or.inr ⟨q, hq, hq1, hq2, hq3⟩
      · rw [h3, hsz, List.countP_cons_of_pos _ _ (by simp [hk])]
        omega

/-- The copying constructor keeps the stored pairs and their number. -/
theorem copyConstruct_holds (hE : KeyEquiv KeyEqual)
    (ins : HashMap K V → K → V → Outcome (HashMap K V))
    (hS : InsSound Hash KeyEqual ins) (hD : InsHolds Hash KeyEqual ins)
    (other o : HashMap K V) (n : Nat)
    (hI : Inv Hash KeyEqual other) (hU : Uniq KeyEqual other)
    (h : copyConstruct KeyEqual ins other n = .ok o) :
    Uniq KeyEqual o ∧ (∀ k1 v1, Holds KeyEqual o k1 v1 ↔ Holds KeyEqual other k1 v1) ∧
      o.size_ = other.size_ := by
  unfold copyConstruct at h
  obtain ⟨fresh, hc, hall⟩ := (Outcome.bind_eq_ok _ _ _).mp h
  obtain ⟨hIf, he, hs, _, hocc⟩ := construct_inv Hash KeyEqual hE n _ fresh hc
  have hnone : ∀ k u, ¬ Holds KeyEqual fresh k u := by
    rintro k u ⟨i, _, hoi, _⟩
    rw [hocc i] at hoi
    exact absurd hoi (by decide)
  have hUf : Uniq KeyEqual fresh := by
    intro i j _ _ hoi
    rw [hocc i] at hoi
    exact absurd hoi (by decide)
  obtain ⟨h1, h2, h3⟩ := insertAll_holds Hash KeyEqual ins hS hD _ _ fresh o hIf hUf he
    (uniq_pairwise KeyEqual other hU) (fun p _ _ u => hnone p.1 u) hall
  refine ⟨h1, ?_, ?_⟩
  · intro k1 v1
    rw [h2 k1 v1, holds_iff_mem KeyEqual other k1 v1]
    constructor
    · rintro (h | h)
      · exact absurd h (hnone _ _)
      · exact h
    · exact fun h => Or.inr h
  · rw [h3, hs, hI.counted]
    simp

theorem reserveWith_holds (hE : KeyEquiv KeyEqual)
    (ins : HashMap K V → K → V → Outcome (HashMap K V))
    (hS : InsSound Hash KeyEqual ins) (hD : InsHolds Hash KeyEqual ins)
    (t o : HashMap K V) (c : Nat)
    (hI : Inv Hash KeyEqual t) (hU : Uniq KeyEqual t)
    (h : reserveWith KeyEqual ins t c = .ok o) :
    Uniq KeyEqual o ∧ (∀ k1 v1, Holds KeyEqual o k1 v1 ↔ Holds KeyEqual t k1 v1) ∧
      o.size_ = t.size_ := by
  unfold reserveWith at h
  split_ifs at h with hc
  · exact copyConstruct_holds Hash KeyEqual hE ins hS hD t o _ hI hU h
  · injection h with h
    subst h
    exact ⟨hU, fun _ _ => Iff.rfl, rfl⟩

/-- Effect of `emplaceImpl` at any re-entry budget that lets it return. -/
theorem emplaceImpl_emplaced (hE : KeyEquiv KeyEqual) (hH : HashCongr Hash KeyEqual) :
    ∀ (d : Nat) (t : HashMap K V) (k : K) (v : V) (r : HashMap K V × Nat × Bool),
      Inv Hash KeyEqual t → Uniq KeyEqual t →
      emplaceImpl Hash KeyEqual d t k v = .ok r → Emplaced KeyEqual t k v r := by
  intro d
  induction d with
  | zero =>
    intro t k v r _ _ h
    have h0 : emplaceImpl Hash KeyEqual 0 t k v = Outcome.hang := rfl
    rw [h0] at h
    cases h
  | succ d ih =>
    intro t k v r hI hU h
    obtain ⟨hne, t1, hres, hloop⟩ := (emplaceImpl_succ Hash KeyEqual d t k v r).mp h
    have hS : InsSound Hash KeyEqual
        (fun (o : HashMap K V) k w => Outcome.table (emplaceImpl Hash KeyEqual d o k w)) :=
      emplaceImpl_sound Hash KeyEqual hE d
    have hD : InsHolds Hash KeyEqual
        (fun (o : HashMap K V) k w => Outcome.table (emplaceImpl Hash KeyEqual d o k w)) := by
      intro o k w o1 hIo hUo hins
      obtain ⟨r1, hr1, rfl⟩ := (Outcome.table_eq_ok _ _).mp hins
      exact ⟨r1.2.1, r1.2.2, ih o k w r1 hIo hUo hr1⟩
    obtain ⟨hI1, _, hc1, _, he1, _⟩ := reserveWith_sound Hash KeyEqual hE _ hS t t1 _ hI hres
    obtain ⟨hU1, hiff, hsz⟩ := reserveWith_holds Hash KeyEqual hE _ hS hD t t1 _ hI hU hres
    obtain ⟨hm1, hm2⟩ := size_succ_mod Hash KeyEqual hI
    rw [hm1, hm2] at hc1
    have hroom : 3 * (t1.size_ + 1) ≤ t1.buckets_.length := by omega
    exact (emplaceLoop_emplaced Hash KeyEqual hE hH t1 k v hI1 hU1 hroom
      (by rw [he1]; exact hne) r hloop).of_iff KeyEqual hiff hsz

theorem emplaceImpl_insHolds (hE : KeyEquiv KeyEqual) (hH : HashCongr Hash KeyEqual) (d : Nat) :
    InsHolds Hash KeyEqual
      (fun (o : HashMap K V) k w => Outcome.table (emplaceImpl Hash KeyEqual d o k w)) := by
  intro o k w o1 hIo hUo hins
  obtain ⟨r1, hr1, rfl⟩ := (Outcome.table_eq_ok _ _).mp hins
  exact ⟨r1.2.1, r1.2.2, emplaceImpl_emplaced Hash KeyEqual hE hH d o k w r1 hIo hUo hr1⟩

end CopyHolds

section Total

variable {K V : Type} [Inhabited V] [BucketStorage K V]
variable (Hash : K → Nat) (KeyEqual : K → K → Bool)

theorem KeyEquiv.ne_symm (hE : KeyEquiv KeyEqual) (a b : K) (h : KeyEqual a b = false) :
    KeyEqual b a = false := by
  cases hk : KeyEqual b a with
  | false => rfl
  | true =>
    have := hE.symm _ _ hk
    rw [h] at this
    exact absurd this (by decide)

/-- With room for one more entry `emplaceImpl` returns without rebuilding. -/
theorem emplaceImpl_total_room (hE : KeyEquiv KeyEqual) (d : Nat) (t : HashMap K V)
    (k : K) (v : V) (hI : Inv Hash KeyEqual t) (hne : KeyEqual t.emptyKey_ k = false)
    (hroom : 3 * (t.size_ + 1) ≤ t.buckets_.length) :
    ∃ r, emplaceImpl Hash KeyEqual (d + 1) t k v = .ok r ∧
      emplaceLoop KeyEqual t k v t.buckets_.length (keyToIdx Hash t k) = .ok r ∧
      r.1.buckets_.length = t.buckets_.length := by
  obtain ⟨r, hr, _, hl, _⟩ := emplaceLoop_sound Hash KeyEqual hE t k v hI hroom hne
  refine ⟨r, ?_, hr, hl⟩
  rw [emplaceImpl_succ]
  refine ⟨hne, t, ?_, hr⟩
  obtain ⟨hm1, hm2⟩ := size_succ_mod Hash KeyEqual hI
  unfold reserveWith
  rw [hm1, hm2, if_neg (by omega)]

theorem insertAll_total (hE : KeyEquiv KeyEqual)
    (ins : HashMap K V → K → V → Outcome (HashMap K V))
    (hS : InsSound Hash KeyEqual ins) (P : HashMap K V → Prop) (B : Nat) (e : K)
    (hins : ∀ o k w, Inv Hash KeyEqual o → P o → o.emptyKey_ = e → KeyEqual e k = false →
      o.size_ < B → ∃ o1, ins o k w = .ok o1 ∧ P o1) :
    ∀ (rest : List (K × V)) (acc : HashMap K V), Inv Hash KeyEqual acc → P acc →
      acc.emptyKey_ = e → acc.size_ + rest.countP (fun q => !KeyEqual q.1 e) ≤ B →
      ∃ o, insertAll KeyEqual ins e rest acc = .ok o ∧ P o := by
  intro rest
  induction rest with
  | nil => intro acc _ hP _ _; exact ⟨acc, rfl, hP⟩
  | cons p rest ih =>
    intro acc hI hP he hB
    rw [insertAll]
    cases hk : KeyEqual p.1 e with
    | true =>
      rw [if_pos rfl]
      rw [List.countP_cons_of_neg _ _ (by simp [hk])] at hB
      exact ih acc hI hP he hB
    | false =>
      rw [if_neg (by decide)]
      rw [List.countP_cons_of_pos _ _ (by simp [hk])] at hB
      obtain ⟨acc1, hins1, hP1⟩ := hins acc p.1 p.2 hI hP he
        (hE.ne_symm KeyEqual _ _ hk) (by omega)
      obtain ⟨hI1, _, hs1, he1⟩ := hS acc p.1 p.2 acc1 hI hins1
      obtain ⟨o, ho, hPo⟩ := ih acc1 hI1 hP1 (he1.trans he) (by omega)
      exact ⟨o, by rw [hins1]; exact ho, hPo⟩

/-- Function `emplaceImpl` returns whenever the reservation request `3 * (size() + 1)`
can be rounded up to a power of two that the vector can hold. -/
theorem emplaceImpl_total (hE : KeyEquiv KeyEqual) (d : Nat) (t : HashMap K V)
    (k : K) (v : V) (hI : Inv Hash KeyEqual t) (hne : KeyEqual t.emptyKey_ k = false)
    (hcap : CanHold K V (3 * (t.size_ + 1))) :
    ∃ r, emplaceImpl Hash KeyEqual (d + 2) t k v = .ok r := by
  obtain ⟨hm1, hm2⟩ := size_succ_mod Hash KeyEqual hI
  have hcap63 := hcap.le_two_pow
  have hS : InsSound Hash KeyEqual
      (fun (o : HashMap K V) k w => Outcome.table (emplaceImpl Hash KeyEqual (d + 1) o k w)) :=
    emplaceImpl_sound Hash KeyEqual hE (d + 1)
  have hres : ∃ t1, reserveWith KeyEqual
      (fun (o : HashMap K V) k w => Outcome.table (emplaceImpl Hash KeyEqual (d + 1) o k w))
      t ((t.size_ + 1) % sizeMod) = .ok t1 := by
    unfold reserveWith
    rw [hm1, hm2]
    split_ifs with hc
    · unfold rehashWith copyConstruct
      have hmax : max ((t.size_ + 1) * 3) ((t.size_ * 2) % sizeMod) = (t.size_ + 1) * 3 := by
        apply max_eq_left
        have : (t.size_ * 2) % sizeMod ≤ t.size_ * 2 := Nat.mod_le _ _
        omega
      rw [hmax]
      obtain ⟨fresh, hfresh⟩ : ∃ fresh : HashMap K V,
          construct ((t.size_ + 1) * 3) t.emptyKey_ = .ok fresh :=
        construct_total ((t.size_ + 1) * 3) (hcap.smaller (by omega)) t.emptyKey_
      obtain ⟨hIf, hef, hsf, hnf, _⟩ := construct_inv Hash KeyEqual hE _ _ fresh hfresh
      rw [hfresh]
      simp only [Outcome.bind]
      obtain ⟨o, ho, _⟩ := insertAll_total Hash KeyEqual hE _ hS
        (fun o => (t.size_ + 1) * 3 ≤ o.buckets_.length) t.size_ t.emptyKey_
        (by
          intro o k1 w hIo hPo heo hk1 hlt
          obtain ⟨r, hr, _, hl⟩ := emplaceImpl_total_room Hash KeyEqual hE d o k1 w hIo
            (by rw [heo]; exact hk1) (by omega)
          exact ⟨r.1, by simp [hr, Outcome.table],
            by show _ ≤ r.1.buckets_.length; rw [hl]; exact hPo⟩)
        t.buckets_ fresh hIf hnf hef (by rw [hsf, hI.counted]; simp)
      exact ⟨o, ho⟩
    · exact ⟨t, rfl⟩
  obtain ⟨t1, ht1⟩ := hres
  obtain ⟨hI1, _, hc1, hs1, he1, _⟩ := reserveWith_sound Hash KeyEqual hE _ hS t t1 _ hI ht1
  rw [hm1, hm2] at hc1
  obtain ⟨r, hr, _⟩ := emplaceLoop_sound Hash KeyEqual hE t1 k v hI1 (by omega)
    (by rw [he1]; exact hne)
  exact ⟨r, (emplaceImpl_succ Hash KeyEqual (d + 1) t k v r).mpr ⟨hne, t1, ht1, hr⟩⟩

/-- Function `rehash(n)` returns for every request that can be rounded up to a power of
two that the vector can hold. -/
theorem rehash_total (hE : KeyEquiv KeyEqual) (t : HashMap K V) (n : Nat)
    (hI : Inv Hash KeyEqual t) (hn : CanHold K V n) :
    ∃ t1, rehash Hash KeyEqual t n = .ok t1 := by
  have hL : CanHold K V t.buckets_.length := CanHold.of_pow2 hI.pow2 hI.fits
  have hS : InsSound Hash KeyEqual
      (insertInto Hash KeyEqual : HashMap K V → K → V → Outcome (HashMap K V)) :=
    emplaceImpl_sound Hash KeyEqual hE callDepth
  have hload := hI.load
  have hle := hI.pow2.le
  unfold rehash rehashWith copyConstruct
  have h2 : CanHold K V ((t.size_ * 2) % sizeMod) := by
    have : (t.size_ * 2) % sizeMod ≤ t.size_ * 2 := Nat.mod_le _ _
    exact hL.smaller (by omega)
  have hmax : CanHold K V (max n ((t.size_ * 2) % sizeMod)) := by
    rcases le_total n ((t.size_ * 2) % sizeMod) with h | h
    · rw [max_eq_right h]; exact h2
    · rw [max_eq_left h]; exact hn
  obtain ⟨fresh, hfresh⟩ : ∃ fresh : HashMap K V,
      construct (max n ((t.size_ * 2) % sizeMod)) t.emptyKey_ = .ok fresh :=
    construct_total (max n ((t.size_ * 2) % sizeMod)) hmax t.emptyKey_
  obtain ⟨hIf, hef, hsf, _, _⟩ := construct_inv Hash KeyEqual hE _ _ fresh hfresh
  rw [hfresh]
  simp only [Outcome.bind]
  obtain ⟨o, ho, _⟩ := insertAll_total Hash KeyEqual hE _ hS (fun _ => True) t.size_ t.emptyKey_
    (by
      intro o k1 w hIo _ heo hk1 hlt
      obtain ⟨r, hr⟩ := emplaceImpl_total Hash KeyEqual hE 1 o k1 w hIo
        (by rw [heo]; exact hk1) (hL.smaller (by omega))
      exact ⟨r.1, by simp [insertInto, callDepth, hr, Outcome.table], trivial⟩)
    t.buckets_ fresh hIf trivial hef (by rw [hsf, hI.counted]; simp)
  exact ⟨o, ho⟩

end Total

section ReachUniqPure

variable {K V : Type} [Inhabited V]
variable (Hash : K → Nat) (KeyEqual : K → K → Bool)

theorem bucketAt_assign_fst (t : HashMap K V) (idx : Nat) (hidx : idx < t.buckets_.length)
    (v : V) (i : Nat) (hi : i < t.buckets_.length) :
    (bucketAt (assign t idx v) i).1 = (bucketAt t i).1 := by
  unfold assign
  rw [bucketAt_put t _ _ idx i _ hidx hi]
  split_ifs with e
  · rw [e]
  · rfl

theorem Uniq.after_assign {t : HashMap K V} (hU : Uniq KeyEqual t) (idx : Nat)
    (hidx : idx < t.buckets_.length) (v : V) : Uniq KeyEqual (assign t idx v) := by
  intro i j hi hj hoi hoj hk
  have hl : (assign t idx v).buckets_.length = t.buckets_.length := by simp [assign]
  rw [hl] at hi hj
  unfold occupied at hoi hoj
  rw [bucketAt_assign_fst t idx hidx v i hi] at hoi hk
  rw [bucketAt_assign_fst t idx hidx v j hj] at hoj hk
  exact hU i j hi hj hoi hoj hk

end ReachUniqPure

section ReachUniq

variable {K V : Type} [Inhabited V] [BucketStorage K V]
variable (Hash : K → Nat) (KeyEqual : K → K → Bool)

/-- Every reachable table stores each key at most once, provided equal keys
hash alike. -/
theorem Reachable.uniq (hE : KeyEquiv KeyEqual) (hH : HashCongr Hash KeyEqual)
    {t : HashMap K V} (hR : Reachable Hash KeyEqual t) : Uniq KeyEqual t := by
  induction hR with
  | construct h =>
    obtain ⟨_, _, _, _, hocc⟩ := construct_inv Hash KeyEqual hE _ _ _ h
    intro i j _ _ hoi
    rw [hocc i] at hoi
    exact absurd hoi (by decide)
  | copyWithCapacity hsrc h ih =>
    exact (copyConstruct_holds Hash KeyEqual hE _
      (emplaceImpl_sound Hash KeyEqual hE callDepth)
      (emplaceImpl_insHolds Hash KeyEqual hE hH callDepth) _ _ _
      (hsrc.inv Hash KeyEqual hE) ih h).1
  | emplace hprev h ih =>
    exact (emplaceImpl_emplaced Hash KeyEqual hE hH callDepth _ _ _ _
      (hprev.inv Hash KeyEqual hE) ih h).uniq
  | assign _ hidx _ ih => exact ih.after_assign KeyEqual _ hidx _
  | @erase t key r hprev h ih =>
    have hI := hprev.inv Hash KeyEqual hE
    have hne : KeyEqual t.emptyKey_ key = false := by
      unfold HashMapModel.erase eraseKeyImpl at h
      obtain ⟨it, hf, _⟩ := (Outcome.bind_eq_ok _ _ _).mp h
      exact findImpl_ok_ne Hash KeyEqual t key it hf
    rcases eraseKeyImpl_spec Hash KeyEqual hE hI key hne with ⟨_, hr⟩ | ⟨p, t1, _, _, _, _, hr, her⟩
    · unfold HashMapModel.erase at h
      rw [hr] at h
      injection h with h
      rw [← h]
      exact ih
    · unfold HashMapModel.erase at h
      rw [hr] at h
      injection h with h
      rw [← h]
      exact her.uniq ih
  | eraseAt hprev hit hocc h ih =>
    obtain ⟨t1, ht1, her⟩ := eraseImpl_spec Hash KeyEqual hE (hprev.inv Hash KeyEqual hE) _ hit hocc
    rw [ht1] at h
    injection h with h
    rw [← h]
    exact her.uniq ih
  | rehash hprev h ih =>
    exact (copyConstruct_holds Hash KeyEqual hE _
      (emplaceImpl_sound Hash KeyEqual hE callDepth)
      (emplaceImpl_insHolds Hash KeyEqual hE hH callDepth) _ _ _
      (hprev.inv Hash KeyEqual hE) ih h).1
  | reserve hprev h ih =>
    exact (reserveWith_holds Hash KeyEqual hE _
      (emplaceImpl_sound Hash KeyEqual hE callDepth)
      (emplaceImpl_insHolds Hash KeyEqual hE hH callDepth) _ _ _
      (hprev.inv Hash KeyEqual hE) ih h).1
  | clear _ h _ =>
    obtain ⟨_, _, _, _, hocc⟩ := construct_inv Hash KeyEqual hE _ _ _ h
    intro i j _ _ hoi
    rw [hocc i] at hoi
    exact absurd hoi (by decide)

end ReachUniq

theorem iterate_probeNext {K V : Type} (t : HashMap K V) (hp2 : IsPow2 t.buckets_.length) (h : Nat)
    (hh : h < t.buckets_.length) :
    ∀ m, (probeNext t)^[m] h = (h + m) % t.buckets_.length := by
  intro m
  induction m with
  | zero => rw [Function.iterate_zero, id, Nat.add_zero, Nat.mod_eq_of_lt hh]
  | succ m ih =>
    rw [Function.iterate_succ_apply', ih, probeNext_eq t hp2, Nat.mod_add_mod]
    rfl

section ClaimToolsPure

variable {K V : Type} [Inhabited V]
variable (Hash : K → Nat) (KeyEqual : K → K → Bool)

theorem count_of_find (t : HashMap K V) (k : K) (i : Nat)
    (h : findImpl Hash KeyEqual t k = .ok i) :
    count Hash KeyEqual t k = .ok (if i = t.buckets_.length then 0 else 1) := by
  unfold count count_impl
  rw [h]
  rfl

end ClaimToolsPure

section ClaimTools

variable {K V : Type} [Inhabited V] [BucketStorage K V]
variable (Hash : K → Nat) (KeyEqual : K → K → Bool)

/-- Being found with a value is the same as the value being stored under the key. -/
theorem foundWith_iff_holds (hE : KeyEquiv KeyEqual) (hH : HashCongr Hash KeyEqual)
    {t : HashMap K V} (hI : Inv Hash KeyEqual t) (hU : Uniq KeyEqual t)
    (k : K) (hne : KeyEqual t.emptyKey_ k = false) (v : V) :
    FoundWith Hash KeyEqual t k v ↔ Holds KeyEqual t k v := by
  constructor
  · rintro ⟨i, hf, hi, hv⟩
    obtain ⟨r, hr, hcase⟩ := findImpl_total Hash KeyEqual hI k hne
    unfold find at hf
    rw [hf] at hr
    injection hr with hr
    subst hr
    rcases hcase with h | ⟨hlt, hk⟩
    · exact absurd h hi
    · exact ⟨i, hlt, by simp [occupied, not_empty_of_match KeyEqual hE _ _ _ hne hk], hk, hv⟩
  · intro h
    obtain ⟨i, hi, hf, _, hv, _⟩ := lookup_of_holds Hash KeyEqual hE hH hI hU k hne v h
    exact ⟨i, hf, by unfold bucketCount; omega, hv⟩

theorem exampleEqual_equiv : KeyEquiv exampleEqual where
  refl := by intro a; simp [exampleEqual]
  symm := by intro a b h; simp only [exampleEqual, beq_iff_eq] at h ⊢; exact h.symm
  trans := by intro a b c h1 h2; simp only [exampleEqual, beq_iff_eq] at h1 h2 ⊢; exact h1.trans h2

theorem exampleHash_congr : HashCongr exampleHash exampleEqual := by
  intro a b h
  simp only [exampleEqual, beq_iff_eq] at h
  rw [h]

theorem mod5Equal_equiv : KeyEquiv mod5Equal where
  refl := by intro a; simp [mod5Equal]
  symm := by intro a b h; simp only [mod5Equal, beq_iff_eq] at h ⊢; exact h.symm
  trans := by intro a b c h1 h2; simp only [mod5Equal, beq_iff_eq] at h1 h2 ⊢; exact h1.trans h2

theorem sixteen_reachable : Reachable exampleHash exampleEqual sixteen :=
  @Reachable.construct Nat Nat _ exampleHash exampleEqual _ 16 0 sixteen rfl

theorem exampleMap3_reachable : Reachable exampleHash exampleEqual exampleMap3 :=
  @Reachable.emplace Nat Nat _ exampleHash exampleEqual _ exampleMap2 3 0 (exampleMap3, 10, true)
    (@Reachable.emplace Nat Nat _ exampleHash exampleEqual _ exampleMap1 8 2 (exampleMap2, 7, true)
      (@Reachable.emplace Nat Nat _ exampleHash exampleEqual _ exampleMap0 1 1
        (exampleMap1, 0, true)
        (@Reachable.construct Nat Nat _ exampleHash exampleEqual _ 1 0 exampleMap0 rfl) rfl)
      rfl)
    rfl

theorem exampleMap_reachable : Reachable exampleHash exampleEqual exampleMap :=
  @Reachable.assign Nat Nat _ exampleHash exampleEqual _ exampleMap3 10 3
    exampleMap3_reachable (by decide) (by decide)

theorem exampleMapErased_reachable : Reachable exampleHash exampleEqual exampleMapErased :=
  @Reachable.erase Nat Nat _ exampleHash exampleEqual _ exampleMap 1 (exampleMapErased, 1)
    exampleMap_reachable rfl

theorem sixteenTwo_reachable : Reachable identityHash mod5Equal sixteenTwo :=
  @Reachable.emplace Nat Nat _ identityHash mod5Equal _ sixteenOne 17 20 (sixteenTwo, 2, true)
    (@Reachable.emplace Nat Nat _ identityHash mod5Equal _ sixteen 1 10 (sixteenOne, 1, true)
      (@Reachable.construct Nat Nat _ identityHash mod5Equal _ 16 0 sixteen rfl) rfl)
    rfl

end ClaimTools

section Claims

variable {K V : Type} [Inhabited V] [BucketStorage K V]
variable (Hash : K → Nat) (KeyEqual : K → K → Bool)

/-- C1 (as amended): on a reachable table, with an equality strategy that is an
equivalence relation and a hash strategy that gives equal hashes to equal
keys, erasing a present key `k` returns 1, lowers `size()` by exactly one,
keeps `bucketCount()`, makes `find(k)` return `end()` and `count(k)` return 0,
and every key not equal to `k` is found with a value afterwards exactly when
it was found with that value before. -/
theorem erase_present_correct (hE : KeyEquiv KeyEqual) (hH : HashCongr Hash KeyEqual)
    {t : HashMap K V} (hR : Reachable Hash KeyEqual t) (k : K) (i : Nat)
    (hfind : find Hash KeyEqual t k = .ok i) (hpres : i ≠ bucketCount t) :
    ∃ t1, erase Hash KeyEqual t k = .ok (t1, 1) ∧ size t1 + 1 = size t ∧
      bucketCount t1 = bucketCount t ∧ t1.emptyKey_ = t.emptyKey_ ∧
      find Hash KeyEqual t1 k = .ok (bucketCount t1) ∧ count Hash KeyEqual t1 k = .ok 0 ∧
      ∀ k1, KeyEqual t.emptyKey_ k1 = false → KeyEqual k k1 = false →
        ∀ v, FoundWith Hash KeyEqual t1 k1 v ↔ FoundWith Hash KeyEqual t k1 v := by
  have hI := hR.inv Hash KeyEqual hE
  have hU := hR.uniq Hash KeyEqual hE hH
  have hne := findImpl_ok_ne Hash KeyEqual t k i hfind
  rcases eraseKeyImpl_spec Hash KeyEqual hE hI k hne with ⟨hf, _⟩ | ⟨p, t1, hp, hf, hocc, hk, hr, her⟩
  · unfold find at hfind
    rw [hfind] at hf
    injection hf with hf
    exact absurd hf hpres
  · have hI1 := her.inv
    have hU1 := her.uniq hU
    have hne1 : KeyEqual t1.emptyKey_ k = false := by rw [her.emptyKey_eq]; exact hne
    have hgone : ∀ v, ¬ Holds KeyEqual t1 k v := by
      intro v hv
      have := ((her.holds_iff Hash KeyEqual hE hU hp hocc k v).mp hv).2
      rw [hk] at this
      exact absurd this (by decide)
    obtain ⟨hf1, _⟩ := lookup_of_not_holds Hash KeyEqual hE hI1 k hne1 hgone
    refine ⟨t1, hr, her.size_eq, her.length_eq, her.emptyKey_eq, hf1, ?_, ?_⟩
    · rw [count_of_find Hash KeyEqual t1 k _ hf1, if_pos rfl]
    · intro k1 hk1 hkk v
      rw [foundWith_iff_holds Hash KeyEqual hE hH hI1 hU1 k1 (by rw [her.emptyKey_eq]; exact hk1),
        foundWith_iff_holds Hash KeyEqual hE hH hI hU k1 hk1,
        her.holds_iff Hash KeyEqual hE hU hp hocc k1 v]
      constructor
      · exact fun h => h.1
      · intro h
        refine ⟨h, ?_⟩
        cases hx : KeyEqual (bucketAt t p).1 k1 with
        | false => rfl
        | true =>
          have := hE.trans _ _ _ (hE.symm _ _ hk) hx
          rw [hkk] at this
          exact absurd this (by decide)

/-- Witness of C1 on the table of `HashMapExample.cpp`: `erase(1)`. -/
theorem erase_present_correct_witness :
    KeyEquiv exampleEqual ∧ HashCongr exampleHash exampleEqual ∧
      Reachable exampleHash exampleEqual exampleMap ∧
      find exampleHash exampleEqual exampleMap 1 = .ok 8 ∧ 8 ≠ bucketCount exampleMap ∧
      ∃ t1, erase exampleHash exampleEqual exampleMap 1 = .ok (t1, 1) ∧
        size t1 + 1 = size exampleMap ∧
        bucketCount t1 = bucketCount exampleMap ∧ t1.emptyKey_ = exampleMap.emptyKey_ ∧
        find exampleHash exampleEqual t1 1 = .ok (bucketCount t1) ∧
        count exampleHash exampleEqual t1 1 = .ok 0 ∧
        ∀ k1, exampleEqual exampleMap.emptyKey_ k1 = false → exampleEqual 1 k1 = false →
          ∀ v, FoundWith exampleHash exampleEqual t1 k1 v ↔
            FoundWith exampleHash exampleEqual exampleMap k1 v :=
  ⟨exampleEqual_equiv, exampleHash_congr, exampleMap_reachable, rfl, by decide,
    erase_present_correct exampleHash exampleEqual exampleEqual_equiv exampleHash_congr
      exampleMap_reachable 1 8 rfl (by decide)⟩

/-- C1 as stated fails for a hash strategy that separates equal keys: with
equality modulo five and the identity hash, key `2` (equal to the stored key
`17`) is found with value `20` before `erase(1)` and is absent afterwards. -/
theorem erase_arbitrary_hash_counterexample :
    KeyEquiv mod5Equal ∧ Reachable identityHash mod5Equal sixteenTwo ∧
      find identityHash mod5Equal sixteenTwo 1 = .ok 1 ∧ 1 ≠ bucketCount sixteenTwo ∧
      erase identityHash mod5Equal sixteenTwo 1 = .ok (sixteenShifted, 1) ∧
      mod5Equal sixteenTwo.emptyKey_ 2 = false ∧ mod5Equal 1 2 = false ∧
      FoundWith identityHash mod5Equal sixteenTwo 2 20 ∧
      ¬ FoundWith identityHash mod5Equal sixteenShifted 2 20 := by
  refine ⟨mod5Equal_equiv, sixteenTwo_reachable, rfl, by decide, rfl, rfl, rfl,
    ⟨2, rfl, by decide, rfl⟩, ?_⟩
  rintro ⟨i, hf, hi, _⟩
  have h16 : find identityHash mod5Equal sixteenShifted 2 = .ok 16 := rfl
  rw [h16] at hf
  injection hf with hf
  exact hi hf.symm

/-- C3: in a reachable table the probe path from the ideal index of the key of
an occupied slot reaches that slot within `bucketCount()` steps, and every
slot on the way, the slot itself included, is occupied. -/
theorem reachable_probe_path (hE : KeyEquiv KeyEqual)
    {t : HashMap K V} (hR : Reachable Hash KeyEqual t) (i : Nat)
    (hi : i < bucketCount t) (hocc : occupied KeyEqual t i = true) :
    ∃ n, n < bucketCount t ∧
      (probeNext t)^[n] (keyToIdx Hash t (bucketAt t i).1) = i ∧
      ∀ m, m ≤ n →
        occupied KeyEqual t ((probeNext t)^[m] (keyToIdx Hash t (bucketAt t i).1)) = true := by
  have hI := hR.inv Hash KeyEqual hE
  have hh := keyToIdx_lt Hash t hI.pow2 (bucketAt t i).1
  unfold bucketCount at hi ⊢
  refine ⟨dist t.buckets_.length i (keyToIdx Hash t (bucketAt t i).1),
    dist_lt _ _ _ hI.pow2.pos, ?_, ?_⟩
  · rw [iterate_probeNext t hI.pow2 _ hh, step_dist _ _ _ hi hh]
  · intro m hm
    rw [iterate_probeNext t hI.pow2 _ hh]
    rcases Nat.eq_or_lt_of_le hm with heq | hlt
    · rw [heq, step_dist _ _ _ hi hh]
      exact hocc
    · apply hI.path i _ hi (Nat.mod_lt _ hI.pow2.pos) hocc
      rw [dist_step _ _ m hh (lt_trans hlt (dist_lt _ _ _ hI.pow2.pos))]
      exact hlt

/-- Witness of C3: slot 15 of the example table, which holds key 8. -/
theorem reachable_probe_path_witness :
    KeyEquiv exampleEqual ∧ Reachable exampleHash exampleEqual exampleMap ∧
      15 < bucketCount exampleMap ∧ occupied exampleEqual exampleMap 15 = true ∧
      ∃ n, n < bucketCount exampleMap ∧
        (probeNext exampleMap)^[n] (keyToIdx exampleHash exampleMap (bucketAt exampleMap 15).1)
          = 15 ∧
        ∀ m, m ≤ n →
          occupied exampleEqual exampleMap
            ((probeNext exampleMap)^[m]
              (keyToIdx exampleHash exampleMap (bucketAt exampleMap 15).1)) = true :=
  ⟨exampleEqual_equiv, exampleMap_reachable, by decide, by decide,
    reachable_probe_path exampleHash exampleEqual exampleEqual_equiv exampleMap_reachable 15
      (by decide) (by decide)⟩

/-- C4: on a reachable table `find` of a non-empty key returns the position of
a slot holding an equal key when some slot holds one, and `end()` when none
does; `count` is then 1, respectively 0, and never anything else. -/
theorem find_sound_complete (hE : KeyEquiv KeyEqual) (hH : HashCongr Hash KeyEqual)
    {t : HashMap K V} (hR : Reachable Hash KeyEqual t) (k : K)
    (hne : KeyEqual t.emptyKey_ k = false) :
    ((∃ j, j < bucketCount t ∧ KeyEqual (bucketAt t j).1 k = true) →
        ∃ i, find Hash KeyEqual t k = .ok i ∧ i < bucketCount t ∧
          KeyEqual (bucketAt t i).1 k = true ∧ count Hash KeyEqual t k = .ok 1) ∧
      ((∀ j, j < bucketCount t → KeyEqual (bucketAt t j).1 k = false) →
        find Hash KeyEqual t k = .ok (bucketCount t) ∧ count Hash KeyEqual t k = .ok 0) ∧
      ∃ c, count Hash KeyEqual t k = .ok c ∧ (c = 0 ∨ c = 1) := by
  have hI := hR.inv Hash KeyEqual hE
  have hU := hR.uniq Hash KeyEqual hE hH
  refine ⟨?_, ?_, ?_⟩
  · rintro ⟨j, hj, hk⟩
    have hf := findImpl_of_slot Hash KeyEqual hE hH hI hU k hne j hj hk
    refine ⟨j, hf, hj, hk, ?_⟩
    rw [count_of_find Hash KeyEqual t k j hf, if_neg]
    unfold bucketCount at hj
    omega
  · intro habs
    have hf := findImpl_of_absent Hash KeyEqual hI k hne habs
    refine ⟨hf, ?_⟩
    rw [count_of_find Hash KeyEqual t k _ hf, if_pos rfl]
  · obtain ⟨r, hr, _⟩ := findImpl_total Hash KeyEqual hI k hne
    refine ⟨_, count_of_find Hash KeyEqual t k r hr, ?_⟩
    split_ifs
    · exact Or.inl rfl
    · exact Or.inr rfl

/-- Witness of C4: key 3 on the example table. -/
theorem find_sound_complete_witness :
    KeyEquiv exampleEqual ∧ HashCongr exampleHash exampleEqual ∧
      Reachable exampleHash exampleEqual exampleMap ∧
      exampleEqual exampleMap.emptyKey_ 3 = false ∧
      ((∃ j, j < bucketCount exampleMap ∧ exampleEqual (bucketAt exampleMap j).1 3 = true) →
          ∃ i, find exampleHash exampleEqual exampleMap 3 = .ok i ∧ i < bucketCount exampleMap ∧
            exampleEqual (bucketAt exampleMap i).1 3 = true ∧
            count exampleHash exampleEqual exampleMap 3 = .ok 1) ∧
        ((∀ j, j < bucketCount exampleMap → exampleEqual (bucketAt exampleMap j).1 3 = false) →
          find exampleHash exampleEqual exampleMap 3 = .ok (bucketCount exampleMap) ∧
            count exampleHash exampleEqual exampleMap 3 = .ok 0) ∧
        ∃ c, count exampleHash exampleEqual exampleMap 3 = .ok c ∧ (c = 0 ∨ c = 1) :=
  ⟨exampleEqual_equiv, exampleHash_congr, exampleMap_reachable, rfl,
    find_sound_complete exampleHash exampleEqual exampleEqual_equiv exampleHash_congr
      exampleMap_reachable 3 rfl⟩

/-- C5: in a reachable table no two distinct occupied slots hold keys that are
equal under the equality strategy; tables produced by the backward-shift
`erase` are among the reachable ones. -/
theorem reachable_unique_keys (hE : KeyEquiv KeyEqual) (hH : HashCongr Hash KeyEqual)
    {t : HashMap K V} (hR : Reachable Hash KeyEqual t) (i j : Nat)
    (hi : i < bucketCount t) (hj : j < bucketCount t)
    (hoi : occupied KeyEqual t i = true) (hoj : occupied KeyEqual t j = true)
    (hij : i ≠ j) : KeyEqual (bucketAt t i).1 (bucketAt t j).1 = false := by
  cases hk : KeyEqual (bucketAt t i).1 (bucketAt t j).1 with
  | false => rfl
  | true => exact absurd (hR.uniq Hash KeyEqual hE hH i j hi hj hoi hoj hk) hij

/-- Witness of C5: slots 10 and 15 of the example table after `erase(1)`. -/
theorem reachable_unique_keys_witness :
    KeyEquiv exampleEqual ∧ HashCongr exampleHash exampleEqual ∧
      Reachable exampleHash exampleEqual exampleMapErased ∧
      10 < bucketCount exampleMapErased ∧ 15 < bucketCount exampleMapErased ∧
      occupied exampleEqual exampleMapErased 10 = true ∧
      occupied exampleEqual exampleMapErased 15 = true ∧ 10 ≠ 15 ∧
      exampleEqual (bucketAt exampleMapErased 10).1 (bucketAt exampleMapErased 15).1 = false :=
  ⟨exampleEqual_equiv, exampleHash_congr, exampleMapErased_reachable, by decide, by decide,
    by decide, by decide, by decide,
    reachable_unique_keys exampleHash exampleEqual exampleEqual_equiv exampleHash_congr
      exampleMapErased_reachable 10 15 (by decide) (by decide) (by decide) (by decide)
      (by decide)⟩

end Claims

section Claims2

variable {K V : Type} [Inhabited V] [BucketStorage K V]
variable (Hash : K → Nat) (KeyEqual : K → K → Bool)

theorem Reachable.of_emplaceList :
    ∀ (l : List (K × V)) (t t1 : HashMap K V), Reachable Hash KeyEqual t →
      emplaceList Hash KeyEqual l t = .ok t1 → Reachable Hash KeyEqual t1 := by
  intro l
  induction l with
  | nil =>
    intro t t1 hR h
    simp only [emplaceList, Outcome.ok.injEq] at h
    rw [← h]
    exact hR
  | cons p rest ih =>
    intro t t1 hR h
    rw [emplaceList] at h
    obtain ⟨t2, h2, hrest⟩ := (Outcome.bind_eq_ok _ _ _).mp h
    obtain ⟨r, hr, rfl⟩ := (Outcome.table_eq_ok _ _).mp h2
    exact ih r.1 t1 (Reachable.emplace hR hr) hrest

theorem fiveKeys_reachable : Reachable exampleHash exampleEqual fiveKeys :=
  Reachable.of_emplaceList exampleHash exampleEqual
    [(1, 1), (2, 2), (3, 3), (4, 4), (5, 5)] sixteen fiveKeys sixteen_reachable (by rfl)

theorem emplace_sound (hE : KeyEquiv KeyEqual) {t : HashMap K V}
    (hI : Inv Hash KeyEqual t) (k : K) (v : V) (r : HashMap K V × Nat × Bool)
    (h : emplace Hash KeyEqual t k v = .ok r) :
    Inv Hash KeyEqual r.1 ∧ t.buckets_.length ≤ r.1.buckets_.length ∧
      r.1.emptyKey_ = t.emptyKey_ := by
  obtain ⟨h1, h2, _, h4⟩ := emplaceImpl_sound Hash KeyEqual hE callDepth t k v r.1 hI
    ((Outcome.table_eq_ok _ _).mpr ⟨r, h, rfl⟩)
  exact ⟨h1, h2, h4⟩

theorem emplace_ok_ne (t : HashMap K V) (k : K) (v : V) (r : HashMap K V × Nat × Bool)
    (h : emplace Hash KeyEqual t k v = .ok r) : KeyEqual t.emptyKey_ k = false :=
  ((emplaceImpl_succ Hash KeyEqual 2 t k v r).mp h).1

/-- C2: on a reachable table, inserting an absent non-empty key `k` with value
`v` returns (position, true), the slot at the position holds `(k, v)`,
afterwards `find(k)` gives that position, `at(k)` gives `v`, `count(k)` gives 1,
`size()` is one greater, and every key not equal to `k` is looked up with the
same result as before, whether or not the insertion rebuilt the table. The
reservation request `3 * (size() + 1)` is assumed to be one that the vector
can hold once rounded up to a power of two. -/
theorem emplace_absent_correct (hE : KeyEquiv KeyEqual) (hH : HashCongr Hash KeyEqual)
    {t : HashMap K V} (hR : Reachable Hash KeyEqual t) (k : K) (v : V)
    (hne : KeyEqual t.emptyKey_ k = false)
    (habs : find Hash KeyEqual t k = .ok (bucketCount t))
    (hcap : CanHold K V (3 * (size t + 1))) :
    ∃ t1 pos, emplace Hash KeyEqual t k v = .ok (t1, pos, true) ∧
      insert Hash KeyEqual t (k, v) = .ok (t1, pos, true) ∧
      pos < bucketCount t1 ∧ bucketAt t1 pos = (k, v) ∧
      find Hash KeyEqual t1 k = .ok pos ∧ atImpl Hash KeyEqual t1 k = .ok v ∧
      count Hash KeyEqual t1 k = .ok 1 ∧ size t1 = size t + 1 ∧
      ∀ k1, KeyEqual t.emptyKey_ k1 = false → KeyEqual k k1 = false →
        atImpl Hash KeyEqual t1 k1 = atImpl Hash KeyEqual t k1 ∧
        (find Hash KeyEqual t1 k1 = .ok (bucketCount t1) ↔
          find Hash KeyEqual t k1 = .ok (bucketCount t)) := by
  have hI := hR.inv Hash KeyEqual hE
  have hU := hR.uniq Hash KeyEqual hE hH
  have hnoholds : ∀ u, ¬ Holds KeyEqual t k u := by
    intro u hu
    obtain ⟨i, hi, hf, _⟩ := lookup_of_holds Hash KeyEqual hE hH hI hU k hne u hu
    unfold find at habs
    rw [hf] at habs
    injection habs with habs
    unfold bucketCount at habs
    omega
  obtain ⟨r, hr⟩ := emplaceImpl_total Hash KeyEqual hE 1 t k v hI hne hcap
  have hem := emplaceImpl_emplaced Hash KeyEqual hE hH _ t k v r hI hU hr
  obtain ⟨hI1, _, he1⟩ := emplace_sound Hash KeyEqual hE hI k v r hr
  have hb : r.2.2 = true := by
    cases hb : r.2.2 with
    | true => rfl
    | false =>
      obtain ⟨⟨u, hu⟩, _⟩ := hem.kept hb
      exact absurd hu (hnoholds u)
  obtain ⟨_, hslot, hsz⟩ := hem.added hb
  have hne1 : KeyEqual r.1.emptyKey_ k = false := by rw [he1]; exact hne
  have hf1 := findImpl_of_slot Hash KeyEqual hE hH hI1 hem.uniq k hne1 r.2.1 hem.pos_lt hem.pos_key
  have hr' : emplace Hash KeyEqual t k v = .ok (r.1, r.2.1, true) := by
    rw [← hb]
    exact hr
  refine ⟨r.1, r.2.1, hr', hr', hem.pos_lt, hslot, hf1, ?_, ?_, hsz, ?_⟩
  · unfold atImpl
    rw [hf1]
    simp only [Outcome.bind]
    rw [if_pos (Nat.ne_of_lt hem.pos_lt), hslot]
  · rw [count_of_find Hash KeyEqual r.1 k _ hf1, if_neg (Nat.ne_of_lt hem.pos_lt)]
  · intro k1 hk1 hkk
    apply lookup_eq_of_holds_iff Hash KeyEqual hE hH hI hU hI1 hem.uniq k1 hk1
      (by rw [he1]; exact hk1)
    intro v1
    rw [hem.holds k1 v1]
    constructor
    · rintro (h | ⟨_, h, _⟩)
      · exact h
      · rw [hkk] at h
        exact absurd h (by decide)
    · exact fun h => Or.inl h

/-- Witness of C2: `emplace(5, 50)` on the example table. -/
theorem emplace_absent_correct_witness :
    KeyEquiv exampleEqual ∧ HashCongr exampleHash exampleEqual ∧
      Reachable exampleHash exampleEqual exampleMap ∧
      exampleEqual exampleMap.emptyKey_ 5 = false ∧
      find exampleHash exampleEqual exampleMap 5 = .ok (bucketCount exampleMap) ∧
      CanHold Nat Nat (3 * (size exampleMap + 1)) ∧
      ∃ t1 pos, emplace exampleHash exampleEqual exampleMap 5 50 = .ok (t1, pos, true) ∧
        insert exampleHash exampleEqual exampleMap (5, 50) = .ok (t1, pos, true) ∧
        pos < bucketCount t1 ∧ bucketAt t1 pos = (5, 50) ∧
        find exampleHash exampleEqual t1 5 = .ok pos ∧
        atImpl exampleHash exampleEqual t1 5 = .ok 50 ∧
        count exampleHash exampleEqual t1 5 = .ok 1 ∧ size t1 = size exampleMap + 1 ∧
        ∀ k1, exampleEqual exampleMap.emptyKey_ k1 = false → exampleEqual 5 k1 = false →
          atImpl exampleHash exampleEqual t1 k1 = atImpl exampleHash exampleEqual exampleMap k1 ∧
          (find exampleHash exampleEqual t1 k1 = .ok (bucketCount t1) ↔
            find exampleHash exampleEqual exampleMap k1 = .ok (bucketCount exampleMap)) :=
  ⟨exampleEqual_equiv, exampleHash_congr, exampleMap_reachable, rfl, rfl,
    ⟨4, by decide, by decide, by decide, by decide⟩,
    emplace_absent_correct exampleHash exampleEqual exampleEqual_equiv exampleHash_congr
      exampleMap_reachable 5 50 rfl rfl ⟨4, by decide, by decide, by decide, by decide⟩⟩

/-- C6: on a reachable table, after any insertion call that returns, whether
`emplace`, `insert` or `operator[]` and whether or not an entry was added,
`size() * 3 <= bucketCount()`; and such a call with a non-empty key does
return when the reservation request `3 * (size() + 1)`, rounded up to a power
of two, is one that the vector can hold. -/
theorem load_factor_after_insertion (hE : KeyEquiv KeyEqual)
    {t : HashMap K V} (hR : Reachable Hash KeyEqual t) (k : K) (v : V) :
    (∀ r, emplace Hash KeyEqual t k v = .ok r ∨ insert Hash KeyEqual t (k, v) = .ok r ∨
        subscript Hash KeyEqual t k = .ok r →
      size r.1 * 3 ≤ bucketCount r.1) ∧
    (KeyEqual t.emptyKey_ k = false → CanHold K V (3 * (size t + 1)) →
      ∃ r, emplace Hash KeyEqual t k v = .ok r ∧ size r.1 * 3 ≤ bucketCount r.1) := by
  have hI := hR.inv Hash KeyEqual hE
  have hload : ∀ (w : V) r, emplace Hash KeyEqual t k w = .ok r →
      size r.1 * 3 ≤ bucketCount r.1 := by
    intro w r h
    have := (emplace_sound Hash KeyEqual hE hI k w r h).1.load
    unfold size bucketCount
    omega
  refine ⟨?_, ?_⟩
  · rintro r (h | h | h)
    · exact hload v r h
    · exact hload v r h
    · exact hload default r h
  · intro hne hcap
    obtain ⟨r, hr⟩ := emplaceImpl_total Hash KeyEqual hE 1 t k v hI hne hcap
    exact ⟨r, hr, hload v r hr⟩

/-- Witness of C6: a sixth insertion into the five-key table. -/
theorem load_factor_after_insertion_witness :
    KeyEquiv exampleEqual ∧ Reachable exampleHash exampleEqual fiveKeys ∧
      (∀ r, emplace exampleHash exampleEqual fiveKeys 6 60 = .ok r ∨
          insert exampleHash exampleEqual fiveKeys (6, 60) = .ok r ∨
          subscript exampleHash exampleEqual fiveKeys 6 = .ok r →
        size r.1 * 3 ≤ bucketCount r.1) ∧
      (exampleEqual fiveKeys.emptyKey_ 6 = false →
        CanHold Nat Nat (3 * (size fiveKeys + 1)) →
        ∃ r, emplace exampleHash exampleEqual fiveKeys 6 60 = .ok r ∧
          size r.1 * 3 ≤ bucketCount r.1) :=
  ⟨exampleEqual_equiv, fiveKeys_reachable,
    load_factor_after_insertion exampleHash exampleEqual exampleEqual_equiv
      fiveKeys_reachable 6 60⟩

end Claims2

section Claims3

variable {K V : Type} [Inhabited V] [BucketStorage K V]
variable (Hash : K → Nat) (KeyEqual : K → K → Bool)

/-- A request above `2 ^ 63` makes `rehash` loop forever in the constructor of
the fresh table, before anything is inserted. -/
theorem rehash_hang (t : HashMap K V) (n : Nat) (hn : 2 ^ 63 < n) :
    rehash Hash KeyEqual t n = .hang := by
  unfold rehash rehashWith copyConstruct
  rw [construct_hang _ (lt_of_lt_of_le hn (le_max_left _ _))]
  rfl

theorem rehash_effect (hE : KeyEquiv KeyEqual) (hH : HashCongr Hash KeyEqual)
    {t t1 : HashMap K V} (hI : Inv Hash KeyEqual t) (hU : Uniq KeyEqual t) (n : Nat)
    (h : rehash Hash KeyEqual t n = .ok t1) :
    Inv Hash KeyEqual t1 ∧ Uniq KeyEqual t1 ∧ t1.emptyKey_ = t.emptyKey_ ∧
      t1.size_ = t.size_ ∧ ∀ k v, Holds KeyEqual t1 k v ↔ Holds KeyEqual t k v := by
  have hS : InsSound Hash KeyEqual
      (insertInto Hash KeyEqual : HashMap K V → K → V → Outcome (HashMap K V)) :=
    emplaceImpl_sound Hash KeyEqual hE callDepth
  have hD : InsHolds Hash KeyEqual
      (insertInto Hash KeyEqual : HashMap K V → K → V → Outcome (HashMap K V)) :=
    emplaceImpl_insHolds Hash KeyEqual hE hH callDepth
  obtain ⟨h1, _, _, h4⟩ := copyConstruct_sound Hash KeyEqual hE _ hS t t1 _ h
  obtain ⟨h5, h6, h7⟩ := copyConstruct_holds Hash KeyEqual hE _ hS hD t t1 _ hI hU h
  exact ⟨h1, h5, h4, h7, h6⟩

/-- A request that `rehash` answers with a table is one that the vector can hold. -/
theorem rehash_canHold (t t1 : HashMap K V) (n : Nat)
    (h : rehash Hash KeyEqual t n = .ok t1) : CanHold K V n := by
  unfold rehash rehashWith copyConstruct at h
  obtain ⟨fresh, hfresh, _⟩ := (Outcome.bind_eq_ok _ _ _).mp h
  exact (construct_canHold _ _ fresh hfresh).smaller (le_max_left _ _)

/-- A request that the vector cannot hold although it fits a `size_t` once
rounded up ends in one of the two exceptions of `resize`. -/
theorem construct_throws (n : Nat) (hn : n ≤ 2 ^ 63) (hno : ¬ CanHold K V n) (e : K) :
    (construct n e : Outcome (HashMap K V)) = .lengthError ∨
      (construct n e : Outcome (HashMap K V)) = .badAlloc := by
  obtain ⟨r, hr⟩ := roundUpLoop_total n hn 65 0 (by omega) (by omega)
  obtain ⟨x, _, hx, hrx, hnr, _⟩ := roundUpLoop_ok n 65 0 r (by omega) hr
  have hna : ¬ Allocatable K V r := fun ha => hno ⟨x, hx, by rw [← hrx]; exact hnr,
    by rw [← hrx]; exact ha⟩
  unfold construct
  rw [show (1 : Nat) = 2 ^ 0 from rfl, hr]
  simp only [Outcome.bind]
  unfold resize
  unfold Allocatable at hna
  split_ifs with h1 h2
  · exact Or.inl rfl
  · exact Or.inr rfl
  · exact absurd ⟨by omega, by omega⟩ hna

/-- C7 (as amended): on a reachable table, for every `n` with `size() <= n`
that the vector can hold once rounded up to a power of two (within `size_t`,
`max_size()` and the storage of the allocator), `rehash(n)` returns, leaves
`size()` and the empty key unchanged, and every non-empty key is found with a
value afterwards exactly when it was found with that value before. No other
request makes `rehash` return a table. -/
theorem rehash_preserves_contents (hE : KeyEquiv KeyEqual) (hH : HashCongr Hash KeyEqual)
    {t : HashMap K V} (hR : Reachable Hash KeyEqual t) (n : Nat)
    (_hsize : size t ≤ n) (hn : CanHold K V n) :
    (∃ t1, rehash Hash KeyEqual t n = .ok t1 ∧ size t1 = size t ∧
      t1.emptyKey_ = t.emptyKey_ ∧
      ∀ k, KeyEqual t.emptyKey_ k = false →
        ∀ v, FoundWith Hash KeyEqual t1 k v ↔ FoundWith Hash KeyEqual t k v) ∧
    ∀ m t2, rehash Hash KeyEqual t m = .ok t2 → CanHold K V m := by
  have hI := hR.inv Hash KeyEqual hE
  have hU := hR.uniq Hash KeyEqual hE hH
  refine ⟨?_, fun m t2 h => rehash_canHold Hash KeyEqual t t2 m h⟩
  obtain ⟨t1, ht1⟩ := rehash_total Hash KeyEqual hE t n hI hn
  obtain ⟨hI1, hU1, he1, hs1, hiff⟩ := rehash_effect Hash KeyEqual hE hH hI hU n ht1
  refine ⟨t1, ht1, hs1, he1, ?_⟩
  intro k hk v
  rw [foundWith_iff_holds Hash KeyEqual hE hH hI1 hU1 k (by rw [he1]; exact hk),
    foundWith_iff_holds Hash KeyEqual hE hH hI hU k hk, hiff k v]

/-- Witness of C7: `rehash(7)` on the example table. -/
theorem rehash_preserves_contents_witness :
    KeyEquiv exampleEqual ∧ HashCongr exampleHash exampleEqual ∧
      Reachable exampleHash exampleEqual exampleMap ∧ size exampleMap ≤ 7 ∧
      CanHold Nat Nat 7 ∧
      (∃ t1, rehash exampleHash exampleEqual exampleMap 7 = .ok t1 ∧
        size t1 = size exampleMap ∧ t1.emptyKey_ = exampleMap.emptyKey_ ∧
        ∀ k, exampleEqual exampleMap.emptyKey_ k = false →
          ∀ v, FoundWith exampleHash exampleEqual t1 k v ↔
            FoundWith exampleHash exampleEqual exampleMap k v) ∧
      ∀ m t2, rehash exampleHash exampleEqual exampleMap m = .ok t2 → CanHold Nat Nat m :=
  ⟨exampleEqual_equiv, exampleHash_congr, exampleMap_reachable, by decide,
    ⟨3, by decide, by decide, by decide, by decide⟩,
    rehash_preserves_contents exampleHash exampleEqual exampleEqual_equiv exampleHash_congr
      exampleMap_reachable 7 (by decide) ⟨3, by decide, by decide, by decide, by decide⟩⟩

/-- C7 as stated fails for a request that the vector cannot hold: on the
freshly constructed one-bucket table `rehash(2 ^ 63 + 1)` does not return, for
any storage, and with the storage of the `HashMap<int, int>` examples
`rehash(2 ^ 63)` throws `std::length_error`, `2 ^ 63` elements being more than
`max_size()`. -/
theorem rehash_beyond_range_counterexample :
    KeyEquiv exampleEqual ∧ HashCongr exampleHash exampleEqual ∧
      Reachable exampleHash exampleEqual exampleMap0 ∧ size exampleMap0 ≤ 2 ^ 63 + 1 ∧
      2 ^ 63 + 1 < sizeMod ∧
      rehash exampleHash exampleEqual exampleMap0 (2 ^ 63 + 1) = .hang ∧
      rehash exampleHash exampleEqual exampleMap0 (2 ^ 63) = .lengthError :=
  ⟨exampleEqual_equiv, exampleHash_congr,
    @Reachable.construct Nat Nat _ exampleHash exampleEqual _ 1 0 exampleMap0 rfl,
    by decide, by decide, rehash_hang exampleHash exampleEqual exampleMap0 _ (by decide),
    by rfl⟩

/-- C8: on a reachable table, inserting a key that is present with value `v0`
returns (position, false), the slot at the position holds a key equal to it,
`size()` is unchanged and `at(k)` is still `v0`. The reservation request
`3 * (size() + 1)` is assumed to be one that the vector can hold once rounded
up to a power of two. -/
theorem emplace_present_rejected (hE : KeyEquiv KeyEqual) (hH : HashCongr Hash KeyEqual)
    {t : HashMap K V} (hR : Reachable Hash KeyEqual t) (k : K) (v0 v : V)
    (hne : KeyEqual t.emptyKey_ k = false)
    (hpres : atImpl Hash KeyEqual t k = .ok v0)
    (hcap : CanHold K V (3 * (size t + 1))) :
    ∃ t1 pos, emplace Hash KeyEqual t k v = .ok (t1, pos, false) ∧
      insert Hash KeyEqual t (k, v) = .ok (t1, pos, false) ∧
      pos < bucketCount t1 ∧ KeyEqual (bucketAt t1 pos).1 k = true ∧
      size t1 = size t ∧ atImpl Hash KeyEqual t1 k = .ok v0 := by
  have hI := hR.inv Hash KeyEqual hE
  have hU := hR.uniq Hash KeyEqual hE hH
  have hholds : Holds KeyEqual t k v0 := by
    by_cases hex : ∃ u, Holds KeyEqual t k u
    · obtain ⟨u, hu⟩ := hex
      obtain ⟨_, _, _, _, _, ha⟩ := lookup_of_holds Hash KeyEqual hE hH hI hU k hne u hu
      rw [ha] at hpres
      injection hpres with hpres
      rw [← hpres]
      exact hu
    · obtain ⟨_, ha⟩ := lookup_of_not_holds Hash KeyEqual hE hI k hne
        (fun u hu => hex ⟨u, hu⟩)
      rw [ha] at hpres
      cases hpres
  obtain ⟨r, hr⟩ := emplaceImpl_total Hash KeyEqual hE 1 t k v hI hne hcap
  have hem := emplaceImpl_emplaced Hash KeyEqual hE hH _ t k v r hI hU hr
  obtain ⟨hI1, _, he1⟩ := emplace_sound Hash KeyEqual hE hI k v r hr
  have hb : r.2.2 = false := by
    cases hb : r.2.2 with
    | false => rfl
    | true => exact absurd hholds ((hem.added hb).1 v0)
  have hr' : emplace Hash KeyEqual t k v = .ok (r.1, r.2.1, false) := by
    rw [← hb]
    exact hr
  refine ⟨r.1, r.2.1, hr', hr', hem.pos_lt, hem.pos_key, (hem.kept hb).2, ?_⟩
  obtain ⟨_, _, _, _, _, ha⟩ := lookup_of_holds Hash KeyEqual hE hH hI1 hem.uniq k
    (by rw [he1]; exact hne) v0 ((hem.holds k v0).mpr (Or.inl hholds))
  exact ha

/-- Witness of C8: `emplace(3, 50)` on the example table, where key 3 has value 3. -/
theorem emplace_present_rejected_witness :
    KeyEquiv exampleEqual ∧ HashCongr exampleHash exampleEqual ∧
      Reachable exampleHash exampleEqual exampleMap ∧
      exampleEqual exampleMap.emptyKey_ 3 = false ∧
      atImpl exampleHash exampleEqual exampleMap 3 = .ok 3 ∧
      CanHold Nat Nat (3 * (size exampleMap + 1)) ∧
      ∃ t1 pos, emplace exampleHash exampleEqual exampleMap 3 50 = .ok (t1, pos, false) ∧
        insert exampleHash exampleEqual exampleMap (3, 50) = .ok (t1, pos, false) ∧
        pos < bucketCount t1 ∧ exampleEqual (bucketAt t1 pos).1 3 = true ∧
        size t1 = size exampleMap ∧ atImpl exampleHash exampleEqual t1 3 = .ok 3 :=
  ⟨exampleEqual_equiv, exampleHash_congr, exampleMap_reachable, rfl, rfl,
    ⟨4, by decide, by decide, by decide, by decide⟩,
    emplace_present_rejected exampleHash exampleEqual exampleEqual_equiv exampleHash_congr
      exampleMap_reachable 3 3 50 rfl rfl ⟨4, by decide, by decide, by decide, by decide⟩⟩

/-- C9 (as amended): on a reachable table, inserting a present key returns
(position, false) and leaves the count and the empty key unchanged; when
`(size() + 1) * 3 <= bucketCount()` the whole table, slot array included, is
unchanged; otherwise the reservation made before probing has rebuilt the
slot array with at least `(size() + 1) * 3` buckets. The reservation request
is assumed to be one that the vector can hold once rounded up to a power of
two. -/
theorem emplace_present_state (hE : KeyEquiv KeyEqual) (hH : HashCongr Hash KeyEqual)
    {t : HashMap K V} (hR : Reachable Hash KeyEqual t) (k : K) (v : V) (i : Nat)
    (hfind : find Hash KeyEqual t k = .ok i) (hpres : i ≠ bucketCount t)
    (hcap : CanHold K V (3 * (size t + 1))) :
    ∃ t1 pos, emplace Hash KeyEqual t k v = .ok (t1, pos, false) ∧
      size t1 = size t ∧ t1.emptyKey_ = t.emptyKey_ ∧
      ((size t + 1) * 3 ≤ bucketCount t → t1 = t) ∧
      (bucketCount t < (size t + 1) * 3 → (size t + 1) * 3 ≤ bucketCount t1) := by
  have hI := hR.inv Hash KeyEqual hE
  have hU := hR.uniq Hash KeyEqual hE hH
  have hne := findImpl_ok_ne Hash KeyEqual t k i hfind
  obtain ⟨r0, hr0, hcase⟩ := findImpl_total Hash KeyEqual hI k hne
  unfold find at hfind
  rw [hfind] at hr0
  injection hr0 with hr0
  subst hr0
  have hslot : i < t.buckets_.length ∧ KeyEqual (bucketAt t i).1 k = true := by
    rcases hcase with h | h
    · exact absurd h hpres
    · exact h
  have hholds : Holds KeyEqual t k (bucketAt t i).2 :=
    ⟨i, hslot.1, by simp [occupied, not_empty_of_match KeyEqual hE _ _ _ hne hslot.2],
      hslot.2, rfl⟩
  obtain ⟨r, hr⟩ := emplaceImpl_total Hash KeyEqual hE 1 t k v hI hne hcap
  have hem := emplaceImpl_emplaced Hash KeyEqual hE hH _ t k v r hI hU hr
  obtain ⟨_, _, he1⟩ := emplace_sound Hash KeyEqual hE hI k v r hr
  have hb : r.2.2 = false := by
    cases hb : r.2.2 with
    | false => rfl
    | true => exact absurd hholds ((hem.added hb).1 _)
  have hr' : emplace Hash KeyEqual t k v = .ok (r.1, r.2.1, false) := by
    rw [← hb]
    exact hr
  obtain ⟨_, t1, hres, hloop⟩ := (emplaceImpl_succ Hash KeyEqual 2 t k v r).mp hr
  have hS : InsSound Hash KeyEqual
      (fun (o : HashMap K V) k w => Outcome.table (emplaceImpl Hash KeyEqual 2 o k w)) :=
    emplaceImpl_sound Hash KeyEqual hE 2
  obtain ⟨hI1, _, hc1, hs1, he2, hsame⟩ := reserveWith_sound Hash KeyEqual hE _ hS t t1 _ hI hres
  obtain ⟨hm1, hm2⟩ := size_succ_mod Hash KeyEqual hI
  rw [hm1, hm2] at hc1 hsame
  obtain ⟨r1, hr1, _, hl1, _, _, _, hkind⟩ := emplaceLoop_sound Hash KeyEqual hE t1 k v hI1
    (by omega) (by rw [he2]; exact hne)
  rw [hloop] at hr1
  injection hr1 with hr1
  subst hr1
  refine ⟨r.1, r.2.1, hr', (hem.kept hb).2, he1, ?_, ?_⟩
  · intro hroom
    rcases hkind with ⟨_, h, _⟩ | ⟨h, _⟩
    · rw [h]
      exact hsame hroom
    · rw [hb] at h
      exact absurd h (by decide)
  · intro _
    unfold bucketCount size
    rw [hl1]
    exact hc1

/-- Witness of C9: `emplace(3, 50)` on the example table, which has room. -/
theorem emplace_present_state_witness :
    KeyEquiv exampleEqual ∧ HashCongr exampleHash exampleEqual ∧
      Reachable exampleHash exampleEqual exampleMap ∧
      find exampleHash exampleEqual exampleMap 3 = .ok 10 ∧ 10 ≠ bucketCount exampleMap ∧
      CanHold Nat Nat (3 * (size exampleMap + 1)) ∧
      ∃ t1 pos, emplace exampleHash exampleEqual exampleMap 3 50 = .ok (t1, pos, false) ∧
        size t1 = size exampleMap ∧ t1.emptyKey_ = exampleMap.emptyKey_ ∧
        ((size exampleMap + 1) * 3 ≤ bucketCount exampleMap → t1 = exampleMap) ∧
        (bucketCount exampleMap < (size exampleMap + 1) * 3 →
          (size exampleMap + 1) * 3 ≤ bucketCount t1) :=
  ⟨exampleEqual_equiv, exampleHash_congr, exampleMap_reachable, rfl, by decide,
    ⟨4, by decide, by decide, by decide, by decide⟩,
    emplace_present_state exampleHash exampleEqual exampleEqual_equiv exampleHash_congr
      exampleMap_reachable 3 50 10 rfl (by decide) ⟨4, by decide, by decide, by decide, by decide⟩⟩

/-- C9 as stated fails when the table has no room for one more entry: the
five-key table of sixteen buckets holds key 1, and `emplace(1, 99)` returns
(position, false) with the slot array rebuilt to 32 buckets. -/
theorem emplace_present_rehash_counterexample :
    KeyEquiv exampleEqual ∧ HashCongr exampleHash exampleEqual ∧
      Reachable exampleHash exampleEqual fiveKeys ∧
      find exampleHash exampleEqual fiveKeys 1 = .ok 8 ∧ 8 ≠ bucketCount fiveKeys ∧
      emplace exampleHash exampleEqual fiveKeys 1 99 = .ok (fiveKeysGrown, 8, false) ∧
      bucketCount fiveKeys = 16 ∧ bucketCount fiveKeysGrown = 32 ∧
      fiveKeysGrown.buckets_ ≠ fiveKeys.buckets_ :=
  ⟨exampleEqual_equiv, exampleHash_congr, fiveKeys_reachable, by rfl, by decide, by rfl,
    by rfl, by rfl, by decide⟩

/-- C10: on a reachable table, erasing an absent non-empty key returns 0 and
leaves the table exactly as it was; erasing a present key returns 1, and
erasing it again returns 0 and changes nothing. -/
theorem erase_absent_noop (hE : KeyEquiv KeyEqual) (hH : HashCongr Hash KeyEqual)
    {t : HashMap K V} (hR : Reachable Hash KeyEqual t) (k : K)
    (hne : KeyEqual t.emptyKey_ k = false) :
    (find Hash KeyEqual t k = .ok (bucketCount t) → erase Hash KeyEqual t k = .ok (t, 0)) ∧
    (∀ i, find Hash KeyEqual t k = .ok i → i ≠ bucketCount t →
      ∃ t1, erase Hash KeyEqual t k = .ok (t1, 1) ∧ erase Hash KeyEqual t1 k = .ok (t1, 0)) := by
  have habsent : ∀ t2 : HashMap K V, find Hash KeyEqual t2 k = .ok (bucketCount t2) →
      erase Hash KeyEqual t2 k = .ok (t2, 0) := by
    intro t2 h
    unfold find at h
    unfold erase eraseKeyImpl
    rw [h]
    simp [Outcome.bind, bucketCount]
  refine ⟨habsent t, ?_⟩
  intro i hfind hpres
  have hI := hR.inv Hash KeyEqual hE
  have hU := hR.uniq Hash KeyEqual hE hH
  rcases eraseKeyImpl_spec Hash KeyEqual hE hI k hne with ⟨hf, _⟩ | ⟨p, t1, hp, hf, hocc, hk, hr, her⟩
  · unfold find at hfind
    rw [hfind] at hf
    injection hf with hf
    exact absurd hf hpres
  · refine ⟨t1, hr, habsent t1 ?_⟩
    have hgone : ∀ v, ¬ Holds KeyEqual t1 k v := by
      intro v hv
      have := ((her.holds_iff Hash KeyEqual hE hU hp hocc k v).mp hv).2
      rw [hk] at this
      exact absurd this (by decide)
    exact (lookup_of_not_holds Hash KeyEqual hE her.inv k
      (by rw [her.emptyKey_eq]; exact hne) hgone).1

/-- Witness of C10: key 7 (absent) on the example table. -/
theorem erase_absent_noop_witness :
    KeyEquiv exampleEqual ∧ HashCongr exampleHash exampleEqual ∧
      Reachable exampleHash exampleEqual exampleMap ∧
      exampleEqual exampleMap.emptyKey_ 7 = false ∧
      (find exampleHash exampleEqual exampleMap 7 = .ok (bucketCount exampleMap) →
        erase exampleHash exampleEqual exampleMap 7 = .ok (exampleMap, 0)) ∧
      (∀ i, find exampleHash exampleEqual exampleMap 7 = .ok i → i ≠ bucketCount exampleMap →
        ∃ t1, erase exampleHash exampleEqual exampleMap 7 = .ok (t1, 1) ∧
          erase exampleHash exampleEqual t1 7 = .ok (t1, 0)) :=
  ⟨exampleEqual_equiv, exampleHash_congr, exampleMap_reachable, rfl,
    erase_absent_noop exampleHash exampleEqual exampleEqual_equiv exampleHash_congr
      exampleMap_reachable 7 rfl⟩

end Claims3

/-- C19: for a table whose length `L` is a power of two up to `2 ^ 63` and
indices `a, b < L`, `diff(a, b)`, computed with wrapping 64-bit arithmetic, is
the unique `d < L` with `(b + d) mod L = a`; `diff(a, a) = 0`, and
`diff(probeNext(a), a) = 1` when `L > 1`. -/
theorem diff_cyclic_distance {K V : Type} (t : HashMap K V) (e : Nat) (he : e ≤ 63)
    (hL : t.buckets_.length = 2 ^ e) (a b : Nat)
    (ha : a < t.buckets_.length) (hb : b < t.buckets_.length) :
    diff t a b < t.buckets_.length ∧ (b + diff t a b) % t.buckets_.length = a ∧
      (∀ d, d < t.buckets_.length → (b + d) % t.buckets_.length = a → d = diff t a b) ∧
      diff t a a = 0 ∧ (1 < t.buckets_.length → diff t (probeNext t a) a = 1) := by
  have hp2 : IsPow2 t.buckets_.length := ⟨e, he, hL⟩
  rw [diff_eq t hp2 a b ha hb, diff_eq t hp2 a a ha ha]
  refine ⟨dist_lt _ _ _ hp2.pos, step_dist _ _ _ ha hb, ?_, dist_self _ _ ha, ?_⟩
  · intro d hd hda
    rw [← hda, dist_step _ _ _ hb hd]
  · intro h1
    rw [diff_eq t hp2 _ a (probeNext_lt t hp2 a) ha, probeNext_eq t hp2,
      dist_succ _ a a ha ha (by rw [dist_self _ _ ha]; omega), dist_self _ _ ha]

section Claims4

variable {K V : Type} [Inhabited V] [BucketStorage K V]
variable (Hash : K → Nat) (KeyEqual : K → K → Bool)

/-- C11: on a reachable table and for a non-empty key, `at` throws
`std::out_of_range` exactly when `find` returns `end()`; otherwise it returns
the value of the slot that `find` returns, whose key equals the key asked
for. `find` returns in either case, and neither call yields a new table. -/
theorem at_fails_exactly_on_absent (hE : KeyEquiv KeyEqual)
    {t : HashMap K V} (hR : Reachable Hash KeyEqual t) (k : K)
    (hne : KeyEqual t.emptyKey_ k = false) :
    (∃ i, find Hash KeyEqual t k = .ok i) ∧
    (atImpl Hash KeyEqual t k = .outOfRange ↔ find Hash KeyEqual t k = .ok (bucketCount t)) ∧
    (∀ i, find Hash KeyEqual t k = .ok i → i ≠ bucketCount t →
      i < bucketCount t ∧ KeyEqual (bucketAt t i).1 k = true ∧
        atImpl Hash KeyEqual t k = .ok (bucketAt t i).2) := by
  have hI := hR.inv Hash KeyEqual hE
  obtain ⟨r, hr, hcase⟩ := findImpl_total Hash KeyEqual hI k hne
  have hat : atImpl Hash KeyEqual t k
      = if r ≠ t.buckets_.length then .ok (bucketAt t r).2 else .outOfRange := by
    unfold atImpl
    rw [hr]
    rfl
  unfold find bucketCount
  refine ⟨⟨r, hr⟩, ?_, ?_⟩
  · rw [hat, hr]
    constructor
    · intro h
      split_ifs at h with hc
      rw [not_not] at hc
      rw [hc]
    · intro h
      injection h with h
      rw [if_neg (by rw [h]; exact fun hx => hx rfl)]
  · intro i hi hne2
    rw [hr] at hi
    injection hi with hi
    subst hi
    rcases hcase with h | ⟨hlt, hk⟩
    · exact absurd h hne2
    · exact ⟨hlt, hk, by rw [hat, if_pos hne2]⟩

/-- Witness of C11: key 3 on the example table. -/
theorem at_fails_exactly_on_absent_witness :
    KeyEquiv exampleEqual ∧ Reachable exampleHash exampleEqual exampleMap ∧
      exampleEqual exampleMap.emptyKey_ 3 = false ∧
      (∃ i, find exampleHash exampleEqual exampleMap 3 = .ok i) ∧
      (atImpl exampleHash exampleEqual exampleMap 3 = .outOfRange ↔
        find exampleHash exampleEqual exampleMap 3 = .ok (bucketCount exampleMap)) ∧
      (∀ i, find exampleHash exampleEqual exampleMap 3 = .ok i → i ≠ bucketCount exampleMap →
        i < bucketCount exampleMap ∧ exampleEqual (bucketAt exampleMap i).1 3 = true ∧
          atImpl exampleHash exampleEqual exampleMap 3 = .ok (bucketAt exampleMap i).2) :=
  ⟨exampleEqual_equiv, exampleMap_reachable, rfl,
    at_fails_exactly_on_absent exampleHash exampleEqual exampleEqual_equiv
      exampleMap_reachable 3 rfl⟩

/-- C13 (as amended): for every capacity hint that the vector can hold once
rounded up to a power of two (within `size_t`, `max_size()` and the storage of
the allocator) and every empty key the constructor returns an empty table:
`bucketCount()` is the smallest power of two not below `max(hint, 1)`,
`size()` is 0, every slot holds the empty key, and every non-empty key is
absent. For no other hint does the constructor return a table. -/
theorem construct_rounds_up (hE : KeyEquiv KeyEqual) (n : Nat) (hn : CanHold K V n) (e : K) :
    (∃ t : HashMap K V, construct n e = .ok t ∧ t.emptyKey_ = e ∧
      (∃ x, bucketCount t = 2 ^ x) ∧ max n 1 ≤ bucketCount t ∧
      (∀ x, max n 1 ≤ 2 ^ x → bucketCount t ≤ 2 ^ x) ∧ size t = 0 ∧
      (∀ i, i < bucketCount t → (bucketAt t i).1 = e) ∧
      (∀ k, KeyEqual e k = false → find Hash KeyEqual t k = .ok (bucketCount t))) ∧
    ∀ (m : Nat) (t2 : HashMap K V), construct m e = .ok t2 → CanHold K V m := by
  refine ⟨?_, fun m t2 h => construct_canHold m e t2 h⟩
  obtain ⟨t, ht⟩ : ∃ t : HashMap K V, construct n e = .ok t := construct_total n hn e
  obtain ⟨r, hrt, hp2, hnr, hmin, _⟩ := construct_ok n e t ht
  obtain ⟨hI, he, hs, _, hocc⟩ := construct_inv Hash KeyEqual hE n e t ht
  have hlen : t.buckets_.length = r := by rw [hrt]; simp
  obtain ⟨x, hx, hrx⟩ := hp2
  refine ⟨t, ht, he, ⟨x, by unfold bucketCount; rw [hlen, hrx]⟩, ?_, ?_, hs, ?_, ?_⟩
  · unfold bucketCount
    rw [hlen]
    exact max_le hnr (by rw [hrx]; exact Nat.one_le_two_pow)
  · intro y hy
    unfold bucketCount
    rw [hlen]
    by_cases hy64 : y < 64
    · exact hmin y hy64 (le_trans (le_max_left _ _) hy)
    · rw [hrx]
      exact Nat.pow_le_pow_right (by decide) (by omega)
  · intro i _
    rw [hrt]
    rw [bucketAt_replicate]
  · intro k hk
    apply findImpl_of_absent Hash KeyEqual hI k (by rw [he]; exact hk)
    intro i _
    rw [hrt, bucketAt_replicate]
    exact hk

/-- Witness of C13: the hint 5 with empty key 0. -/
theorem construct_rounds_up_witness :
    KeyEquiv exampleEqual ∧ CanHold Nat Nat 5 ∧
      (∃ t : HashMap Nat Nat, construct 5 0 = .ok t ∧ t.emptyKey_ = 0 ∧
        (∃ x, bucketCount t = 2 ^ x) ∧ max 5 1 ≤ bucketCount t ∧
        (∀ x, max 5 1 ≤ 2 ^ x → bucketCount t ≤ 2 ^ x) ∧ size t = 0 ∧
        (∀ i, i < bucketCount t → (bucketAt t i).1 = 0) ∧
        (∀ k, exampleEqual 0 k = false →
          find exampleHash exampleEqual t k = .ok (bucketCount t))) ∧
      ∀ (m : Nat) (t2 : HashMap Nat Nat), construct m 0 = .ok t2 → CanHold Nat Nat m :=
  ⟨exampleEqual_equiv, ⟨3, by decide, by decide, by decide, by decide⟩,
    construct_rounds_up exampleHash exampleEqual exampleEqual_equiv 5
      ⟨3, by decide, by decide, by decide, by decide⟩ 0⟩

/-- C13 as stated fails for hints that are values of `size_t`:
`HashMap<int, int>(2 ^ 63 + 1, 0)` does not return, and
`HashMap<int, int>(2 ^ 63, 0)` throws `std::length_error`, `2 ^ 63` elements
being more than `max_size()`. -/
theorem construct_beyond_range_counterexample :
    2 ^ 63 + 1 < sizeMod ∧
      (construct (2 ^ 63 + 1) 0 : Outcome (HashMap Nat Nat)) = .hang ∧
      (construct (2 ^ 63) 0 : Outcome (HashMap Nat Nat)) = .lengthError :=
  ⟨by decide, construct_hang _ (by decide) 0, by rfl⟩

/-- C14 (as amended): on a reachable table, for every `n` that the vector can
hold once rounded up to a power of two (within `size_t`, `max_size()` and the
storage of the allocator), `rehash(n)` returns a table whose `bucketCount()`
is a power of two and at least `max(n, 2 * size())`; `bucketCount()` is a
power of two in every reachable table; and every table that `rehash` returns,
for whatever request, has these properties. -/
theorem rehash_capacity (hE : KeyEquiv KeyEqual)
    {t : HashMap K V} (hR : Reachable Hash KeyEqual t) (n : Nat) (hn : CanHold K V n) :
    (∃ t1, rehash Hash KeyEqual t n = .ok t1 ∧ (∃ x, bucketCount t1 = 2 ^ x) ∧
      max n (2 * size t) ≤ bucketCount t1) ∧
    (∃ x, bucketCount t = 2 ^ x) ∧
    ∀ m t2, rehash Hash KeyEqual t m = .ok t2 →
      CanHold K V m ∧ (∃ x, bucketCount t2 = 2 ^ x) ∧ max m (2 * size t) ≤ bucketCount t2 := by
  have hI := hR.inv Hash KeyEqual hE
  have hpow : ∀ t2 : HashMap K V, Inv Hash KeyEqual t2 → ∃ x, bucketCount t2 = 2 ^ x := by
    intro t2 h2
    obtain ⟨x, _, hx⟩ := h2.pow2
    exact ⟨x, hx⟩
  have hS : InsSound Hash KeyEqual
      (insertInto Hash KeyEqual : HashMap K V → K → V → Outcome (HashMap K V)) :=
    emplaceImpl_sound Hash KeyEqual hE callDepth
  have hm : (t.size_ * 2) % sizeMod = t.size_ * 2 := by
    have := hI.load
    have := hI.pow2.le
    unfold sizeMod
    omega
  have hprop : ∀ m t2, rehash Hash KeyEqual t m = .ok t2 →
      (∃ x, bucketCount t2 = 2 ^ x) ∧ max m (2 * size t) ≤ bucketCount t2 := by
    intro m t2 ht2
    obtain ⟨hI2, h1, h2, _⟩ := rehashWith_sound Hash KeyEqual hE _ hS t t2 m ht2
    refine ⟨hpow t2 hI2, ?_⟩
    rw [hm] at h2
    unfold bucketCount size
    exact max_le h1 (by omega)
  refine ⟨?_, hpow t hI, fun m t2 h => ⟨rehash_canHold Hash KeyEqual t t2 m h, hprop m t2 h⟩⟩
  obtain ⟨t1, ht1⟩ := rehash_total Hash KeyEqual hE t n hI hn
  exact ⟨t1, ht1, hprop n t1 ht1⟩

/-- Witness of C14: `rehash(40)` on the example table. -/
theorem rehash_capacity_witness :
    KeyEquiv exampleEqual ∧ Reachable exampleHash exampleEqual exampleMap ∧
      CanHold Nat Nat 40 ∧
      (∃ t1, rehash exampleHash exampleEqual exampleMap 40 = .ok t1 ∧
        (∃ x, bucketCount t1 = 2 ^ x) ∧ max 40 (2 * size exampleMap) ≤ bucketCount t1) ∧
      (∃ x, bucketCount exampleMap = 2 ^ x) ∧
      ∀ m t2, rehash exampleHash exampleEqual exampleMap m = .ok t2 →
        CanHold Nat Nat m ∧ (∃ x, bucketCount t2 = 2 ^ x) ∧
          max m (2 * size exampleMap) ≤ bucketCount t2 :=
  ⟨exampleEqual_equiv, exampleMap_reachable, ⟨6, by decide, by decide, by decide, by decide⟩,
    rehash_capacity exampleHash exampleEqual exampleEqual_equiv exampleMap_reachable 40
      ⟨6, by decide, by decide, by decide, by decide⟩⟩

/-- C14 as stated fails for requests that the vector cannot hold: on the
example table `rehash(2 ^ 64 - 1)` does not return, and `rehash(2 ^ 63)` throws
`std::length_error`, so there is no bucket count afterwards. -/
theorem rehash_capacity_counterexample :
    KeyEquiv exampleEqual ∧ Reachable exampleHash exampleEqual exampleMap ∧
      2 ^ 64 - 1 < sizeMod ∧
      rehash exampleHash exampleEqual exampleMap (2 ^ 64 - 1) = .hang ∧
      rehash exampleHash exampleEqual exampleMap (2 ^ 63) = .lengthError := by
  refine ⟨exampleEqual_equiv, exampleMap_reachable, by decide, ?_, by rfl⟩
  unfold rehash rehashWith copyConstruct
  rw [construct_hang _ (lt_of_lt_of_le (by decide : 2 ^ 63 < 2 ^ 64 - 1) (le_max_left _ _))]
  rfl

/-- Witness of C19: `a = 2`, `b = 13` in the sixteen-bucket example table, where
the subtraction wraps. -/
theorem diff_cyclic_distance_witness :
    4 ≤ 63 ∧ exampleMap.buckets_.length = 2 ^ 4 ∧ 2 < exampleMap.buckets_.length ∧
      13 < exampleMap.buckets_.length ∧
      diff exampleMap 2 13 < exampleMap.buckets_.length ∧
      (13 + diff exampleMap 2 13) % exampleMap.buckets_.length = 2 ∧
      (∀ d, d < exampleMap.buckets_.length → (13 + d) % exampleMap.buckets_.length = 2 →
        d = diff exampleMap 2 13) ∧
      diff exampleMap 2 2 = 0 ∧
      (1 < exampleMap.buckets_.length → diff exampleMap (probeNext exampleMap 2) 2 = 1) :=
  ⟨by decide, by decide, by decide, by decide,
    diff_cyclic_distance exampleMap 4 (by decide) (by decide) 2 13 (by decide) (by decide)⟩

end Claims4

theorem roundUpLoop_no_assert (n : Nat) :
    ∀ fuel p, roundUpLoop fuel p n ≠ .assertFail := by
  intro fuel
  induction fuel with
  | zero => intro p h; cases h
  | succ f ih =>
    intro p
    rw [roundUpLoop]
    split_ifs
    · exact ih _
    · intro h; cases h

theorem Outcome.bind_no_assert {α β : Type} (x : Outcome α) (f : α → Outcome β)
    (hx : x ≠ .assertFail) (hf : ∀ a, x = .ok a → f a ≠ .assertFail) :
    x.bind f ≠ .assertFail := by
  cases x with
  | ok a => exact hf a rfl
  | assertFail => exact absurd rfl hx
  | outOfRange => intro h; cases h
  | lengthError => intro h; cases h
  | badAlloc => intro h; cases h
  | hang => intro h; cases h

theorem insertAll_no_assert {K V : Type} (KeyEqual : K → K → Bool) (hE : KeyEquiv KeyEqual)
    (ins : HashMap K V → K → V → Outcome (HashMap K V)) (e : K)
    (hins : ∀ o k w, KeyEqual o.emptyKey_ k = false → ins o k w ≠ .assertFail ∧
      ∀ o1, ins o k w = .ok o1 → o1.emptyKey_ = o.emptyKey_) :
    ∀ (rest : List (K × V)) (acc : HashMap K V), acc.emptyKey_ = e →
      insertAll KeyEqual ins e rest acc ≠ .assertFail ∧
        ∀ o, insertAll KeyEqual ins e rest acc = .ok o → o.emptyKey_ = e := by
  intro rest
  induction rest with
  | nil =>
    intro acc he
    exact ⟨fun h => (by cases h), fun o h => (by injection h with h; rw [← h]; exact he)⟩
  | cons p rest ih =>
    intro acc he
    rw [insertAll]
    cases hk : KeyEqual p.1 e with
    | true =>
      rw [if_pos rfl]
      exact ih acc he
    | false =>
      rw [if_neg (by decide)]
      have hne : KeyEqual acc.emptyKey_ p.1 = false := by
        rw [he]
        exact hE.ne_symm KeyEqual _ _ hk
      obtain ⟨h1, h2⟩ := hins acc p.1 p.2 hne
      constructor
      · apply Outcome.bind_no_assert _ _ h1
        intro a ha
        exact (ih a ((h2 a ha).trans he)).1
      · intro o ho
        obtain ⟨a, ha, hrest⟩ := (Outcome.bind_eq_ok _ _ _).mp ho
        exact (ih a ((h2 a ha).trans he)).2 o hrest

section NoAssertPure

variable {K V : Type} [Inhabited V]
variable (Hash : K → Nat) (KeyEqual : K → K → Bool)

theorem emplaceLoop_no_assert (t : HashMap K V) (key : K) (v : V) :
    ∀ fuel idx, emplaceLoop KeyEqual t key v fuel idx ≠ .assertFail ∧
      ∀ r, emplaceLoop KeyEqual t key v fuel idx = .ok r → r.1.emptyKey_ = t.emptyKey_ := by
  intro fuel
  induction fuel with
  | zero =>
    intro idx
    exact ⟨fun h => (by cases h), fun r h => (by cases h)⟩
  | succ f ih =>
    intro idx
    rw [emplaceLoop]
    split_ifs
    · exact ⟨fun h => (by cases h), fun r h => (by injection h with h; rw [← h])⟩
    · exact ⟨fun h => (by cases h), fun r h => (by injection h with h; rw [← h])⟩
    · exact ih _

theorem findLoop_no_assert (t : HashMap K V) (key : K) :
    ∀ fuel idx, findLoop KeyEqual t key fuel idx ≠ .assertFail := by
  intro fuel
  induction fuel with
  | zero => intro idx h; cases h
  | succ f ih =>
    intro idx
    rw [findLoop]
    split_ifs
    · intro h; cases h
    · intro h; cases h
    · exact ih _

theorem eraseLoop_no_assert :
    ∀ fuel (t : HashMap K V) bucket idx,
      eraseLoop Hash KeyEqual fuel t bucket idx ≠ .assertFail := by
  intro fuel
  induction fuel with
  | zero => intro t bucket idx h; cases h
  | succ f ih =>
    intro t bucket idx
    rw [eraseLoop]
    split_ifs
    · intro h; cases h
    · exact ih _ _ _
    · exact ih _ _ _

end NoAssertPure

section NoAssert

variable {K V : Type} [Inhabited V] [BucketStorage K V]
variable (Hash : K → Nat) (KeyEqual : K → K → Bool)

theorem construct_no_assert (n : Nat) (e : K) :
    (construct n e : Outcome (HashMap K V)) ≠ .assertFail ∧
      ∀ t : HashMap K V, construct n e = .ok t → t.emptyKey_ = e := by
  unfold construct
  constructor
  · apply Outcome.bind_no_assert _ _ (roundUpLoop_no_assert n 65 1)
    intro a _
    apply Outcome.bind_no_assert
    · unfold resize
      split_ifs <;> intro h <;> cases h
    · intro l _ h
      cases h
  · intro t h
    obtain ⟨p, _, hp⟩ := (Outcome.bind_eq_ok _ _ _).mp h
    obtain ⟨l, _, hl⟩ := (Outcome.bind_eq_ok _ _ _).mp hp
    injection hl with hl
    rw [← hl]

theorem reserveWith_no_assert (hE : KeyEquiv KeyEqual)
    (ins : HashMap K V → K → V → Outcome (HashMap K V))
    (hins : ∀ o k w, KeyEqual o.emptyKey_ k = false → ins o k w ≠ .assertFail ∧
      ∀ o1, ins o k w = .ok o1 → o1.emptyKey_ = o.emptyKey_)
    (t : HashMap K V) (c : Nat) :
    reserveWith KeyEqual ins t c ≠ .assertFail ∧
      ∀ o, reserveWith KeyEqual ins t c = .ok o → o.emptyKey_ = t.emptyKey_ := by
  unfold reserveWith
  split_ifs
  · unfold rehashWith copyConstruct
    obtain ⟨hc1, hc2⟩ : (construct (max (c * 3 % sizeMod) (t.size_ * 2 % sizeMod)) t.emptyKey_ :
        Outcome (HashMap K V)) ≠ .assertFail ∧ ∀ t1 : HashMap K V,
        construct (max (c * 3 % sizeMod) (t.size_ * 2 % sizeMod)) t.emptyKey_ = .ok t1 →
        t1.emptyKey_ = t.emptyKey_ := construct_no_assert _ _
    constructor
    · apply Outcome.bind_no_assert _ _ hc1
      intro a ha
      exact (insertAll_no_assert KeyEqual hE ins _ hins _ a (hc2 a ha)).1
    · intro o ho
      obtain ⟨a, ha, hrest⟩ := (Outcome.bind_eq_ok _ _ _).mp ho
      exact (insertAll_no_assert KeyEqual hE ins _ hins _ a (hc2 a ha)).2 o hrest
  · exact ⟨fun h => (by cases h), fun o h => (by injection h with h; rw [← h])⟩

/-- With a non-empty key no assertion fires inside `emplaceImpl`, whatever the
table, and the empty key of the table is kept. -/
theorem emplaceImpl_no_assert (hE : KeyEquiv KeyEqual) :
    ∀ (d : Nat) (t : HashMap K V) (k : K) (v : V), KeyEqual t.emptyKey_ k = false →
      emplaceImpl Hash KeyEqual d t k v ≠ .assertFail ∧
        ∀ r, emplaceImpl Hash KeyEqual d t k v = .ok r → r.1.emptyKey_ = t.emptyKey_ := by
  intro d
  induction d with
  | zero =>
    intro t k v _
    have h0 : emplaceImpl Hash KeyEqual 0 t k v = Outcome.hang := rfl
    rw [h0]
    exact ⟨fun h => (by cases h), fun r h => (by cases h)⟩
  | succ d ih =>
    intro t k v hne
    have hins : ∀ (o : HashMap K V) k w, KeyEqual o.emptyKey_ k = false →
        Outcome.table (emplaceImpl Hash KeyEqual d o k w) ≠ .assertFail ∧
        ∀ o1, Outcome.table (emplaceImpl Hash KeyEqual d o k w) = .ok o1 →
          o1.emptyKey_ = o.emptyKey_ := by
      intro o k1 w hk1
      obtain ⟨h1, h2⟩ := ih o k1 w hk1
      constructor
      · intro h
        cases hx : emplaceImpl Hash KeyEqual d o k1 w with
        | ok a => rw [hx] at h; cases h
        | assertFail => exact h1 hx
        | outOfRange => rw [hx] at h; cases h
        | lengthError => rw [hx] at h; cases h
        | badAlloc => rw [hx] at h; cases h
        | hang => rw [hx] at h; cases h
      · intro o1 ho1
        obtain ⟨r, hr, rfl⟩ := (Outcome.table_eq_ok _ _).mp ho1
        exact h2 r hr
    obtain ⟨hr1, hr2⟩ := reserveWith_no_assert KeyEqual hE _ hins t ((t.size_ + 1) % sizeMod)
    rw [emplaceImpl, if_neg (by rw [hne]; decide)]
    constructor
    · apply Outcome.bind_no_assert _ _ hr1
      intro a _
      exact (emplaceLoop_no_assert KeyEqual a k v _ _).1
    · intro r hr
      obtain ⟨a, ha, hloop⟩ := (Outcome.bind_eq_ok _ _ _).mp hr
      exact ((emplaceLoop_no_assert KeyEqual a k v _ _).2 r hloop).trans (hr2 a ha)

/-- C12: for every table, a key equal to the empty key makes `emplace`,
`insert`, `operator[]`, `find`, `at`, `count` and `erase` by key fail their
assertion, whatever the slots and the counter hold, so before any slot is
looked at and before any reservation; a key not equal to the empty key makes
none of them fail an assertion. -/
theorem sentinel_rejected (hE : KeyEquiv KeyEqual) (t : HashMap K V) (k : K) (v : V) :
    (KeyEqual k t.emptyKey_ = true →
      emplace Hash KeyEqual t k v = .assertFail ∧ insert Hash KeyEqual t (k, v) = .assertFail ∧
      subscript Hash KeyEqual t k = .assertFail ∧ find Hash KeyEqual t k = .assertFail ∧
      atImpl Hash KeyEqual t k = .assertFail ∧ count Hash KeyEqual t k = .assertFail ∧
      erase Hash KeyEqual t k = .assertFail) ∧
    (KeyEqual k t.emptyKey_ = false →
      emplace Hash KeyEqual t k v ≠ .assertFail ∧ insert Hash KeyEqual t (k, v) ≠ .assertFail ∧
      subscript Hash KeyEqual t k ≠ .assertFail ∧ find Hash KeyEqual t k ≠ .assertFail ∧
      atImpl Hash KeyEqual t k ≠ .assertFail ∧ count Hash KeyEqual t k ≠ .assertFail ∧
      erase Hash KeyEqual t k ≠ .assertFail) := by
  constructor
  · intro hk
    have hs : KeyEqual t.emptyKey_ k = true := hE.symm _ _ hk
    have hem : ∀ w : V, emplaceImpl Hash KeyEqual callDepth t k w = .assertFail := by
      intro w
      show emplaceImpl Hash KeyEqual (2 + 1) t k w = .assertFail
      rw [emplaceImpl, if_pos hs]
    have hf : findImpl Hash KeyEqual t k = .assertFail := by
      unfold findImpl
      rw [if_pos hs]
    refine ⟨hem v, hem v, hem default, hf, ?_, ?_, ?_⟩
    · unfold atImpl; rw [hf]; rfl
    · unfold count count_impl; rw [hf]; rfl
    · unfold erase eraseKeyImpl; rw [hf]; rfl
  · intro hk
    have hs : KeyEqual t.emptyKey_ k = false := hE.ne_symm KeyEqual _ _ hk
    have hem : ∀ w : V, emplaceImpl Hash KeyEqual callDepth t k w ≠ .assertFail :=
      fun w => (emplaceImpl_no_assert Hash KeyEqual hE callDepth t k w hs).1
    have hf : findImpl Hash KeyEqual t k ≠ .assertFail := by
      unfold findImpl
      rw [if_neg (by rw [hs]; decide)]
      exact findLoop_no_assert KeyEqual t k _ _
    refine ⟨hem v, hem v, hem default, hf, ?_, ?_, ?_⟩
    · unfold atImpl
      apply Outcome.bind_no_assert _ _ hf
      intro a _
      split_ifs
      · intro h; cases h
      · intro h; cases h
    · unfold count count_impl
      apply Outcome.bind_no_assert _ _ hf
      intro a _ h
      cases h
    · unfold erase eraseKeyImpl
      apply Outcome.bind_no_assert _ _ hf
      intro a _
      split_ifs
      · apply Outcome.bind_no_assert _ _ (eraseLoop_no_assert Hash KeyEqual _ _ _ _)
        intro b _ h
        cases h
      · intro h; cases h

/-- Witness of C12: the empty key 0 on the example table. -/
theorem sentinel_rejected_witness :
    KeyEquiv exampleEqual ∧
      (exampleEqual 0 exampleMap.emptyKey_ = true →
        emplace exampleHash exampleEqual exampleMap 0 9 = .assertFail ∧
        insert exampleHash exampleEqual exampleMap (0, 9) = .assertFail ∧
        subscript exampleHash exampleEqual exampleMap 0 = .assertFail ∧
        find exampleHash exampleEqual exampleMap 0 = .assertFail ∧
        atImpl exampleHash exampleEqual exampleMap 0 = .assertFail ∧
        count exampleHash exampleEqual exampleMap 0 = .assertFail ∧
        erase exampleHash exampleEqual exampleMap 0 = .assertFail) ∧
      (exampleEqual 0 exampleMap.emptyKey_ = false →
        emplace exampleHash exampleEqual exampleMap 0 9 ≠ .assertFail ∧
        insert exampleHash exampleEqual exampleMap (0, 9) ≠ .assertFail ∧
        subscript exampleHash exampleEqual exampleMap 0 ≠ .assertFail ∧
        find exampleHash exampleEqual exampleMap 0 ≠ .assertFail ∧
        atImpl exampleHash exampleEqual exampleMap 0 ≠ .assertFail ∧
        count exampleHash exampleEqual exampleMap 0 ≠ .assertFail ∧
        erase exampleHash exampleEqual exampleMap 0 ≠ .assertFail) :=
  ⟨exampleEqual_equiv, sentinel_rejected exampleHash exampleEqual exampleEqual_equiv exampleMap 0 9⟩

end NoAssert

theorem filter_range_eq_nil (q : Nat → Bool) :
    ∀ (n a : Nat), (∀ j, a ≤ j → j < a + n → q j = false) → (List.range' a n).filter q = [] := by
  intro n
  induction n with
  | zero => intro a _; rfl
  | succ n ih =>
    intro a h
    rw [List.range'_succ, List.filter_cons_of_neg (by rw [h a (le_refl a) (by omega)]; decide)]
    exact ih (a + 1) (fun j h1 h2 => h j (by omega) (by omega))

theorem filter_range_split (q : Nat → Bool) (a m n : Nat) :
    (List.range' a (m + n)).filter q
      = (List.range' a m).filter q ++ (List.range' (a + m) n).filter q := by
  rw [Nat.add_comm m n, ← List.range'_append_1, List.filter_append]

theorem countP_eq_filter_range {α : Type} (q : α → Bool) (d : α) (l : List α) :
    l.countP q = ((List.range l.length).filter (fun i => q (l.getD i d))).length := by
  induction l using List.reverseRecOn with
  | nil => rfl
  | append_singleton l a ih =>
    rw [List.countP_append, List.length_append, List.length_singleton, List.range_succ,
      List.filter_append, List.length_append, ih]
    congr 1
    · congr 1
      apply List.filter_congr
      intro i hi
      rw [List.mem_range] at hi
      rw [List.getD_eq_getElem _ _ hi, List.getD_eq_getElem _ _ (by simp; omega),
        List.getElem_append_left hi]
    · have : (l ++ [a]).getD l.length d = a := by
        rw [List.getD_eq_getElem _ _ (by simp)]
        simp
      simp only [List.filter_cons, List.filter_nil, this, List.countP_cons, List.countP_nil]
      split_ifs <;> rfl

section IterPure

variable {K V : Type} [Inhabited V]
variable (Hash : K → Nat) (KeyEqual : K → K → Bool)

theorem advanceLoop_spec (t : HashMap K V) (hL : t.buckets_.length < sizeMod) :
    ∀ (fuel idx : Nat), idx ≤ t.buckets_.length → t.buckets_.length - idx ≤ fuel →
      idx ≤ advanceLoop KeyEqual t fuel idx ∧
      advanceLoop KeyEqual t fuel idx ≤ t.buckets_.length ∧
      (advanceLoop KeyEqual t fuel idx < t.buckets_.length →
        occupied KeyEqual t (advanceLoop KeyEqual t fuel idx) = true) ∧
      ∀ j, idx ≤ j → j < advanceLoop KeyEqual t fuel idx → occupied KeyEqual t j = false := by
  intro fuel
  induction fuel with
  | zero =>
    intro idx h1 h2
    have : idx = t.buckets_.length := by omega
    simp only [advanceLoop]
    exact ⟨le_refl _, h1, fun h => by omega, fun j h3 h4 => by omega⟩
  | succ f ih =>
    intro idx h1 h2
    rw [advanceLoop]
    split_ifs with hlt hk
    · have hmod : (idx + 1) % sizeMod = idx + 1 := Nat.mod_eq_of_lt (by omega)
      rw [hmod]
      obtain ⟨a1, a2, a3, a4⟩ := ih (idx + 1) (by omega) (by omega)
      refine ⟨by omega, a2, a3, ?_⟩
      intro j hj1 hj2
      rcases Nat.eq_or_lt_of_le hj1 with heq | hgt
      · rw [← heq]
        simp [occupied, hk]
      · exact a4 j hgt hj2
    · exact ⟨le_refl _, h1, fun _ => by simp [occupied, hk], fun j h3 h4 => by omega⟩
    · exact ⟨le_refl _, h1, fun h => absurd h hlt, fun j h3 h4 => by omega⟩

theorem advancePastEmpty_spec (t : HashMap K V) (hL : t.buckets_.length < sizeMod) (idx : Nat)
    (hidx : idx ≤ t.buckets_.length) :
    idx ≤ advancePastEmpty KeyEqual t idx ∧
      advancePastEmpty KeyEqual t idx ≤ t.buckets_.length ∧
      (advancePastEmpty KeyEqual t idx < t.buckets_.length →
        occupied KeyEqual t (advancePastEmpty KeyEqual t idx) = true) ∧
      ∀ j, idx ≤ j → j < advancePastEmpty KeyEqual t idx → occupied KeyEqual t j = false :=
  advanceLoop_spec KeyEqual t hL _ idx hidx (le_refl _)

theorem increment_spec (t : HashMap K V) (hL : t.buckets_.length < sizeMod) (i : Nat)
    (hi : i < t.buckets_.length) :
    i < increment KeyEqual t i ∧ increment KeyEqual t i ≤ t.buckets_.length ∧
      (increment KeyEqual t i < t.buckets_.length →
        occupied KeyEqual t (increment KeyEqual t i) = true) ∧
      ∀ j, i < j → j < increment KeyEqual t i → occupied KeyEqual t j = false := by
  have hmod : (i + 1) % sizeMod = i + 1 := Nat.mod_eq_of_lt (by omega)
  unfold increment
  rw [hmod]
  obtain ⟨a1, a2, a3, a4⟩ := advancePastEmpty_spec KeyEqual t hL (i + 1) (by omega)
  exact ⟨by omega, a2, a3, fun j h1 h2 => a4 j (by omega) h2⟩

theorem iterLoop_spec (t : HashMap K V) (hL : t.buckets_.length < sizeMod) :
    ∀ (fuel it : Nat), it ≤ t.buckets_.length →
      (it < t.buckets_.length → occupied KeyEqual t it = true) →
      t.buckets_.length - it < fuel →
      iterLoop KeyEqual t fuel it
        = (List.range' it (t.buckets_.length - it)).filter (occupied KeyEqual t) := by
  intro fuel
  induction fuel with
  | zero => intro it _ _ h; omega
  | succ f ih =>
    intro it h1 h2 h3
    rw [iterLoop]
    unfold endIdx
    split_ifs with he
    · rw [he, Nat.sub_self]
      rfl
    · have hlt : it < t.buckets_.length := by omega
      obtain ⟨a1, a2, a3, a4⟩ := increment_spec KeyEqual t hL it hlt
      rw [ih _ a2 a3 (by omega)]
      have hsplit : t.buckets_.length - it
          = 1 + ((increment KeyEqual t it - (it + 1))
            + (t.buckets_.length - increment KeyEqual t it)) := by omega
      rw [hsplit, filter_range_split, filter_range_split]
      have hgap : (List.range' (it + 1) (increment KeyEqual t it - (it + 1))).filter
          (occupied KeyEqual t) = [] := by
        apply filter_range_eq_nil
        intro j hj1 hj2
        exact a4 j (by omega) (by omega)
      have hstart : it + 1 + (increment KeyEqual t it - (it + 1))
          = increment KeyEqual t it := by omega
      rw [hgap, hstart, List.nil_append]
      simp [List.range', List.filter_cons, h2 hlt]

/-- The walk from `begin()` to `end()` visits the occupied indices in
increasing order. -/
theorem iterate_eq_filter (t : HashMap K V) (hL : t.buckets_.length < sizeMod) :
    iterate KeyEqual t = (List.range t.buckets_.length).filter (occupied KeyEqual t) := by
  obtain ⟨_, a2, a3, a4⟩ := advancePastEmpty_spec KeyEqual t hL 0 (Nat.zero_le _)
  unfold iterate begin
  rw [iterLoop_spec KeyEqual t hL _ _ a2 a3 (by omega), List.range_eq_range']
  have hsplit : t.buckets_.length
      = advancePastEmpty KeyEqual t 0
        + (t.buckets_.length - advancePastEmpty KeyEqual t 0) := by omega
  conv_rhs => rw [hsplit, filter_range_split]
  rw [filter_range_eq_nil _ _ _ (fun j h1 h2 => a4 j h1 (by omega)), List.nil_append,
    Nat.zero_add]

end IterPure

section Iter

variable {K V : Type} [Inhabited V] [BucketStorage K V]
variable (Hash : K → Nat) (KeyEqual : K → K → Bool)

/-- C17: in a reachable table `size()` is the number of slots whose key is not
the empty key; `begin()` is the smallest occupied index, or `end()` when no
slot is occupied; `operator++` moves from an index to the next larger
occupied index, or to `end()`; and the walk from `begin()` to `end()` visits
exactly the occupied indices, each once, in increasing order, `size()` of
them. -/
theorem count_and_iteration (hE : KeyEquiv KeyEqual)
    {t : HashMap K V} (hR : Reachable Hash KeyEqual t) :
    size t = t.buckets_.countP (fun p => !KeyEqual p.1 t.emptyKey_) ∧
    size t = ((List.range (bucketCount t)).filter (occupied KeyEqual t)).length ∧
    (begin KeyEqual t ≤ endIdx t ∧
      (begin KeyEqual t < endIdx t → occupied KeyEqual t (begin KeyEqual t) = true) ∧
      ∀ j, j < begin KeyEqual t → occupied KeyEqual t j = false) ∧
    (∀ i, i < bucketCount t →
      i < increment KeyEqual t i ∧ increment KeyEqual t i ≤ endIdx t ∧
      (increment KeyEqual t i < endIdx t →
        occupied KeyEqual t (increment KeyEqual t i) = true) ∧
      ∀ j, i < j → j < increment KeyEqual t i → occupied KeyEqual t j = false) ∧
    iterate KeyEqual t = (List.range (bucketCount t)).filter (occupied KeyEqual t) ∧
    (iterate KeyEqual t).length = size t := by
  have hI := hR.inv Hash KeyEqual hE
  have hL : t.buckets_.length < sizeMod := by
    have := hI.pow2.le
    unfold sizeMod
    omega
  have hcount : size t = ((List.range (bucketCount t)).filter (occupied KeyEqual t)).length := by
    unfold size bucketCount
    rw [hI.counted, countP_eq_filter_range _ (t.emptyKey_, default)]
    rfl
  obtain ⟨_, b2, b3, b4⟩ := advancePastEmpty_spec KeyEqual t hL 0 (Nat.zero_le _)
  refine ⟨hI.counted, hcount, ⟨b2, b3, fun j hj => b4 j (Nat.zero_le _) hj⟩, ?_, ?_, ?_⟩
  · intro i hi
    exact increment_spec KeyEqual t hL i hi
  · exact iterate_eq_filter KeyEqual t hL
  · rw [iterate_eq_filter KeyEqual t hL]
    exact hcount.symm

/-- Witness of C17: the example table, whose walk visits slots 8, 10 and 15. -/
theorem count_and_iteration_witness :
    KeyEquiv exampleEqual ∧ Reachable exampleHash exampleEqual exampleMap ∧
    size exampleMap = exampleMap.buckets_.countP (fun p => !exampleEqual p.1 exampleMap.emptyKey_) ∧
    size exampleMap
      = ((List.range (bucketCount exampleMap)).filter (occupied exampleEqual exampleMap)).length ∧
    (begin exampleEqual exampleMap ≤ endIdx exampleMap ∧
      (begin exampleEqual exampleMap < endIdx exampleMap →
        occupied exampleEqual exampleMap (begin exampleEqual exampleMap) = true) ∧
      ∀ j, j < begin exampleEqual exampleMap → occupied exampleEqual exampleMap j = false) ∧
    (∀ i, i < bucketCount exampleMap →
      i < increment exampleEqual exampleMap i ∧
      increment exampleEqual exampleMap i ≤ endIdx exampleMap ∧
      (increment exampleEqual exampleMap i < endIdx exampleMap →
        occupied exampleEqual exampleMap (increment exampleEqual exampleMap i) = true) ∧
      ∀ j, i < j → j < increment exampleEqual exampleMap i →
        occupied exampleEqual exampleMap j = false) ∧
    iterate exampleEqual exampleMap
      = (List.range (bucketCount exampleMap)).filter (occupied exampleEqual exampleMap) ∧
    (iterate exampleEqual exampleMap).length = size exampleMap :=
  ⟨exampleEqual_equiv, exampleMap_reachable,
    count_and_iteration exampleHash exampleEqual exampleEqual_equiv exampleMap_reachable⟩

end Iter

section ShiftProofPure

variable {K V : Type} [Inhabited V]
variable (Hash : K → Nat) (KeyEqual : K → K → Bool)

theorem ShiftInv.of_start (t0 : HashMap K V) (p : Nat) : ShiftInv Hash t0 p t0 p where
  kept := fun s hs hne => ⟨s, hs, hne, rfl, Or.inl rfl⟩

theorem ShiftInv.after_move {t0 t : HashMap K V} {p g j : Nat}
    (h : EraseInv Hash KeyEqual t0 p t g j) (hs : ShiftInv Hash t0 p t g)
    (hyes : dist t0.buckets_.length g (keyToIdx Hash t0 (bucketAt t j).1)
      < dist t0.buckets_.length j (keyToIdx Hash t0 (bucketAt t j).1)) :
    ShiftInv Hash t0 p
      (⟨t.emptyKey_, t.buckets_.set g (bucketAt t j), t.size_⟩ : HashMap K V) j := by
  have hg : g < t.buckets_.length := by rw [h.length_eq]; exact h.gap_lt
  have hjg : j ≠ g := by
    intro e
    rw [e] at hyes
    exact Nat.lt_irrefl _ hyes
  have hb : ∀ i, i < t0.buckets_.length →
      bucketAt (⟨t.emptyKey_, t.buckets_.set g (bucketAt t j), t.size_⟩ : HashMap K V) i
        = if g = i then bucketAt t j else bucketAt t i := by
    intro i hi
    exact bucketAt_put t _ _ g i _ hg (by rw [h.length_eq]; exact hi)
  constructor
  intro s hsl hsp
  obtain ⟨i, hi, hig, hbi, hnear⟩ := hs.kept s hsl hsp
  by_cases hij : i = j
  · refine ⟨g, h.gap_lt, fun e => hjg e.symm, ?_, Or.inr ?_⟩
    · rw [hb g h.gap_lt, if_pos rfl, ← hij]
      exact hbi
    · rw [← hij, hbi] at hyes
      rcases hnear with rfl | hlt
      · exact hyes
      · exact Nat.lt_trans hyes hlt
  · refine ⟨i, hi, hij, ?_, hnear⟩
    rw [hb i hi, if_neg (fun e => hig e.symm)]
    exact hbi

theorem eraseLoop_shift {t0 : HashMap K V} (hp2 : IsPow2 t0.buckets_.length) (p : Nat) :
    ∀ (n fuel : Nat) (t : HashMap K V) (g j : Nat),
      EraseInv Hash KeyEqual t0 p t g j → ShiftInv Hash t0 p t g → n < fuel →
      (∀ d, d < n → occupied KeyEqual t ((j + d) % t0.buckets_.length) = true) →
      occupied KeyEqual t ((j + n) % t0.buckets_.length) = false →
      ∃ t1 g1 j1, EraseInv Hash KeyEqual t0 p t1 g1 j1 ∧ ShiftInv Hash t0 p t1 g1 ∧
        occupied KeyEqual t1 j1 = false ∧
        eraseLoop Hash KeyEqual fuel t g j
          = .ok ⟨t1.emptyKey_, t1.buckets_.set g1 (t1.emptyKey_, (bucketAt t1 g1).2),
              (t1.size_ + sizeMod - 1) % sizeMod⟩ := by
  intro n
  induction n with
  | zero =>
    intro fuel t g j h hs hf _ hend
    rw [Nat.add_zero, Nat.mod_eq_of_lt h.idx_lt] at hend
    obtain ⟨f, rfl⟩ : ∃ f, fuel = f + 1 := ⟨fuel - 1, by omega⟩
    refine ⟨t, g, j, h, hs, hend, ?_⟩
    have hemp : KeyEqual (bucketAt t j).1 t.emptyKey_ = true := by
      simpa [occupied] using hend
    rw [eraseLoop]
    simp only [hemp, if_true]
  | succ n ih =>
    intro fuel t g j h hs hf hrun hend
    obtain ⟨f, rfl⟩ : ∃ f, fuel = f + 1 := ⟨fuel - 1, by omega⟩
    have hocc : occupied KeyEqual t j = true := by
      have := hrun 0 (by omega)
      rwa [Nat.add_zero, Nat.mod_eq_of_lt h.idx_lt] at this
    rw [eraseLoop_step Hash KeyEqual hp2 h hocc f]
    split_ifs with hc
    · apply ih f _ j _ (h.move Hash KeyEqual hp2 hocc hc)
        (hs.after_move Hash KeyEqual h hc) (by omega)
      · intro d hd
        rw [succ_step, occupied_move Hash KeyEqual h hocc _ (Nat.mod_lt _ hp2.pos)]
        exact hrun (d + 1) (by omega)
      · rw [succ_step, occupied_move Hash KeyEqual h hocc _ (Nat.mod_lt _ hp2.pos)]
        exact hend
    · apply ih f t g _ (h.skip Hash KeyEqual hp2 hc) hs (by omega)
      · intro d hd
        rw [succ_step]
        exact hrun (d + 1) (by omega)
      · rw [succ_step]
        exact hend

end ShiftProofPure

section ShiftProof

variable {K V : Type} [Inhabited V] [BucketStorage K V]
variable (Hash : K → Nat) (KeyEqual : K → K → Bool)

/-- Effect of `eraseImpl(it)` on the slots of the entries that stay. -/
theorem eraseImpl_shift {t0 : HashMap K V} (hE : KeyEquiv KeyEqual)
    (hI : Inv Hash KeyEqual t0) (p : Nat) (hp : p < t0.buckets_.length)
    (hocc : occupied KeyEqual t0 p = true) :
    ∃ t1, eraseImpl Hash KeyEqual t0 p = .ok t1 ∧ Erased Hash KeyEqual t0 p t1 ∧
      ∀ s, s < t0.buckets_.length → s ≠ p → occupied KeyEqual t0 s = true →
        ∃ i, i < t0.buckets_.length ∧ occupied KeyEqual t1 i = true ∧
          bucketAt t1 i = bucketAt t0 s ∧
          (i = s ∨ dist t0.buckets_.length i (keyToIdx Hash t0 (bucketAt t0 s).1)
            < dist t0.buckets_.length s (keyToIdx Hash t0 (bucketAt t0 s).1)) := by
  have hp2 := hI.pow2
  obtain ⟨e, he, hfree⟩ := hI.free
  obtain ⟨m, hm, hstop, hmin⟩ := first_stop t0.buckets_.length
    (fun x => !occupied KeyEqual t0 x) ((p + 1) % t0.buckets_.length) e
    (Nat.mod_lt _ hp2.pos) he (by simp [hfree])
  obtain ⟨t1, g1, j1, hinv, hshift, hend, hrun⟩ := eraseLoop_shift Hash KeyEqual hp2 p m
    t0.buckets_.length t0 p ((p + 1) % t0.buckets_.length)
    (EraseInv.init Hash KeyEqual hI p hp hocc) (ShiftInv.of_start Hash t0 p) hm
    (fun d hd => by simpa using hmin d hd) (by simpa using hstop)
  have hg : g1 < t1.buckets_.length := by rw [hinv.length_eq]; exact hinv.gap_lt
  refine ⟨_, ?_, hinv.finish Hash KeyEqual hE hI hend, ?_⟩
  · unfold eraseImpl
    rw [probeNext_eq t0 hp2]
    exact hrun
  · intro s hs hsp hos
    obtain ⟨i, hi, hig, hbi, hnear⟩ := hshift.kept s hs hsp
    have hb : bucketAt (⟨t1.emptyKey_, t1.buckets_.set g1 (t1.emptyKey_, (bucketAt t1 g1).2),
        (t1.size_ + sizeMod - 1) % sizeMod⟩ : HashMap K V) i = bucketAt t0 s := by
      rw [bucketAt_put t1 _ _ g1 i _ hg (by rw [hinv.length_eq]; exact hi),
        if_neg (fun e => hig e.symm)]
      exact hbi
    refine ⟨i, hi, ?_, hb, hnear⟩
    unfold occupied
    rw [hb]
    show (!KeyEqual (bucketAt t0 s).1 t1.emptyKey_) = true
    rw [hinv.emptyKey_eq]
    exact hos

/-- C18: on a reachable table, `erase` at an occupied position `p` returns, and
every entry that stays is afterwards either in its old slot or in a slot whose
displacement `diff(slot, idealIndex(key))` is strictly smaller; so no
displacement grows and an entry at its ideal index stays where it is. Inside
the loop an occupied slot `idx` is left untouched whenever
`diff(bucket, ideal) < diff(idx, ideal)` fails. -/
theorem erase_moves_toward_home (hE : KeyEquiv KeyEqual) (hH : HashCongr Hash KeyEqual)
    {t : HashMap K V} (hR : Reachable Hash KeyEqual t) (p : Nat)
    (hp : p < bucketCount t) (hocc : occupied KeyEqual t p = true) :
    (∃ t1, eraseImpl Hash KeyEqual t p = .ok t1 ∧ bucketCount t1 = bucketCount t ∧
      ∀ s i, s < bucketCount t → i < bucketCount t1 → s ≠ p →
        occupied KeyEqual t s = true → occupied KeyEqual t1 i = true →
        KeyEqual (bucketAt t1 i).1 (bucketAt t s).1 = true →
        bucketAt t1 i = bucketAt t s ∧
        (i = s ∨ diff t1 i (keyToIdx Hash t1 (bucketAt t1 i).1)
          < diff t s (keyToIdx Hash t (bucketAt t s).1)) ∧
        diff t1 i (keyToIdx Hash t1 (bucketAt t1 i).1)
          ≤ diff t s (keyToIdx Hash t (bucketAt t s).1) ∧
        (keyToIdx Hash t (bucketAt t s).1 = s → i = s)) ∧
    (∀ (fuel : Nat) (u : HashMap K V) (bucket idx : Nat),
      KeyEqual (bucketAt u idx).1 u.emptyKey_ = false →
      ¬ diff u bucket (keyToIdx Hash u (bucketAt u idx).1)
          < diff u idx (keyToIdx Hash u (bucketAt u idx).1) →
      eraseLoop Hash KeyEqual (fuel + 1) u bucket idx
        = eraseLoop Hash KeyEqual fuel u bucket (probeNext u idx)) := by
  have hI := hR.inv Hash KeyEqual hE
  have hU := hR.uniq Hash KeyEqual hE hH
  constructor
  · obtain ⟨t1, ht1, her, hkept⟩ := eraseImpl_shift Hash KeyEqual hE hI p hp hocc
    have hU1 := her.uniq hU
    have hp2 := hI.pow2
    have hp21 : IsPow2 t1.buckets_.length := her.inv.pow2
    refine ⟨t1, ht1, her.length_eq, ?_⟩
    intro s i hs hi hsp hos hoi hk
    unfold bucketCount at hs hi
    obtain ⟨i1, hi1, hoi1, hbi1, hnear⟩ := hkept s hs hsp hos
    have hii : i = i1 := by
      apply hU1 i i1 hi (by rw [her.length_eq]; exact hi1) hoi hoi1
      rw [hbi1]
      exact hk
    subst hii
    have hh := keyToIdx_lt Hash t hp2 (bucketAt t s).1
    have hd1 : diff t1 i (keyToIdx Hash t1 (bucketAt t1 i).1)
        = dist t.buckets_.length i (keyToIdx Hash t (bucketAt t s).1) := by
      rw [hbi1, keyToIdx_length Hash t1 t her.length_eq,
        diff_eq t1 hp21 i _ hi (by rw [her.length_eq]; exact hh), her.length_eq]
    have hd0 : diff t s (keyToIdx Hash t (bucketAt t s).1)
        = dist t.buckets_.length s (keyToIdx Hash t (bucketAt t s).1) :=
      diff_eq t hp2 s _ hs hh
    rw [hd1, hd0]
    refine ⟨hbi1, hnear, ?_, ?_⟩
    · rcases hnear with rfl | hlt
      · exact le_refl _
      · exact Nat.le_of_lt hlt
    · intro hhome
      rcases hnear with heq | hlt
      · exact heq
      · rw [hhome, dist_self _ _ hs] at hlt
        exact absurd hlt (Nat.not_lt_zero _)
  · intro fuel u bucket idx hne hno
    rw [eraseLoop]
    simp only [hne, Bool.false_eq_true, if_false, if_neg hno]

end ShiftProof

theorem sixteenCollided_reachable : Reachable exampleHash exampleEqual sixteenCollided :=
  Reachable.of_emplaceList exampleHash exampleEqual
    [(1, 1), (17, 2)] sixteen sixteenCollided sixteen_reachable (by rfl)

theorem erase_moves_toward_home_witness :
    KeyEquiv exampleEqual ∧ HashCongr exampleHash exampleEqual ∧
      Reachable exampleHash exampleEqual sixteenCollided ∧ 8 < bucketCount sixteenCollided ∧
      occupied exampleEqual sixteenCollided 8 = true ∧
      ((∃ t1, eraseImpl exampleHash exampleEqual sixteenCollided 8 = .ok t1 ∧
        bucketCount t1 = bucketCount sixteenCollided ∧
        ∀ s i, s < bucketCount sixteenCollided → i < bucketCount t1 → s ≠ 8 →
          occupied exampleEqual sixteenCollided s = true → occupied exampleEqual t1 i = true →
          exampleEqual (bucketAt t1 i).1 (bucketAt sixteenCollided s).1 = true →
          bucketAt t1 i = bucketAt sixteenCollided s ∧
          (i = s ∨ diff t1 i (keyToIdx exampleHash t1 (bucketAt t1 i).1)
            < diff sixteenCollided s
                (keyToIdx exampleHash sixteenCollided (bucketAt sixteenCollided s).1)) ∧
          diff t1 i (keyToIdx exampleHash t1 (bucketAt t1 i).1)
            ≤ diff sixteenCollided s
                (keyToIdx exampleHash sixteenCollided (bucketAt sixteenCollided s).1) ∧
          (keyToIdx exampleHash sixteenCollided (bucketAt sixteenCollided s).1 = s → i = s)) ∧
      (∀ (fuel : Nat) (u : HashMap Nat Nat) (bucket idx : Nat),
        exampleEqual (bucketAt u idx).1 u.emptyKey_ = false →
        ¬ diff u bucket (keyToIdx exampleHash u (bucketAt u idx).1)
            < diff u idx (keyToIdx exampleHash u (bucketAt u idx).1) →
        eraseLoop exampleHash exampleEqual (fuel + 1) u bucket idx
          = eraseLoop exampleHash exampleEqual fuel u bucket (probeNext u idx))) :=
  ⟨exampleEqual_equiv, exampleHash_congr, sixteenCollided_reachable, by decide, by decide,
    erase_moves_toward_home exampleHash exampleEqual exampleEqual_equiv exampleHash_congr
      sixteenCollided_reachable 8 (by decide) (by decide)⟩

section ReserveProof

variable {K V : Type} [Inhabited V] [BucketStorage K V]
variable (Hash : K → Nat) (KeyEqual : K → K → Bool)

/-- Function `reserve(n)` returns whenever the vector can hold `3 * n` buckets
rounded up to a power of two. -/
theorem reserve_total (hE : KeyEquiv KeyEqual) (t : HashMap K V) (n : Nat)
    (hI : Inv Hash KeyEqual t) (hn : CanHold K V (3 * n)) :
    ∃ t1, reserve Hash KeyEqual t n = .ok t1 := by
  have hn63 := hn.le_two_pow
  have hmod : (n * 3) % sizeMod = n * 3 := Nat.mod_eq_of_lt (by unfold sizeMod; omega)
  unfold reserve reserveWith
  rw [hmod]
  split_ifs with hc
  · exact rehash_total Hash KeyEqual hE t (n * 3) hI (hn.smaller (by omega))
  · exact ⟨t, rfl⟩

/-- A request that `reserve` answers with a table is one that the vector can hold. -/
theorem reserve_canHold (t t1 : HashMap K V) (n : Nat) (hI : Inv Hash KeyEqual t)
    (hn : 3 * n < sizeMod) (h : reserve Hash KeyEqual t n = .ok t1) :
    CanHold K V (3 * n) := by
  have hmod : (n * 3) % sizeMod = n * 3 := Nat.mod_eq_of_lt (by omega)
  unfold reserve reserveWith at h
  rw [hmod] at h
  split_ifs at h with hc
  · exact (rehash_canHold Hash KeyEqual t t1 (n * 3) h).smaller (by omega)
  · exact (CanHold.of_pow2 hI.pow2 hI.fits).smaller (by omega)

/-- An insertion into a table whose load stays within a third of the buckets
writes at most one slot, which was empty, and keeps the bucket count. -/
theorem emplace_in_place (hE : KeyEquiv KeyEqual) (t : HashMap K V) (k : K) (v : V)
    (hI : Inv Hash KeyEqual t) (hne : KeyEqual t.emptyKey_ k = false)
    (hroom : 3 * (t.size_ + 1) ≤ t.buckets_.length) :
    ∃ r, emplace Hash KeyEqual t k v = .ok r ∧ bucketCount r.1 = bucketCount t ∧
      size r.1 ≤ size t + 1 ∧
      ∀ i, i < bucketCount t → occupied KeyEqual t i = true →
        bucketAt r.1 i = bucketAt t i := by
  obtain ⟨r, hr, hloop, hlen⟩ := emplaceImpl_total_room Hash KeyEqual hE 2 t k v hI hne hroom
  obtain ⟨r1, hr1, _, _, _, hpos, _, hcase⟩ :=
    emplaceLoop_sound Hash KeyEqual hE t k v hI hroom hne
  have hrr : r1 = r := by
    rw [hr1] at hloop
    exact Outcome.ok.inj hloop
  subst hrr
  refine ⟨r1, hr, hlen, ?_, ?_⟩
  · rcases hcase with ⟨_, ht, _, _⟩ | ⟨_, _, ht⟩
    · rw [ht]; exact Nat.le_succ _
    · rw [ht]; exact le_refl _
  · intro i hi hocc
    rcases hcase with ⟨_, ht, _, _⟩ | ⟨_, hfree, ht⟩
    · rw [ht]
    · rw [ht, bucketAt_put t _ _ r1.2.1 i _ hpos hi]
      have hne1 : r1.2.1 ≠ i := by
        intro e
        rw [e] at hfree
        rw [hfree] at hocc
        exact Bool.false_ne_true hocc
      rw [if_neg hne1]

/-- C15 (as amended): on a reachable table, `reserve(n)` for an `n` such that
the vector can hold `3 * n` buckets rounded up to a power of two (within
`size_t`, `max_size()` and the storage of the allocator) returns a reachable
table with at least `3 * n` buckets, the same `size()` and the same mapped
value for every key; and in every reachable table with at least `3 * n`
buckets and `size() < n`, an insertion returns with `bucketCount()` unchanged,
every occupied slot holding the pair it held before, and `size()` at most `n`.
For no other `n` with `3 * n` a value of `size_t` does `reserve(n)` return a
table. -/
theorem reserve_prevents_rehash (hE : KeyEquiv KeyEqual) (hH : HashCongr Hash KeyEqual)
    {t : HashMap K V} (hR : Reachable Hash KeyEqual t) (n : Nat)
    (hn : CanHold K V (3 * n)) :
    (∃ t1, reserve Hash KeyEqual t n = .ok t1 ∧ Reachable Hash KeyEqual t1 ∧
      3 * n ≤ bucketCount t1 ∧ size t1 = size t ∧
      (∀ k v, KeyEqual t.emptyKey_ k = false →
        (FoundWith Hash KeyEqual t1 k v ↔ FoundWith Hash KeyEqual t k v)) ∧
      (∀ (t2 : HashMap K V) (k : K) (v : V), Reachable Hash KeyEqual t2 →
        3 * n ≤ bucketCount t2 → size t2 < n → KeyEqual t2.emptyKey_ k = false →
        ∃ r, emplace Hash KeyEqual t2 k v = .ok r ∧ bucketCount r.1 = bucketCount t2 ∧
          size r.1 ≤ n ∧
          ∀ i, i < bucketCount t2 → occupied KeyEqual t2 i = true →
            bucketAt r.1 i = bucketAt t2 i)) ∧
    ∀ m t2, 3 * m < sizeMod → reserve Hash KeyEqual t m = .ok t2 →
      CanHold K V (3 * m) := by
  have hI := hR.inv Hash KeyEqual hE
  have hU := hR.uniq Hash KeyEqual hE hH
  refine ⟨?_, fun m t2 hm h => reserve_canHold Hash KeyEqual t t2 m hI hm h⟩
  have hn63 := hn.le_two_pow
  obtain ⟨t1, ht1⟩ := reserve_total Hash KeyEqual hE t n hI hn
  have hR1 : Reachable Hash KeyEqual t1 := Reachable.reserve hR ht1
  have hI1 := hR1.inv Hash KeyEqual hE
  have hU1 := hR1.uniq Hash KeyEqual hE hH
  have hS : InsSound Hash KeyEqual
      (insertInto Hash KeyEqual : HashMap K V → K → V → Outcome (HashMap K V)) :=
    emplaceImpl_sound Hash KeyEqual hE callDepth
  have hD : InsHolds Hash KeyEqual
      (insertInto Hash KeyEqual : HashMap K V → K → V → Outcome (HashMap K V)) :=
    emplaceImpl_insHolds Hash KeyEqual hE hH callDepth
  obtain ⟨_, _, hcap, _, hek, _⟩ :=
    reserveWith_sound Hash KeyEqual hE _ hS t t1 n hI ht1
  obtain ⟨_, hholds, hsize⟩ :=
    reserveWith_holds Hash KeyEqual hE _ hS hD t t1 n hI hU ht1
  have hmod : (n * 3) % sizeMod = n * 3 := Nat.mod_eq_of_lt (by unfold sizeMod; omega)
  rw [hmod] at hcap
  refine ⟨t1, ht1, hR1, by unfold bucketCount; omega, hsize, ?_, ?_⟩
  · intro k v hne
    rw [foundWith_iff_holds Hash KeyEqual hE hH hI1 hU1 k (by rw [hek]; exact hne) v,
      foundWith_iff_holds Hash KeyEqual hE hH hI hU k hne v]
    exact hholds k v
  · intro t2 k v hR2 hb hs hne
    unfold bucketCount at hb
    unfold size at hs
    obtain ⟨r, hr, hlen, hsz, hkeep⟩ := emplace_in_place Hash KeyEqual hE t2 k v
      (hR2.inv Hash KeyEqual hE) hne (by omega)
    refine ⟨r, hr, hlen, ?_, hkeep⟩
    unfold size at hsz ⊢
    omega

end ReserveProof

theorem reserve_prevents_rehash_witness :
    KeyEquiv exampleEqual ∧ HashCongr exampleHash exampleEqual ∧
      Reachable exampleHash exampleEqual exampleMap ∧ CanHold Nat Nat (3 * 10) ∧
      (∃ t1, reserve exampleHash exampleEqual exampleMap 10 = .ok t1 ∧
        Reachable exampleHash exampleEqual t1 ∧
        3 * 10 ≤ bucketCount t1 ∧ size t1 = size exampleMap ∧
        (∀ k v, exampleEqual exampleMap.emptyKey_ k = false →
          (FoundWith exampleHash exampleEqual t1 k v
            ↔ FoundWith exampleHash exampleEqual exampleMap k v)) ∧
        (∀ (t2 : HashMap Nat Nat) (k : Nat) (v : Nat), Reachable exampleHash exampleEqual t2 →
          3 * 10 ≤ bucketCount t2 → size t2 < 10 → exampleEqual t2.emptyKey_ k = false →
          ∃ r, emplace exampleHash exampleEqual t2 k v = .ok r ∧
            bucketCount r.1 = bucketCount t2 ∧ size r.1 ≤ 10 ∧
            ∀ i, i < bucketCount t2 → occupied exampleEqual t2 i = true →
              bucketAt r.1 i = bucketAt t2 i)) ∧
      ∀ m t2, 3 * m < sizeMod → reserve exampleHash exampleEqual exampleMap m = .ok t2 →
        CanHold Nat Nat (3 * m) :=
  ⟨exampleEqual_equiv, exampleHash_congr, exampleMap_reachable,
    ⟨5, by decide, by decide, by decide, by decide⟩,
    reserve_prevents_rehash exampleHash exampleEqual exampleEqual_equiv exampleHash_congr
      exampleMap_reachable 10 ⟨5, by decide, by decide, by decide, by decide⟩⟩

/-- C15, failing inputs: `3 * 2 ^ 62` fits `size_t`, yet `reserve(2 ^ 62)` on the
one-bucket table `HashMap(1, 0)` requests more than `2 ^ 63` buckets and the
rounding loop of the constructor never exits; and `reserve(2 ^ 61)` requests
`2 ^ 63` buckets after rounding, more than `max_size()`, so that `resize` throws
`std::length_error`. -/
theorem reserve_beyond_range_counterexample :
    Reachable exampleHash exampleEqual exampleMap0 ∧ 3 * 2 ^ 62 < sizeMod ∧
      reserve exampleHash exampleEqual exampleMap0 (2 ^ 61) = .lengthError ∧
      reserve exampleHash exampleEqual exampleMap0 (2 ^ 62) = .hang := by
  refine ⟨@Reachable.construct Nat Nat _ exampleHash exampleEqual _ 1 0 exampleMap0 rfl,
    by decide, by rfl, ?_⟩
  unfold reserve reserveWith
  have h1 : (2 ^ 62 * 3) % sizeMod = 2 ^ 62 * 3 := by decide
  rw [h1]
  have h2 : 2 ^ 62 * 3 > exampleMap0.buckets_.length := by decide
  rw [if_pos h2]
  exact rehash_hang exampleHash exampleEqual exampleMap0 (2 ^ 62 * 3) (by decide)

section RunsProof

variable {K V : Type} [Inhabited V] [BucketStorage K V]
variable (Hash : K → Nat) (KeyEqual : K → K → Bool)

/-- Inserting pairwise different keys that the table does not hold yet returns,
adds one entry per key and keeps what was stored. -/
theorem emplaceList_fresh (hE : KeyEquiv KeyEqual) (hH : HashCongr Hash KeyEqual) :
    ∀ (kvs : List (K × V)) (t : HashMap K V), Inv Hash KeyEqual t → Uniq KeyEqual t →
      (∀ p, p ∈ kvs → KeyEqual t.emptyKey_ p.1 = false) →
      kvs.Pairwise (fun p q => KeyEqual p.1 q.1 = false) →
      (∀ p, p ∈ kvs → ∀ u, ¬ Holds KeyEqual t p.1 u) →
      CanHold K V (3 * (t.size_ + kvs.length)) →
      ∃ t1, emplaceList Hash KeyEqual kvs t = .ok t1 ∧ Inv Hash KeyEqual t1 ∧
        Uniq KeyEqual t1 ∧ t1.emptyKey_ = t.emptyKey_ ∧
        t1.size_ = t.size_ + kvs.length ∧
        (∀ k v, Holds KeyEqual t k v → Holds KeyEqual t1 k v) ∧
        (∀ p, p ∈ kvs → Holds KeyEqual t1 p.1 p.2) := by
  intro kvs
  induction kvs with
  | nil =>
    intro t hI hU _ _ _ _
    exact ⟨t, rfl, hI, hU, rfl, rfl, fun _ _ h => h, fun p hp => absurd hp (List.not_mem_nil p)⟩
  | cons p rest ih =>
    intro t hI hU hne hpw habs hcap
    have hlen : (p :: rest).length = rest.length + 1 := rfl
    rw [hlen] at hcap
    obtain ⟨r, hr⟩ := emplaceImpl_total Hash KeyEqual hE 1 t p.1 p.2 hI
      (hne p (List.mem_cons_self _ _)) (hcap.smaller (by omega))
    have hr1 : emplace Hash KeyEqual t p.1 p.2 = .ok r := hr
    have hem := emplaceImpl_emplaced Hash KeyEqual hE hH _ t p.1 p.2 r hI hU hr
    obtain ⟨hIr, _, her⟩ := emplace_sound Hash KeyEqual hE hI p.1 p.2 r hr1
    have hab := habs p (List.mem_cons_self _ _)
    have hflag : r.2.2 = true := by
      cases hb : r.2.2 with
      | true => rfl
      | false =>
        obtain ⟨⟨u, hu⟩, _⟩ := hem.kept hb
        exact absurd hu (hab u)
    obtain ⟨_, _, hsz⟩ := hem.added hflag
    have hpw1 := List.pairwise_cons.mp hpw
    obtain ⟨t1, ht1, hI1, hU1, he1, hs1, hkeep, hall⟩ := ih r.1 hIr hem.uniq
      (by
        intro q hq
        rw [her]
        exact hne q (List.mem_cons_of_mem _ hq))
      hpw1.2
      (by
        intro q hq u hu
        rcases (hem.holds q.1 u).mp hu with h | ⟨_, hk, _⟩
        · exact habs q (List.mem_cons_of_mem _ hq) u h
        · rw [hpw1.1 q hq] at hk
          exact Bool.false_ne_true hk)
      (hcap.smaller (by rw [hsz]; omega))
    have hp : Holds KeyEqual r.1 p.1 p.2 :=
      (hem.holds p.1 p.2).mpr (Or.inr ⟨hab, hE.refl _, rfl⟩)
    refine ⟨t1, ?_, hI1, hU1, by rw [he1, her], by rw [hs1, hsz, hlen]; omega, ?_, ?_⟩
    · rw [emplaceList, hr1]
      exact ht1
    · intro k v h
      exact hkeep k v ((hem.holds k v).mpr (Or.inl h))
    · intro q hq
      rcases List.mem_cons.mp hq with rfl | hq
      · exact hkeep _ _ hp
      · exact hall q hq

/-- Erasing pairwise different keys that the table holds returns and removes
one entry per key. -/
theorem eraseList_present (hE : KeyEquiv KeyEqual) (hH : HashCongr Hash KeyEqual) :
    ∀ (ks : List K) (t : HashMap K V), Inv Hash KeyEqual t → Uniq KeyEqual t →
      (∀ k, k ∈ ks → KeyEqual t.emptyKey_ k = false) →
      ks.Pairwise (fun a b => KeyEqual a b = false) →
      (∀ k, k ∈ ks → ∃ v, Holds KeyEqual t k v) →
      ∃ t2, eraseList Hash KeyEqual ks t = .ok t2 ∧ Inv Hash KeyEqual t2 ∧
        t2.emptyKey_ = t.emptyKey_ ∧ t2.size_ + ks.length = t.size_ ∧
        t2.buckets_.length = t.buckets_.length := by
  intro ks
  induction ks with
  | nil =>
    intro t hI _ _ _ _
    exact ⟨t, rfl, hI, rfl, rfl, rfl⟩
  | cons k rest ih =>
    intro t hI hU hne hpw hall
    have hk := hne k (List.mem_cons_self _ _)
    obtain ⟨v, hv⟩ := hall k (List.mem_cons_self _ _)
    obtain ⟨i, hi, hfind, _, _, _⟩ := lookup_of_holds Hash KeyEqual hE hH hI hU k hk v hv
    have hpw1 := List.pairwise_cons.mp hpw
    rcases eraseKeyImpl_spec Hash KeyEqual hE hI k hk with ⟨hend, _⟩ | ⟨p, t1, hp, _, hocc, hpk, her, hEr⟩
    · rw [hfind] at hend
      have := Outcome.ok.inj hend
      omega
    · obtain ⟨t2, ht2, hI2, he2, hs2, hl2⟩ := ih t1 hEr.inv (hEr.uniq hU)
        (by
          intro q hq
          rw [hEr.emptyKey_eq]
          exact hne q (List.mem_cons_of_mem _ hq))
        hpw1.2
        (by
          intro q hq
          obtain ⟨u, hu⟩ := hall q (List.mem_cons_of_mem _ hq)
          refine ⟨u, (hEr.holds_iff Hash KeyEqual hE hU hp hocc q u).mpr ⟨hu, ?_⟩⟩
          cases hb : KeyEqual (bucketAt t p).1 q with
          | false => rfl
          | true =>
            have := hE.trans _ _ _ (hE.symm _ _ hpk) hb
            rw [hpw1.1 q hq] at this
            exact absurd this Bool.false_ne_true)
      refine ⟨t2, ?_, hI2, by rw [he2, hEr.emptyKey_eq], ?_, by rw [hl2, hEr.length_eq]⟩
      · rw [eraseList]
        have : erase Hash KeyEqual t k = .ok (t1, 1) := her
        rw [this]
        exact ht2
      · have := hEr.size_eq
        have hlen : (k :: rest).length = rest.length + 1 := rfl
        rw [hlen]
        omega

/-- In a table whose element count is zero every lookup ends at `end()`. -/
theorem find_of_size_zero (hE : KeyEquiv KeyEqual) {t : HashMap K V}
    (hI : Inv Hash KeyEqual t) (hs : t.size_ = 0) (k : K)
    (hne : KeyEqual t.emptyKey_ k = false) :
    findImpl Hash KeyEqual t k = .ok t.buckets_.length := by
  apply findImpl_of_absent Hash KeyEqual hI k hne
  intro i hi
  cases hb : KeyEqual (bucketAt t i).1 k with
  | false => rfl
  | true =>
    have hocc : (fun (q : K × V) => !KeyEqual q.1 t.emptyKey_)
        (t.buckets_.getD i (t.emptyKey_, default)) = true := by
      have := not_empty_of_match KeyEqual hE t.emptyKey_ k (bucketAt t i).1 hne hb
      show (!KeyEqual (bucketAt t i).1 t.emptyKey_) = true
      rw [this]
      rfl
    have hpos := countP_pos_of_getD (fun (q : K × V) => !KeyEqual q.1 t.emptyKey_)
      (t.emptyKey_, default) t.buckets_ i hi hocc
    rw [← hI.counted, hs] at hpos
    exact absurd hpos (Nat.lt_irrefl 0)

/-- C16: on a reachable table with a non-sentinel key the probe loop of `find`
returns within `bucketCount()` slot examinations, so does the probe loop of
`emplace` on the table that its reservation step returns, and `emplace` itself
returns while the vector can hold `3 * (size() + 1)` buckets rounded up to a
power of two; the loop of erase by position on an occupied slot returns within
`bucketCount()` examinations. On a reachable table with `size() = 0`,
inserting a list of pairwise different non-sentinel keys (the vector can hold
three buckets for each of them) and erasing them in the same order returns
with `size() = 0` and every key absent. -/
theorem probe_loops_terminate (hE : KeyEquiv KeyEqual) (hH : HashCongr Hash KeyEqual)
    {t : HashMap K V} (hR : Reachable Hash KeyEqual t) :
    (∀ k, KeyEqual t.emptyKey_ k = false →
      (∃ i, findLoop KeyEqual t k (bucketCount t) (keyToIdx Hash t k) = .ok i) ∧
      (∀ (v : V) (t1 : HashMap K V),
        reserveWith KeyEqual
            (fun (o : HashMap K V) q w => Outcome.table (emplaceImpl Hash KeyEqual 2 o q w))
            t ((t.size_ + 1) % sizeMod) = .ok t1 →
        ∃ r, emplaceLoop KeyEqual t1 k v (bucketCount t1) (keyToIdx Hash t1 k) = .ok r) ∧
      (∀ v : V, CanHold K V (3 * (size t + 1)) →
        ∃ r, emplace Hash KeyEqual t k v = .ok r)) ∧
    (∀ p, p < bucketCount t → occupied KeyEqual t p = true →
      ∃ t1, eraseLoop Hash KeyEqual (bucketCount t) t p (probeNext t p) = .ok t1) ∧
    (∀ kvs : List (K × V), size t = 0 →
      (∀ p, p ∈ kvs → KeyEqual t.emptyKey_ p.1 = false) →
      kvs.Pairwise (fun p q => KeyEqual p.1 q.1 = false) →
      CanHold K V (3 * kvs.length) →
      ∃ t1 t2, emplaceList Hash KeyEqual kvs t = .ok t1 ∧ size t1 = kvs.length ∧
        eraseList Hash KeyEqual (kvs.map Prod.fst) t1 = .ok t2 ∧ size t2 = 0 ∧
        ∀ k, KeyEqual t2.emptyKey_ k = false →
          find Hash KeyEqual t2 k = .ok (bucketCount t2) ∧
          count Hash KeyEqual t2 k = .ok 0) := by
  have hI := hR.inv Hash KeyEqual hE
  have hU := hR.uniq Hash KeyEqual hE hH
  refine ⟨?_, ?_, ?_⟩
  · intro k hne
    refine ⟨?_, ?_, ?_⟩
    · obtain ⟨r, hr, _⟩ := findImpl_total Hash KeyEqual hI k hne
      unfold findImpl at hr
      rw [hne] at hr
      exact ⟨r, hr⟩
    · intro v t1 ht1
      obtain ⟨hI1, _⟩ := reserveWith_sound Hash KeyEqual hE _
        (emplaceImpl_sound Hash KeyEqual hE 2) t t1 _ hI ht1
      obtain ⟨idx, _, _, hcase⟩ := emplaceLoop_spec Hash KeyEqual hI1.pow2
        (hI1.free Hash KeyEqual) k v
      rcases hcase with ⟨_, _, h⟩ | ⟨_, h⟩
      · exact ⟨_, h⟩
      · exact ⟨_, h⟩
    · intro v hcap
      exact emplaceImpl_total Hash KeyEqual hE 1 t k v hI hne hcap
  · intro p hp hocc
    obtain ⟨t1, ht1, _⟩ := eraseImpl_spec Hash KeyEqual hE hI p hp hocc
    exact ⟨t1, ht1⟩
  · intro kvs hs hne hpw hcap
    unfold size at hs
    have hnone : ∀ k u, ¬ Holds KeyEqual t k u := by
      intro k u ⟨i, hi, hocc, _, _⟩
      have hpos := countP_pos_of_getD (fun (q : K × V) => !KeyEqual q.1 t.emptyKey_)
        (t.emptyKey_, default) t.buckets_ i hi hocc
      rw [← hI.counted, hs] at hpos
      exact absurd hpos (Nat.lt_irrefl 0)
    obtain ⟨t1, ht1, hI1, hU1, he1, hs1, _, hall⟩ := emplaceList_fresh Hash KeyEqual hE hH
      kvs t hI hU hne hpw (fun p _ u => hnone p.1 u) (hcap.smaller (by rw [hs]; omega))
    obtain ⟨t2, ht2, hI2, he2, hs2, _⟩ := eraseList_present Hash KeyEqual hE hH
      (kvs.map Prod.fst) t1 hI1 hU1
      (by
        intro k hk
        obtain ⟨p, hp, rfl⟩ := List.mem_map.mp hk
        rw [he1]
        exact hne p hp)
      (List.pairwise_map.mpr hpw)
      (by
        intro k hk
        obtain ⟨p, hp, rfl⟩ := List.mem_map.mp hk
        exact ⟨p.2, hall p hp⟩)
    rw [List.length_map] at hs2
    have hz : t2.size_ = 0 := by omega
    refine ⟨t1, t2, ht1, by unfold size; omega, ht2, hz, ?_⟩
    intro k hk
    have hf := find_of_size_zero Hash KeyEqual hE hI2 hz k hk
    refine ⟨hf, ?_⟩
    rw [count_of_find Hash KeyEqual t2 k _ hf]
    simp

end RunsProof

theorem probe_loops_terminate_witness :
    KeyEquiv exampleEqual ∧ HashCongr exampleHash exampleEqual ∧
      Reachable exampleHash exampleEqual sixteen ∧
      ((∀ k, exampleEqual sixteen.emptyKey_ k = false →
        (∃ i, findLoop exampleEqual sixteen k (bucketCount sixteen)
          (keyToIdx exampleHash sixteen k) = .ok i) ∧
        (∀ (v : Nat) (t1 : HashMap Nat Nat),
          reserveWith exampleEqual
              (fun (o : HashMap Nat Nat) q w =>
                Outcome.table (emplaceImpl exampleHash exampleEqual 2 o q w))
              sixteen ((sixteen.size_ + 1) % sizeMod) = .ok t1 →
          ∃ r, emplaceLoop exampleEqual t1 k v (bucketCount t1)
            (keyToIdx exampleHash t1 k) = .ok r) ∧
        (∀ v : Nat, CanHold Nat Nat (3 * (size sixteen + 1)) →
          ∃ r, emplace exampleHash exampleEqual sixteen k v = .ok r)) ∧
      (∀ p, p < bucketCount sixteen → occupied exampleEqual sixteen p = true →
        ∃ t1, eraseLoop exampleHash exampleEqual (bucketCount sixteen) sixteen p
          (probeNext sixteen p) = .ok t1) ∧
      (∀ kvs : List (Nat × Nat), size sixteen = 0 →
        (∀ p, p ∈ kvs → exampleEqual sixteen.emptyKey_ p.1 = false) →
        kvs.Pairwise (fun p q => exampleEqual p.1 q.1 = false) →
        CanHold Nat Nat (3 * kvs.length) →
        ∃ t1 t2, emplaceList exampleHash exampleEqual kvs sixteen = .ok t1 ∧
          size t1 = kvs.length ∧
          eraseList exampleHash exampleEqual (kvs.map Prod.fst) t1 = .ok t2 ∧ size t2 = 0 ∧
          ∀ k, exampleEqual t2.emptyKey_ k = false →
            find exampleHash exampleEqual t2 k = .ok (bucketCount t2) ∧
            count exampleHash exampleEqual t2 k = .ok 0)) :=
  ⟨exampleEqual_equiv, exampleHash_congr, sixteen_reachable,
    probe_loops_terminate exampleHash exampleEqual exampleEqual_equiv exampleHash_congr
      sixteen_reachable⟩

theorem IsRoundUp.unique {m r1 r2 : Nat} (h1 : IsRoundUp m r1) (h2 : IsRoundUp m r2) :
    r1 = r2 := by
  obtain ⟨⟨x1, hx1⟩, hm1, hmin1⟩ := h1
  obtain ⟨⟨x2, hx2⟩, hm2, hmin2⟩ := h2
  have a := hmin1 x2 (by rw [← hx2]; exact hm2)
  have b := hmin2 x1 (by rw [← hx1]; exact hm1)
  rw [← hx2] at a
  rw [← hx1] at b
  exact Nat.le_antisymm a b

theorem IsRoundUp.raise {m m1 r : Nat} (h : IsRoundUp m r) (hle : m ≤ m1) (hr : m1 ≤ r) :
    IsRoundUp m1 r :=
  ⟨h.1, hr, fun x hx => h.2.2 x (le_trans hle hx)⟩

theorem IsRoundUp.one_le {m r : Nat} (h : IsRoundUp m r) : 1 ≤ r := by
  obtain ⟨⟨x, hx⟩, _, _⟩ := h
  rw [hx]
  exact Nat.one_le_two_pow

section ExactProof

variable {K V : Type} [Inhabited V] [BucketStorage K V]
variable (Hash : K → Nat) (KeyEqual : K → K → Bool)

theorem construct_roundUp (n : Nat) (hn : CanHold K V n) (e : K) :
    ∃ t : HashMap K V, construct n e = .ok t ∧ IsRoundUp n t.buckets_.length := by
  obtain ⟨t, ht⟩ : ∃ t : HashMap K V, construct n e = .ok t := construct_total n hn e
  obtain ⟨r, hrt, hp2, hnr, hmin, _⟩ := construct_ok n e t ht
  have hlen : t.buckets_.length = r := by rw [hrt]; simp
  obtain ⟨x, hx, hrx⟩ := hp2
  refine ⟨t, ht, ⟨x, by rw [hlen, hrx]⟩, by rw [hlen]; exact hnr, ?_⟩
  intro y hy
  rw [hlen]
  by_cases hy64 : y < 64
  · exact hmin y hy64 hy
  · rw [hrx]
    exact Nat.pow_le_pow_right (by decide) (by omega)

/-- Reinsertion into a table with room for all the entries keeps its bucket count. -/
theorem insertAll_in_place (hE : KeyEquiv KeyEqual) (d : Nat) (e : K)
    (rest : List (K × V)) (acc : HashMap K V) (hI : Inv Hash KeyEqual acc)
    (he : acc.emptyKey_ = e)
    (hroom : 3 * (acc.size_ + rest.countP (fun q => !KeyEqual q.1 e)) ≤ acc.buckets_.length) :
    ∃ o, insertAll KeyEqual
        (fun (o : HashMap K V) k w => Outcome.table (emplaceImpl Hash KeyEqual (d + 1) o k w))
        e rest acc = .ok o ∧
      o.buckets_.length = acc.buckets_.length := by
  apply insertAll_total Hash KeyEqual hE _ (emplaceImpl_sound Hash KeyEqual hE (d + 1))
    (fun o => o.buckets_.length = acc.buckets_.length)
    (acc.size_ + rest.countP (fun q => !KeyEqual q.1 e)) e
    ?_ rest acc hI rfl he (le_refl _)
  intro o k w hIo hP heo hk hlt
  obtain ⟨r, hr, _, hlen⟩ := emplaceImpl_total_room Hash KeyEqual hE d o k w hIo
    (by rw [heo]; exact hk) (by rw [hP]; omega)
  exact ⟨r.1, by simp [hr, Outcome.table], hlen.trans hP⟩

/-- Bucket count after an insertion: unchanged when three times the new count
fits, and otherwise three times the new count rounded up. -/
theorem emplaceImpl_length (hE : KeyEquiv KeyEqual) (d : Nat) (t : HashMap K V)
    (k : K) (v : V) (hI : Inv Hash KeyEqual t) (hne : KeyEqual t.emptyKey_ k = false)
    (hcap : CanHold K V (3 * (t.size_ + 1))) :
    ∃ r, emplaceImpl Hash KeyEqual (d + 2) t k v = .ok r ∧
      ((3 * (t.size_ + 1) ≤ t.buckets_.length ∧ r.1.buckets_.length = t.buckets_.length) ∨
        (t.buckets_.length < 3 * (t.size_ + 1) ∧
          IsRoundUp (3 * (t.size_ + 1)) r.1.buckets_.length)) := by
  by_cases hroom : 3 * (t.size_ + 1) ≤ t.buckets_.length
  · obtain ⟨r, hr, _, hlen⟩ :=
      emplaceImpl_total_room Hash KeyEqual hE (d + 1) t k v hI hne hroom
    exact ⟨r, hr, Or.inl ⟨hroom, hlen⟩⟩
  · have hcap63 := hcap.le_two_pow
    have hm1 : (t.size_ + 1) % sizeMod = t.size_ + 1 :=
      Nat.mod_eq_of_lt (by unfold sizeMod; omega)
    have hm3 : ((t.size_ + 1) * 3) % sizeMod = (t.size_ + 1) * 3 :=
      Nat.mod_eq_of_lt (by unfold sizeMod; omega)
    have hm2 : (t.size_ * 2) % sizeMod = t.size_ * 2 :=
      Nat.mod_eq_of_lt (by unfold sizeMod; omega)
    obtain ⟨fresh, hfresh, hru⟩ : ∃ fresh : HashMap K V,
        construct ((t.size_ + 1) * 3) t.emptyKey_ = .ok fresh ∧
          IsRoundUp ((t.size_ + 1) * 3) fresh.buckets_.length :=
      construct_roundUp ((t.size_ + 1) * 3) (hcap.smaller (by omega)) t.emptyKey_
    obtain ⟨hIf, hef, hsf, hnf, _⟩ := construct_inv Hash KeyEqual hE _ _ fresh hfresh
    obtain ⟨o, ho, holen⟩ := insertAll_in_place Hash KeyEqual hE d t.emptyKey_ t.buckets_
      fresh hIf hef (by rw [hsf, ← hI.counted]; omega)
    have hres : reserveWith KeyEqual
        (fun (o : HashMap K V) q w => Outcome.table (emplaceImpl Hash KeyEqual (d + 1) o q w))
        t ((t.size_ + 1) % sizeMod) = .ok o := by
      unfold reserveWith rehashWith copyConstruct
      rw [hm1, hm3, hm2, if_pos (by omega), max_eq_left (by omega), hfresh]
      exact ho
    obtain ⟨hIo, _, hcap3, hso, heo, _⟩ := reserveWith_sound Hash KeyEqual hE _
      (emplaceImpl_sound Hash KeyEqual hE (d + 1)) t o _ hI hres
    rw [hm1, hm3] at hcap3
    obtain ⟨r, hr, _, hrlen, _⟩ := emplaceLoop_sound Hash KeyEqual hE o k v hIo
      (by omega) (by rw [heo]; exact hne)
    refine ⟨r, (emplaceImpl_succ Hash KeyEqual (d + 1) t k v r).mpr ⟨hne, o, hres, hr⟩,
      Or.inr ⟨by omega, ?_⟩⟩
    rw [hrlen, holen, Nat.mul_comm]
    exact hru

/-- Reinsertion of pairwise different keys that the table does not hold: the
bucket count afterwards is the larger of the starting request and three times
the final count, rounded up. -/
theorem insertAll_exact (hE : KeyEquiv KeyEqual) (hH : HashCongr Hash KeyEqual)
    (d : Nat) (e : K) (M : Nat) :
    ∀ (rest : List (K × V)) (acc : HashMap K V),
      Inv Hash KeyEqual acc → Uniq KeyEqual acc → acc.emptyKey_ = e →
      rest.Pairwise (fun p q => KeyEqual p.1 e = false → KeyEqual q.1 e = false →
        KeyEqual p.1 q.1 = false) →
      (∀ p, p ∈ rest → KeyEqual p.1 e = false → ∀ u, ¬ Holds KeyEqual acc p.1 u) →
      IsRoundUp (max M (3 * acc.size_)) acc.buckets_.length →
      CanHold K V (3 * (acc.size_ + rest.countP (fun q => !KeyEqual q.1 e))) →
      ∃ o, insertAll KeyEqual
          (fun (o : HashMap K V) k w => Outcome.table (emplaceImpl Hash KeyEqual (d + 2) o k w))
          e rest acc = .ok o ∧
        IsRoundUp (max M (3 * (acc.size_ + rest.countP (fun q => !KeyEqual q.1 e))))
          o.buckets_.length := by
  intro rest
  induction rest with
  | nil =>
    intro acc _ _ _ _ _ hru _
    exact ⟨acc, rfl, by simpa using hru⟩
  | cons p rest ih =>
    intro acc hI hU he hpw hnew hru hcap
    rw [List.pairwise_cons] at hpw
    rw [insertAll]
    cases hk : KeyEqual p.1 e with
    | true =>
      rw [if_pos rfl]
      rw [List.countP_cons_of_neg _ _ (by simp [hk])] at hcap ⊢
      exact ih acc hI hU he hpw.2 (fun q hq => hnew q (List.mem_cons_of_mem _ hq)) hru hcap
    | false =>
      rw [if_neg (by decide)]
      rw [List.countP_cons_of_pos _ _ (by simp [hk])] at hcap ⊢
      have hne : KeyEqual acc.emptyKey_ p.1 = false := by
        rw [he]
        exact hE.ne_symm KeyEqual _ _ hk
      obtain ⟨r, hr, hlen⟩ := emplaceImpl_length Hash KeyEqual hE d acc p.1 p.2 hI hne
        (hcap.smaller (by omega))
      have hem := emplaceImpl_emplaced Hash KeyEqual hE hH _ acc p.1 p.2 r hI hU hr
      obtain ⟨hI1, _, _, he1⟩ := emplaceImpl_sound Hash KeyEqual hE (d + 2) acc p.1 p.2 r.1 hI
        (by simp [hr, Outcome.table])
      have habs : ∀ u, ¬ Holds KeyEqual acc p.1 u := hnew p (List.mem_cons_self _ _) hk
      have hflag : r.2.2 = true := by
        cases hb : r.2.2 with
        | true => rfl
        | false =>
          obtain ⟨⟨u, hu⟩, _⟩ := hem.kept hb
          exact absurd hu (habs u)
      have hsz : r.1.size_ = acc.size_ + 1 := (hem.added hflag).2.2
      have hru1 : IsRoundUp (max M (3 * r.1.size_)) r.1.buckets_.length := by
        rw [hsz]
        rcases hlen with ⟨hroom, hl⟩ | ⟨hno, hl⟩
        · rw [hl]
          exact hru.raise (max_le_max (le_refl _) (by omega))
            (max_le (le_trans (le_max_left _ _) hru.2.1) hroom)
        · have hM : M ≤ 3 * (acc.size_ + 1) := by
            have := le_trans (le_max_left M (3 * acc.size_)) hru.2.1
            omega
          rw [max_eq_right hM]
          exact hl
      obtain ⟨o, ho, hfin⟩ := ih r.1 hI1 hem.uniq (he1.trans he) hpw.2
        (by
          intro q hq hqe u hu
          rcases (hem.holds q.1 u).mp hu with h | ⟨_, h, _⟩
          · exact hnew q (List.mem_cons_of_mem _ hq) hqe u h
          · rw [hpw.1 q hq hk hqe] at h
            exact Bool.false_ne_true h)
        hru1 (hcap.smaller (by rw [hsz]; omega))
      refine ⟨o, ?_, ?_⟩
      · rw [hr]
        exact ho
      · rw [hsz] at hfin
        have e1 : acc.size_ + 1 + rest.countP (fun q => !KeyEqual q.1 e)
            = acc.size_ + (rest.countP (fun q => !KeyEqual q.1 e) + 1) := by omega
        rw [e1] at hfin
        exact hfin

/-- Bucket count after `rehash(n)`, for any re-entry budget of two or more. -/
theorem rehashWith_exact (hE : KeyEquiv KeyEqual) (hH : HashCongr Hash KeyEqual)
    (d : Nat) (t : HashMap K V) (hI : Inv Hash KeyEqual t) (hU : Uniq KeyEqual t)
    (n : Nat) (hn : CanHold K V n) :
    ∃ t1, rehashWith KeyEqual
        (fun (o : HashMap K V) k w => Outcome.table (emplaceImpl Hash KeyEqual (d + 2) o k w))
        t n = .ok t1 ∧
      IsRoundUp (max n (3 * t.size_)) t1.buckets_.length := by
  have hload := hI.load
  have hle := hI.pow2.le
  have hL : CanHold K V t.buckets_.length := CanHold.of_pow2 hI.pow2 hI.fits
  have hmax : CanHold K V (max n (t.size_ * 2)) := by
    rcases le_total n (t.size_ * 2) with h | h
    · rw [max_eq_right h]; exact hL.smaller (by omega)
    · rw [max_eq_left h]; exact hn
  have hm2 : (t.size_ * 2) % sizeMod = t.size_ * 2 :=
    Nat.mod_eq_of_lt (by unfold sizeMod; omega)
  obtain ⟨fresh, hfresh, hru⟩ : ∃ fresh : HashMap K V,
      construct (max n (t.size_ * 2)) t.emptyKey_ = .ok fresh ∧
        IsRoundUp (max n (t.size_ * 2)) fresh.buckets_.length :=
    construct_roundUp (max n (t.size_ * 2)) hmax t.emptyKey_
  obtain ⟨hIf, hef, hsf, _, hocc⟩ := construct_inv Hash KeyEqual hE _ _ fresh hfresh
  have hnone : ∀ k u, ¬ Holds KeyEqual fresh k u := by
    rintro k u ⟨i, _, hoi, _⟩
    rw [hocc i] at hoi
    exact absurd hoi (by decide)
  have hUf : Uniq KeyEqual fresh := by
    intro i j _ _ hoi
    rw [hocc i] at hoi
    exact absurd hoi (by decide)
  obtain ⟨o, ho, hfin⟩ := insertAll_exact Hash KeyEqual hE hH d t.emptyKey_
    (max n (t.size_ * 2)) t.buckets_ fresh hIf hUf hef (uniq_pairwise KeyEqual t hU)
    (fun p _ _ u => hnone p.1 u) (by rw [hsf]; simpa using hru)
    (hL.smaller (by rw [hsf, ← hI.counted]; omega))
  refine ⟨o, ?_, ?_⟩
  · unfold rehashWith copyConstruct
    rw [hm2, hfresh]
    exact ho
  · rw [hsf, ← hI.counted, Nat.zero_add] at hfin
    have e1 : max (max n (t.size_ * 2)) (3 * t.size_) = max n (3 * t.size_) := by omega
    rw [e1] at hfin
    exact hfin

end ExactProof

section ExactClaim

variable {K V : Type} [Inhabited V] [BucketStorage K V]
variable (Hash : K → Nat) (KeyEqual : K → K → Bool)

/-- C20 (as amended): on a reachable table with `s = size()`, for every `n`
that the vector can hold once rounded up to a power of two (within `size_t`,
`max_size()` and the storage of the allocator), `rehash(n)` returns a table
whose `bucketCount()` is the smallest power of two that is at least
`max(n, 3 * s, 1)`, with `size()` unchanged and `size() * 3 ≤ bucketCount()`.
The table shrinks exactly when `2 * max(n, 3 * s, 1) ≤ bucketCount()` held
before, and does not grow when `max(n, 3 * s) ≤ bucketCount()` held before. A
re-entry budget of two for the insertions of the copying constructor is enough
and gives the same bucket count. -/
theorem rehash_exact_bucket_count (hE : KeyEquiv KeyEqual) (hH : HashCongr Hash KeyEqual)
    {t : HashMap K V} (hR : Reachable Hash KeyEqual t) (n : Nat) (hn : CanHold K V n) :
    ∃ t1, rehash Hash KeyEqual t n = .ok t1 ∧
      (∃ x, bucketCount t1 = 2 ^ x) ∧
      max n (max (3 * size t) 1) ≤ bucketCount t1 ∧
      (∀ x, max n (max (3 * size t) 1) ≤ 2 ^ x → bucketCount t1 ≤ 2 ^ x) ∧
      size t1 = size t ∧ size t1 * 3 ≤ bucketCount t1 ∧
      (bucketCount t1 < bucketCount t ↔ 2 * max n (max (3 * size t) 1) ≤ bucketCount t) ∧
      (max n (3 * size t) ≤ bucketCount t → bucketCount t1 ≤ bucketCount t) ∧
      ∃ t2, rehashWith KeyEqual
          (fun (o : HashMap K V) k w => Outcome.table (emplaceImpl Hash KeyEqual 2 o k w))
          t n = .ok t2 ∧ bucketCount t2 = bucketCount t1 := by
  have hI := hR.inv Hash KeyEqual hE
  have hU := hR.uniq Hash KeyEqual hE hH
  obtain ⟨t1, ht1, hru⟩ := rehashWith_exact Hash KeyEqual hE hH 1 t hI hU n hn
  obtain ⟨t2, ht2, hru2⟩ := rehashWith_exact Hash KeyEqual hE hH 0 t hI hU n hn
  have hr1 : rehash Hash KeyEqual t n = .ok t1 := ht1
  obtain ⟨hI1, _, _, hs1, _⟩ := rehash_effect Hash KeyEqual hE hH hI hU n hr1
  have hload1 := hI1.load
  obtain ⟨e, _, hL⟩ := hI.pow2
  have hru1 : IsRoundUp (max n (max (3 * t.size_) 1)) t1.buckets_.length :=
    hru.raise (max_le_max (le_refl _) (le_max_left _ _))
      (max_le (le_trans (le_max_left _ _) hru.2.1)
        (max_le (le_trans (le_max_right _ _) hru.2.1) hru.one_le))
  obtain ⟨⟨x, hx⟩, hge, hmin⟩ := hru1
  unfold bucketCount size
  refine ⟨t1, hr1, ⟨x, hx⟩, hge, hmin, hs1, by omega, ?_, ?_,
    t2, ht2, IsRoundUp.unique hru2 hru⟩
  · constructor
    · intro hlt
      rw [hx, hL] at hlt
      have hxe : x < e := (Nat.pow_lt_pow_iff_right (by decide)).mp hlt
      have h2 : 2 ^ (x + 1) ≤ 2 ^ e := Nat.pow_le_pow_right (by decide) hxe
      rw [Nat.pow_succ] at h2
      rw [hL]
      rw [hx] at hge
      omega
    · intro h2m
      have hm1 : 1 ≤ max n (max (3 * t.size_) 1) :=
        le_trans (le_max_right _ _) (le_max_right _ _)
      rw [hL] at h2m ⊢
      have he : e ≠ 0 := by
        intro h0
        rw [h0] at h2m
        simp only [Nat.pow_zero] at h2m
        omega
      obtain ⟨e1, rfl⟩ : ∃ e1, e = e1 + 1 := ⟨e - 1, by omega⟩
      rw [Nat.pow_succ] at h2m ⊢
      have := hmin e1 (by omega)
      have hp : 0 < 2 ^ e1 := Nat.one_le_two_pow
      omega
  · intro hle
    rw [hL] at hle ⊢
    apply hmin e
    exact max_le (le_trans (le_max_left _ _) hle)
      (max_le (le_trans (le_max_right _ _) hle) Nat.one_le_two_pow)

end ExactClaim

theorem rehash_exact_bucket_count_witness :
    KeyEquiv exampleEqual ∧ HashCongr exampleHash exampleEqual ∧
      Reachable exampleHash exampleEqual sixteenCollided ∧ CanHold Nat Nat 0 ∧
      ∃ t1, rehash exampleHash exampleEqual sixteenCollided 0 = .ok t1 ∧
        (∃ x, bucketCount t1 = 2 ^ x) ∧
        max 0 (max (3 * size sixteenCollided) 1) ≤ bucketCount t1 ∧
        (∀ x, max 0 (max (3 * size sixteenCollided) 1) ≤ 2 ^ x → bucketCount t1 ≤ 2 ^ x) ∧
        size t1 = size sixteenCollided ∧ size t1 * 3 ≤ bucketCount t1 ∧
        (bucketCount t1 < bucketCount sixteenCollided
          ↔ 2 * max 0 (max (3 * size sixteenCollided) 1) ≤ bucketCount sixteenCollided) ∧
        (max 0 (3 * size sixteenCollided) ≤ bucketCount sixteenCollided →
          bucketCount t1 ≤ bucketCount sixteenCollided) ∧
        ∃ t2, rehashWith exampleEqual
            (fun (o : HashMap Nat Nat) k w =>
              Outcome.table (emplaceImpl exampleHash exampleEqual 2 o k w))
            sixteenCollided 0 = .ok t2 ∧ bucketCount t2 = bucketCount t1 :=
  ⟨exampleEqual_equiv, exampleHash_congr, sixteenCollided_reachable,
    ⟨0, by decide, by decide, by decide, by decide⟩,
    rehash_exact_bucket_count exampleHash exampleEqual exampleEqual_equiv exampleHash_congr
      sixteenCollided_reachable 0 ⟨0, by decide, by decide, by decide, by decide⟩⟩

/-- C20, failing input: the example table has 16 buckets and 3 entries, so
`max(7, 3 * 3) = 9` is below its bucket count, yet `rehash(7)` returns a table
of 16 buckets again: the table does not shrink. -/
theorem rehash_no_shrink_counterexample :
    Reachable exampleHash exampleEqual exampleMap ∧
      max 7 (3 * size exampleMap) < bucketCount exampleMap ∧
      ∃ t1, rehash exampleHash exampleEqual exampleMap 7 = .ok t1 ∧
        bucketCount t1 = bucketCount exampleMap :=
  ⟨exampleMap_reachable, by decide, _, rfl, by decide⟩

end HashMapModel
